import Mathlib

/-!
# Verification of the range-bucketed event cache

Shallow embedding of `src/components/calendar/eventsources/cache.ts` and proofs of
the specification claims about it.

Modelling conventions:

* A JavaScript `Date`'s time value is modelled as an unbounded `Int` of epoch
  milliseconds.  The host's local timezone is modelled as a fixed UTC offset of
  zero (no DST), so local-midnight arithmetic is plain integer arithmetic on the
  epoch value.  Within the range of valid JS dates all arithmetic in the source
  is exact integer arithmetic on the time value, so `Int` is a faithful carrier.
* JS `getFullYear`/`getMonth`/`getDate` and the internal `MakeDay` used by
  `setDate`/`setMonth` are modelled with the standard civil-calendar conversions
  (`civilFromDays` / `daysFromCivil`), which implement exactly the proleptic
  Gregorian calendar mandated by ECMA-262.
* `Int` division `/` is Euclidean division, which coincides with floor division
  for the positive literal divisors used throughout.
-/

set_option maxRecDepth 10000

namespace CacheModel

/-! ## Civil calendar: the proleptic Gregorian conversions behind JS `Date`

`civilFromDays` maps a day number (days since 1970-01-01) to a calendar date
`(year, month 1..12, day 1..31)`; `daysFromCivil` is the inverse (and models the
ECMA-262 `MakeDay` operation when applied to a normalized month).  These are the
standard Hinnant algorithms. -/

structure Civil where
  y : Int
  m : Int
  d : Int
deriving DecidableEq, Repr

def daysFromCivil (c : Civil) : Int :=
  let y : Int := if c.m ≤ 2 then c.y - 1 else c.y
  let era : Int := y / 400
  let yoe : Int := y - era * 400
  let mp : Int := (c.m + 9) % 12
  let doy : Int := (153 * mp + 2) / 5 + c.d - 1
  let doe : Int := yoe * 365 + yoe / 4 - yoe / 100 + doy
  era * 146097 + doe - 719468

def civilFromDays (z : Int) : Civil :=
  let z' : Int := z + 719468
  let era : Int := z' / 146097
  let doe : Int := z' - era * 146097
  let yoe : Int := (doe - doe / 1460 + doe / 36524 - doe / 146096) / 365
  let y : Int := yoe + era * 400
  let doy : Int := doe - (365 * yoe + yoe / 4 - yoe / 100)
  let mp : Int := (5 * doy + 2) / 153
  let d : Int := doy - (153 * mp + 2) / 5 + 1
  let m : Int := mp + (if mp < 10 then 3 else -9)
  ⟨if m ≤ 2 then y + 1 else y, m, d⟩

/-! ### Year-of-era recovery

The only deep fact about `civilFromDays` is that its year-of-era formula is
correct.  We prove it by monotonicity plus finite checks at the 400 year
boundaries of an era. -/

/-- Day-of-era of the first day of year-of-era `y` (years start Mar 1). -/
def sYear (y : Int) : Int := 365 * y + y / 4 - y / 100

/-- Numerator of the year-of-era recovery formula. -/
def nDoe (doe : Int) : Int := doe - doe / 1460 + doe / 36524 - doe / 146096

/-- The year-of-era recovery formula itself. -/
def gYoe (doe : Int) : Int := nDoe doe / 365

theorem nDoe_mono {a b : Int} (ha : 0 ≤ a) (hab : a ≤ b) : nDoe a ≤ nDoe b := by
  have h : ∀ k : Nat, nDoe a ≤ nDoe (a + k) := by
    intro k
    induction k with
    | zero => simp
    | succ n ih =>
      have h2 : nDoe (a + n) ≤ nDoe (a + n + 1) := by unfold nDoe; omega
      have e : ((n + 1 : Nat) : Int) = (n : Int) + 1 := by push_cast; ring
      rw [e, ← add_assoc]
      exact ih.trans h2
  obtain ⟨k, rfl⟩ : ∃ k : Nat, b = a + k := ⟨(b - a).toNat, by omega⟩
  exact h k

theorem gYoe_mono {a b : Int} (ha : 0 ≤ a) (hab : a ≤ b) : gYoe a ≤ gYoe b :=
  Int.ediv_le_ediv (by norm_num) (nDoe_mono ha hab)

theorem gYoe_boundaries :
    ∀ y ∈ List.range 399,
      gYoe (sYear y) = y ∧ gYoe (sYear (y + 1) - 1) = y := by decide

theorem gYoe_last : gYoe (sYear 399) = 399 ∧ gYoe 146096 = 399 := by decide

/-- End of year-of-era `y`: start of year `y + 1`, except for the last year of the
era, which absorbs the era's leap day 146096. -/
def yEnd (y : Int) : Int := if 400 ≤ y then 146097 else sYear y

theorem cover_aux : ∀ n : Nat, n ≤ 400 → ∀ doe : Int, 0 ≤ doe → doe < yEnd n →
    ∃ y : Nat, y < n ∧ sYear y ≤ doe ∧ doe < yEnd (y + 1) := by
  intro n
  induction n with
  | zero =>
    intro _ doe h0 hlt
    have h00 : yEnd ((0 : Nat) : Int) = 0 := by decide
    omega
  | succ n ih =>
    intro hn doe h0 hlt
    by_cases hcase : sYear n ≤ doe
    · refine ⟨n, Nat.lt_succ_self n, hcase, ?_⟩
      have hc1 : ((n + 1 : Nat) : Int) = (n : Int) + 1 := by push_cast; ring
      rw [hc1] at hlt
      exact hlt
    · have hyn : yEnd (n : Int) = sYear (n : Int) := by
        unfold yEnd
        rw [if_neg]
        omega
      obtain ⟨y, hy1, hy2, hy3⟩ := ih (by omega) doe h0 (by rw [hyn]; omega)
      exact ⟨y, Nat.lt_succ_of_lt hy1, hy2, hy3⟩

theorem sYear_cover (doe : Int) (h0 : 0 ≤ doe) (h1 : doe ≤ 146096) :
    ∃ y : Nat, y ≤ 399 ∧ sYear y ≤ doe ∧ doe < yEnd (y + 1) := by
  have h400 : yEnd ((400 : Nat) : Int) = 146097 := by decide
  obtain ⟨y, hy1, hy2, hy3⟩ := cover_aux 400 (le_refl _) doe h0 (by rw [h400]; omega)
  exact ⟨y, by omega, hy2, hy3⟩

/-- Core recovery: the year-of-era formula applied to any day-of-era returns its
year, and the day-of-year is in `[0, 365]`. -/
theorem gYoe_spec (doe : Int) (h0 : 0 ≤ doe) (h1 : doe ≤ 146096) :
    0 ≤ gYoe doe ∧ gYoe doe ≤ 399 ∧ sYear (gYoe doe) ≤ doe ∧
      doe - sYear (gYoe doe) ≤ 365 ∧
      (gYoe doe ≤ 398 → doe < sYear (gYoe doe + 1)) := by
  obtain ⟨y, hy1, hy2, hy3⟩ := sYear_cover doe h0 h1
  have hmono1 : gYoe (sYear y) ≤ gYoe doe := gYoe_mono (by unfold sYear; push_cast; omega) hy2
  have hylast : gYoe doe ≤ (y : Int) ∧ gYoe (sYear y) = y ∧ yEnd (y + 1) - sYear y ≤ 366 := by
    by_cases hy399 : y = 399
    · subst hy399
      have h1' : gYoe doe ≤ gYoe 146096 := gYoe_mono h0 h1
      have h2' := gYoe_last
      have h3' : yEnd ((399 : Nat) + 1) = 146097 := by decide
      have h4' : sYear ((399 : Nat) : Int) = 145731 := by decide
      push_cast at *
      omega
    · have hb := gYoe_boundaries y (by simp only [List.mem_range]; omega)
      have hmono2 : gYoe doe ≤ gYoe (sYear (y + 1) - 1) := by
        apply gYoe_mono (by omega)
        have : yEnd ((y : Int) + 1) = sYear ((y : Int) + 1) := by unfold yEnd; rw [if_neg]; omega
        omega
      have hgap : sYear ((y : Int) + 1) - sYear y ≤ 366 := by unfold sYear; omega
      have : yEnd ((y : Int) + 1) = sYear ((y : Int) + 1) := by unfold yEnd; rw [if_neg]; omega
      push_cast at *
      omega
  have heq : gYoe doe = (y : Int) := le_antisymm hylast.1 (by rw [← hylast.2.1]; exact hmono1)
  rw [heq]
  refine ⟨by omega, by omega, hy2, ?_, ?_⟩
  · have h366 := hylast.2.2
    have hse : sYear ((y : Int) + 1) ≥ sYear y + 365 := by unfold sYear; omega
    by_cases hy399 : y = 399
    · subst hy399
      have h4' : sYear ((399 : Nat) : Int) = 145731 := by decide
      push_cast at *
      omega
    · have : yEnd ((y : Int) + 1) = sYear ((y : Int) + 1) := by unfold yEnd; rw [if_neg]; omega
      omega
  · intro hy398
    have : yEnd ((y : Int) + 1) = sYear ((y : Int) + 1) := by unfold yEnd; rw [if_neg]; omega
    omega

theorem month_level :
    ∀ doy ∈ List.range 366,
      (let mp := (5 * (doy : Int) + 2) / 153
       0 ≤ mp ∧ mp ≤ 11 ∧
       (153 * mp + 2) / 5 ≤ (doy : Int) ∧ (doy : Int) < (153 * (mp + 1) + 2) / 5 ∧
       1 ≤ (doy : Int) - (153 * mp + 2) / 5 + 1 ∧ (doy : Int) - (153 * mp + 2) / 5 + 1 ≤ 31) := by
  decide

theorem month_level_int (doy : Int) (h0 : 0 ≤ doy) (h1 : doy ≤ 365) :
    0 ≤ (5 * doy + 2) / 153 ∧ (5 * doy + 2) / 153 ≤ 11 ∧
    (153 * ((5 * doy + 2) / 153) + 2) / 5 ≤ doy ∧
    doy < (153 * (((5 * doy + 2) / 153) + 1) + 2) / 5 ∧
    1 ≤ doy - (153 * ((5 * doy + 2) / 153) + 2) / 5 + 1 ∧
    doy - (153 * ((5 * doy + 2) / 153) + 2) / 5 + 1 ≤ 31 := by
  have h := month_level doy.toNat (by simp only [List.mem_range]; omega)
  simp only at h
  rw [Int.toNat_of_nonneg h0] at h
  exact h

/-- Workhorse: with the intermediate quantities of `civilFromDays z` abstracted as
variables constrained by their defining equations, `civilFromDays z` is the
expected triple and `daysFromCivil` inverts it. -/
theorem roundtrip_core (z era doe yoe doy mp m d y : Int)
    (he : era = (z + 719468) / 146097)
    (hdoe : doe = z + 719468 - era * 146097)
    (hyoe : yoe = (doe - doe / 1460 + doe / 36524 - doe / 146096) / 365)
    (hdoy : doy = doe - (365 * yoe + yoe / 4 - yoe / 100))
    (hmp : mp = (5 * doy + 2) / 153)
    (hd : d = doy - (153 * mp + 2) / 5 + 1)
    (hm : m = mp + (if mp < 10 then 3 else -9))
    (hy : y = yoe + era * 400) :
    civilFromDays z = ⟨if m ≤ 2 then y + 1 else y, m, d⟩ ∧
      daysFromCivil ⟨if m ≤ 2 then y + 1 else y, m, d⟩ = z := by
  have hdoe0 : 0 ≤ doe := by omega
  have hdoe1 : doe ≤ 146096 := by omega
  have hg : yoe = gYoe doe := by rw [hyoe]; rfl
  have hgs := gYoe_spec doe hdoe0 hdoe1
  rw [← hg] at hgs
  unfold sYear at hgs
  obtain ⟨hyoe0, hyoe1, hsY, hdoy365, hnexty⟩ := hgs
  have hml := month_level_int doy (by omega) (by omega)
  rw [← hmp] at hml
  constructor
  · unfold civilFromDays
    simp only
    rw [← he, ← hdoe, ← hyoe, ← hdoy, ← hmp, ← hm, ← hd, ← hy]
  · unfold daysFromCivil
    simp only
    by_cases hc : mp < 10
    · rw [if_pos hc] at hm
      have hm2 : ¬ (m ≤ 2) := by omega
      rw [if_neg hm2, if_neg hm2]
      have h3 : (m + 9) % 12 = mp := by omega
      have h2 : y - y / 400 * 400 = yoe := by omega
      rw [h3, h2]
      have h1 : y / 400 = era := by omega
      rw [h1]
      omega
    · rw [if_neg hc] at hm
      have hm2 : m ≤ 2 := by omega
      rw [if_pos hm2, if_pos hm2]
      have e0 : y + 1 - 1 = y := by ring
      rw [e0]
      have h3 : (m + 9) % 12 = mp := by omega
      have h2 : y - y / 400 * 400 = yoe := by omega
      rw [h3, h2]
      have h1 : y / 400 = era := by omega
      rw [h1]
      omega

theorem days_civil_roundtrip (z : Int) : daysFromCivil (civilFromDays z) = z := by
  obtain ⟨h1, h2⟩ := roundtrip_core z _ _ _ _ _ _ _ _ rfl rfl rfl rfl rfl rfl rfl rfl
  rw [h1]
  exact h2

theorem civilFromDays_inj {a b : Int} (h : civilFromDays a = civilFromDays b) : a = b := by
  have ha := days_civil_roundtrip a
  have hb := days_civil_roundtrip b
  rw [h] at ha
  exact ha.symm.trans hb

theorem civil_bounds (z : Int) :
    1 ≤ (civilFromDays z).m ∧ (civilFromDays z).m ≤ 12 ∧
    1 ≤ (civilFromDays z).d ∧ (civilFromDays z).d ≤ 31 := by
  obtain ⟨h1, _⟩ := roundtrip_core z _ _ _ _ _ _ _ _ rfl rfl rfl rfl rfl rfl rfl rfl
  rw [h1]
  have hdoe0 : 0 ≤ (z + 719468 - (z + 719468) / 146097 * 146097) := by omega
  have hdoe1 : (z + 719468 - (z + 719468) / 146097 * 146097) ≤ 146096 := by omega
  have hgs := gYoe_spec _ hdoe0 hdoe1
  unfold gYoe nDoe sYear at hgs
  obtain ⟨hyoe0, hyoe1, hsY, hdoy365, hnexty⟩ := hgs
  have hml := month_level_int
    (z + 719468 - (z + 719468) / 146097 * 146097 -
      (365 * ((z + 719468 - (z + 719468) / 146097 * 146097 -
            (z + 719468 - (z + 719468) / 146097 * 146097) / 1460 +
            (z + 719468 - (z + 719468) / 146097 * 146097) / 36524 -
            (z + 719468 - (z + 719468) / 146097 * 146097) / 146096) / 365) +
        ((z + 719468 - (z + 719468) / 146097 * 146097 -
            (z + 719468 - (z + 719468) / 146097 * 146097) / 1460 +
            (z + 719468 - (z + 719468) / 146097 * 146097) / 36524 -
            (z + 719468 - (z + 719468) / 146097 * 146097) / 146096) / 365) / 4 -
        ((z + 719468 - (z + 719468) / 146097 * 146097 -
            (z + 719468 - (z + 719468) / 146097 * 146097) / 1460 +
            (z + 719468 - (z + 719468) / 146097 * 146097) / 36524 -
            (z + 719468 - (z + 719468) / 146097 * 146097) / 146096) / 365) / 100))
    (by omega) (by omega)
  refine ⟨?_, ?_, ?_, ?_⟩ <;> simp only <;> (try split_ifs) <;> omega

/-! ### Month indices

`monthIdx z` is the zero-based absolute month number of day `z`; `FOM mi` is the
first day of absolute month `mi`.  These notions organize the reasoning about
JS `setMonth`-based month stepping. -/

def monthIdx (z : Int) : Int := (civilFromDays z).y * 12 + ((civilFromDays z).m - 1)

def FOM (mi : Int) : Int := daysFromCivil ⟨mi / 12, mi % 12 + 1, 1⟩

theorem daysFromCivil_linear_d (y m d : Int) :
    daysFromCivil ⟨y, m, d⟩ = daysFromCivil ⟨y, m, 1⟩ + (d - 1) := by
  unfold daysFromCivil
  simp only
  split_ifs <;> omega

theorem FOM_split (Y m : Int) (h1 : 1 ≤ m) (h2 : m ≤ 12) :
    FOM (Y * 12 + (m - 1)) = daysFromCivil ⟨Y, m, 1⟩ := by
  unfold FOM
  have e1 : (Y * 12 + (m - 1)) / 12 = Y := by omega
  have e2 : (Y * 12 + (m - 1)) % 12 + 1 = m := by omega
  rw [e1, e2]

theorem FOM_succ_lt (mi : Int) : FOM mi < FOM (mi + 1) := by
  unfold FOM daysFromCivil
  simp only
  split_ifs <;> omega

theorem FOM_lt {a b : Int} (hab : a < b) : FOM a < FOM b := by
  have h : ∀ k : Nat, FOM a < FOM (a + 1 + k) := by
    intro k
    induction k with
    | zero => simpa using FOM_succ_lt a
    | succ n ih =>
      have h2 := FOM_succ_lt (a + 1 + n)
      have e : ((n + 1 : Nat) : Int) = (n : Int) + 1 := by push_cast; ring
      rw [e, ← add_assoc]
      exact ih.trans h2
  obtain ⟨k, rfl⟩ : ∃ k : Nat, b = a + 1 + k := ⟨(b - a - 1).toNat, by omega⟩
  exact h k

theorem FOM_le_mono {a b : Int} (hab : a ≤ b) : FOM a ≤ FOM b := by
  rcases lt_or_eq_of_le hab with h | h
  · exact le_of_lt (FOM_lt h)
  · rw [h]

/-- The first day of `z`'s month, in terms of `z` itself. -/
theorem FOM_monthIdx (z : Int) :
    FOM (monthIdx z) = z - ((civilFromDays z).d - 1) := by
  unfold monthIdx
  rw [FOM_split _ _ (civil_bounds z).1 (civil_bounds z).2.1]
  have h := daysFromCivil_linear_d (civilFromDays z).y (civilFromDays z).m (civilFromDays z).d
  have hz : daysFromCivil ⟨(civilFromDays z).y, (civilFromDays z).m, (civilFromDays z).d⟩ = z := by
    have : (⟨(civilFromDays z).y, (civilFromDays z).m, (civilFromDays z).d⟩ : Civil) =
        civilFromDays z := rfl
    rw [this]
    exact days_civil_roundtrip z
  omega

theorem FOM_monthIdx_le (z : Int) : FOM (monthIdx z) ≤ z := by
  have h := FOM_monthIdx z
  have hb := (civil_bounds z).2.2.1
  omega

/-- `z` lies strictly before the first day of the next month. -/
theorem lt_FOM_succ_core (z era doe yoe doy mp m d y : Int)
    (he : era = (z + 719468) / 146097)
    (hdoe : doe = z + 719468 - era * 146097)
    (hyoe : yoe = (doe - doe / 1460 + doe / 36524 - doe / 146096) / 365)
    (hdoy : doy = doe - (365 * yoe + yoe / 4 - yoe / 100))
    (hmp : mp = (5 * doy + 2) / 153)
    (hd : d = doy - (153 * mp + 2) / 5 + 1)
    (hm : m = mp + (if mp < 10 then 3 else -9))
    (hy : y = yoe + era * 400) :
    z < FOM ((if m ≤ 2 then y + 1 else y) * 12 + (m - 1) + 1) := by
  have hdoe0 : 0 ≤ doe := by omega
  have hdoe1 : doe ≤ 146096 := by omega
  have hg : yoe = gYoe doe := by rw [hyoe]; rfl
  have hgs := gYoe_spec doe hdoe0 hdoe1
  rw [← hg] at hgs
  unfold sYear at hgs
  obtain ⟨hyoe0, hyoe1, hsY, hdoy365, hnexty⟩ := hgs
  have hml := month_level_int doy (by omega) (by omega)
  rw [← hmp] at hml
  by_cases hc : mp < 10
  · rw [if_pos hc] at hm
    have hm2 : ¬ (m ≤ 2) := by omega
    rw [if_neg hm2]
    by_cases hc12 : m = 12
    · -- December: next month is January of the next civil year, same March-year.
      have e0 : y * 12 + (m - 1) + 1 = (y + 1) * 12 + ((1 : Int) - 1) := by omega
      rw [e0, FOM_split _ _ (by omega) (by omega)]
      unfold daysFromCivil
      simp only
      rw [if_pos (by omega : (1 : Int) ≤ 2)]
      have e1 : y + 1 - 1 = y := by ring
      rw [e1]
      have h3 : ((1 : Int) + 9) % 12 = mp + 1 := by omega
      have h2 : y - y / 400 * 400 = yoe := by omega
      rw [h3, h2]
      have h1 : y / 400 = era := by omega
      rw [h1]
      omega
    · have e0 : y * 12 + (m - 1) + 1 = y * 12 + ((m + 1) - 1) := by omega
      rw [e0, FOM_split _ _ (by omega) (by omega)]
      unfold daysFromCivil
      simp only
      rw [if_neg (by omega : ¬ (m + 1 ≤ 2))]
      have h3 : (m + 1 + 9) % 12 = mp + 1 := by omega
      have h2 : y - y / 400 * 400 = yoe := by omega
      rw [h3, h2]
      have h1 : y / 400 = era := by omega
      rw [h1]
      omega
  · rw [if_neg hc] at hm
    have hm2 : m ≤ 2 := by omega
    rw [if_pos hm2]
    have e0 : (y + 1) * 12 + (m - 1) + 1 = (y + 1) * 12 + ((m + 1) - 1) := by omega
    rw [e0, FOM_split _ _ (by omega) (by omega)]
    by_cases hjan : m = 1
    · -- January: next month is February, same March-year.
      unfold daysFromCivil
      simp only
      rw [if_pos (by omega : m + 1 ≤ 2)]
      have e1 : y + 1 - 1 = y := by ring
      rw [e1]
      have h3 : (m + 1 + 9) % 12 = mp + 1 := by omega
      have h2 : y - y / 400 * 400 = yoe := by omega
      rw [h3, h2]
      have h1 : y / 400 = era := by omega
      rw [h1]
      omega
    · -- February: next month is March, the start of the next March-year.
      have hfeb : m = 2 := by omega
      unfold daysFromCivil
      simp only
      rw [if_neg (by omega : ¬ (m + 1 ≤ 2))]
      have h3 : (m + 1 + 9) % 12 = 0 := by omega
      rw [h3]
      -- relate the next civil year to the next year-of-era
      have ha4 : y + 1 - (y + 1) / 400 * 400 = yoe + 1 - (yoe + 1) / 400 * 400 := by omega
      rw [ha4]
      have hyp1 : (y + 1) / 400 = era + (yoe + 1) / 400 := by omega
      rw [hyp1]
      by_cases hlast : yoe = 399
      · subst hlast
        omega
      · have hz0 : (yoe + 1) / 400 = 0 := by omega
        have hnum : yoe + 1 - (yoe + 1) / 400 * 400 = yoe + 1 := by omega
        rw [hnum]
        omega

theorem lt_FOM_succ (z : Int) : z < FOM (monthIdx z + 1) := by
  have hcore := lt_FOM_succ_core z _ _ _ _ _ _ _ _ rfl rfl rfl rfl rfl rfl rfl rfl
  obtain ⟨h1, _⟩ := roundtrip_core z _ _ _ _ _ _ _ _ rfl rfl rfl rfl rfl rfl rfl rfl
  unfold monthIdx
  rw [h1]
  exact hcore

theorem monthIdx_mono {a b : Int} (hab : a ≤ b) : monthIdx a ≤ monthIdx b := by
  by_contra hlt
  push_neg at hlt
  have h1 : FOM (monthIdx b + 1) ≤ FOM (monthIdx a) := FOM_le_mono (by omega)
  have h2 := FOM_monthIdx_le a
  have h3 := lt_FOM_succ b
  omega

theorem monthIdx_FOM (mi : Int) : monthIdx (FOM mi) = mi := by
  by_contra hne
  rcases lt_or_gt_of_ne hne with h | h
  · have h1 := lt_FOM_succ (FOM mi)
    have h2 : FOM (monthIdx (FOM mi) + 1) ≤ FOM mi := FOM_le_mono (by omega)
    omega
  · have h1 := FOM_monthIdx_le (FOM mi)
    have h2 : FOM mi < FOM (monthIdx (FOM mi)) := FOM_lt (by omega)
    omega

/-- The civil date of a first-of-month day. -/
theorem civil_FOM (mi : Int) :
    civilFromDays (FOM mi) = ⟨mi / 12, mi % 12 + 1, 1⟩ := by
  have hd : (civilFromDays (FOM mi)).d = 1 := by
    have hfom := FOM_monthIdx (FOM mi)
    rw [monthIdx_FOM mi] at hfom
    omega
  have hmi := monthIdx_FOM mi
  unfold monthIdx at hmi
  have hb := civil_bounds (FOM mi)
  have hy : (civilFromDays (FOM mi)).y = mi / 12 := by omega
  have hm : (civilFromDays (FOM mi)).m = mi % 12 + 1 := by omega
  have : civilFromDays (FOM mi) =
      ⟨(civilFromDays (FOM mi)).y, (civilFromDays (FOM mi)).m, (civilFromDays (FOM mi)).d⟩ := rfl
  rw [this, hy, hm, hd]

/-! ## JS `Date` operations

A time value is an `Int` of epoch milliseconds; the local timezone is UTC.
`setDate`/`setMonth` follow the ECMA-262 `MakeDay` computation: day count of the
first of the (normalized) month, plus the day argument minus one, keeping the
time of day. -/

def msPerDay : Int := 86400000

/-- Day number (days since the epoch) containing `t` (local-midnight flooring). -/
def dayNumber (t : Int) : Int := t / msPerDay

def timeOfDay (t : Int) : Int := t % msPerDay

def civilOf (t : Int) : Civil := civilFromDays (dayNumber t)

def getFullYear (t : Int) : Int := (civilOf t).y

/-- JS `getMonth` is 0-based. -/
def getMonth (t : Int) : Int := (civilOf t).m - 1

def getDate (t : Int) : Int := (civilOf t).d

/-- JS `getDay`: day of week, Sunday = 0.  1970-01-01 (day 0) was a Thursday (4). -/
def getDay (t : Int) : Int := (dayNumber t + 4) % 7

/-- `d.setHours(0, 0, 0, 0)`. -/
def setHoursZero (t : Int) : Int := dayNumber t * msPerDay

/-- `d.setDate(n)`. -/
def setDate (t : Int) (n : Int) : Int :=
  (daysFromCivil ⟨(civilOf t).y, (civilOf t).m, 1⟩ + (n - 1)) * msPerDay + timeOfDay t

/-- `d.setMonth(mo)` with 0-based, possibly out-of-range `mo`. -/
def setMonth (t : Int) (mo : Int) : Int :=
  let ym : Int := (civilOf t).y * 12 + mo
  (daysFromCivil ⟨ym / 12, ym % 12 + 1, 1⟩ + ((civilOf t).d - 1)) * msPerDay + timeOfDay t

theorem dayNumber_midnight (n : Int) : dayNumber (n * msPerDay) = n := by
  unfold dayNumber msPerDay
  omega

theorem timeOfDay_midnight (n : Int) : timeOfDay (n * msPerDay) = 0 := by
  unfold timeOfDay msPerDay
  omega

/-- The round trip at the `civilOf` level: rebuilding the day count. -/
theorem daysFromCivil_civilOf (t : Int) : daysFromCivil (civilOf t) = dayNumber t :=
  days_civil_roundtrip (dayNumber t)

/-- `setDate` relative to the current day-of-month shifts by whole days. -/
theorem setDate_shift (t k : Int) : setDate t (getDate t + k) = t + k * msPerDay := by
  unfold setDate getDate
  have hlin := daysFromCivil_linear_d (civilOf t).y (civilOf t).m (civilOf t).d
  have heta : (⟨(civilOf t).y, (civilOf t).m, (civilOf t).d⟩ : Civil) = civilOf t := rfl
  rw [heta] at hlin
  rw [daysFromCivil_civilOf] at hlin
  unfold dayNumber timeOfDay msPerDay at *
  omega

/-! ## Bucketing and key derivation (from the source) -/

inductive EventGrouping
  | day
  | week
  | month
deriving DecidableEq, Repr

def startOfDay (date : Int) : Int := setHoursZero date

def startOfWeek (date : Int) : Int :=
  let d := startOfDay date
  let day := getDay d
  let diff := (day + 6) % 7
  setDate d (getDate d - diff)

def startOfMonth (date : Int) : Int := setDate (startOfDay date) 1

def advance (date : Int) (grouping : EventGrouping) : Int :=
  match grouping with
  | .day => setDate date (getDate date + 1)
  | .week => setDate date (getDate date + 7)
  | .month => setMonth date (getMonth date + 1)

def bucketStart (date : Int) (grouping : EventGrouping) : Int :=
  match grouping with
  | .day => startOfDay date
  | .week => startOfWeek date
  | .month => startOfMonth date

/-! ### Closed forms for the bucketing primitives -/

theorem startOfDay_eq (t : Int) : startOfDay t = dayNumber t * msPerDay := rfl

theorem startOfWeek_eq (t : Int) :
    startOfWeek t = (dayNumber t - (dayNumber t + 3) % 7) * msPerDay := by
  unfold startOfWeek
  simp only
  have hd : getDate (startOfDay t) - ((getDay (startOfDay t) + 6) % 7) =
      getDate (startOfDay t) + (-((getDay (startOfDay t) + 6) % 7)) := by ring
  rw [hd, setDate_shift]
  rw [startOfDay_eq]
  unfold getDay
  rw [dayNumber_midnight]
  unfold dayNumber msPerDay
  omega

theorem startOfMonth_eq (t : Int) :
    startOfMonth t = FOM (monthIdx (dayNumber t)) * msPerDay := by
  unfold startOfMonth
  have h1 : (1 : Int) = getDate (startOfDay t) + (1 - getDate (startOfDay t)) := by ring
  rw [h1, setDate_shift]
  rw [startOfDay_eq]
  unfold getDate civilOf
  rw [dayNumber_midnight]
  rw [FOM_monthIdx (dayNumber t)]
  unfold msPerDay
  ring

theorem advance_day (t : Int) : advance t .day = t + msPerDay := by
  unfold advance
  exact setDate_shift t 1

theorem advance_week (t : Int) : advance t .week = t + 7 * msPerDay := by
  unfold advance
  exact setDate_shift t 7

theorem advance_month_eq (t : Int) :
    advance t .month = (FOM (monthIdx (dayNumber t) + 1) + (getDate t - 1)) * msPerDay +
      timeOfDay t := by
  unfold advance setMonth getMonth getDate
  simp only
  have harg : (civilOf t).y * 12 + ((civilOf t).m - 1 + 1) = monthIdx (dayNumber t) + 1 := by
    unfold monthIdx civilOf
    ring
  rw [harg]
  rfl

theorem advance_gt (t : Int) (g : EventGrouping) : t < advance t g := by
  cases g
  · rw [advance_day]; unfold msPerDay; omega
  · rw [advance_week]; unfold msPerDay; omega
  · rw [advance_month_eq]
    have hmlt := FOM_succ_lt (monthIdx (dayNumber t))
    have hfom := FOM_monthIdx (dayNumber t)
    have ht : t = dayNumber t * msPerDay + timeOfDay t := by unfold dayNumber timeOfDay msPerDay; omega
    have hd1 : 1 ≤ getDate t := by
      have := (civil_bounds (dayNumber t)).2.2.1
      unfold getDate civilOf
      omega
    unfold getDate civilOf at *
    unfold msPerDay at *
    nlinarith [hmlt, hfom, hd1]

/-- Each `advance` step moves forward by at least one day. -/
theorem advance_ge_day (t : Int) (g : EventGrouping) : t + msPerDay ≤ advance t g := by
  cases g
  · rw [advance_day]
  · rw [advance_week]; unfold msPerDay; omega
  · rw [advance_month_eq]
    have hmlt := FOM_succ_lt (monthIdx (dayNumber t))
    have hfom := FOM_monthIdx (dayNumber t)
    have ht : t = dayNumber t * msPerDay + timeOfDay t := by unfold dayNumber timeOfDay msPerDay; omega
    have hd1 : 1 ≤ getDate t := by
      have := (civil_bounds (dayNumber t)).2.2.1
      unfold getDate civilOf
      omega
    unfold getDate civilOf at *
    unfold msPerDay at *
    nlinarith [hmlt, hfom, hd1]

/-! ## Decimal rendering: JS template literals and `padStart`

JS renders numbers in template literals in decimal.  `digitsAux` is a fueled
(hence kernel-computable) most-significant-first digit expansion. -/

def digitsAux : Nat → Nat → List Char
  | 0, _ => []
  | fuel + 1, n =>
    if n < 10 then [Nat.digitChar n]
    else digitsAux fuel (n / 10) ++ [Nat.digitChar (n % 10)]

/-- Decimal rendering of a nonnegative integer. -/
def natStr (n : Nat) : String := ⟨digitsAux (n + 1) n⟩

/-- JS string interpolation of an integer. -/
def intStr (i : Int) : String := if i < 0 then "-" ++ natStr (-i).toNat else natStr i.toNat

/-- JS `s.padStart(2, "0")`. -/
def pad2 (s : String) : String :=
  if s.length < 2 then ⟨List.replicate (2 - s.length) '0' ++ s.data⟩ else s

/-- Inverse of digit rendering, for injectivity proofs. -/
def digitsVal (l : List Char) : Nat := l.foldl (fun a c => a * 10 + (c.toNat - 48)) 0

theorem str_data_append (a b : String) : (a ++ b).data = a.data ++ b.data := rfl

theorem str_ext {a b : String} (h : a.data = b.data) : a = b :=
  congrArg String.mk h

theorem digitChar_toNat : ∀ k ∈ List.range 10, (Nat.digitChar k).toNat = 48 + k := by decide

theorem digitsVal_append_one (l : List Char) (c : Char) :
    digitsVal (l ++ [c]) = digitsVal l * 10 + (c.toNat - 48) := by
  unfold digitsVal
  rw [List.foldl_append]
  rfl

theorem digitsVal_cons_zero (l : List Char) (k : Nat) :
    digitsVal (List.replicate k '0' ++ l) = digitsVal l := by
  induction k with
  | zero => rfl
  | succ n ih =>
    have h : List.replicate (n + 1) '0' ++ l = '0' :: (List.replicate n '0' ++ l) := by
      simp [List.replicate_succ]
    rw [h]
    unfold digitsVal at *
    simpa using ih

theorem digitsAux_sound : ∀ fuel n, n < fuel → digitsVal (digitsAux fuel n) = n := by
  intro fuel
  induction fuel with
  | zero => omega
  | succ f ih =>
    intro n hn
    unfold digitsAux
    by_cases h10 : n < 10
    · rw [if_pos h10]
      have hd := digitChar_toNat n (by simp [List.mem_range]; omega)
      unfold digitsVal
      simp [hd]
    · rw [if_neg h10]
      rw [digitsVal_append_one]
      have hrec : digitsVal (digitsAux f (n / 10)) = n / 10 := ih (n / 10) (by omega)
      have hd := digitChar_toNat (n % 10) (by simp [List.mem_range]; omega)
      rw [hrec, hd]
      omega

theorem digitsAux_digit : ∀ fuel n c, c ∈ digitsAux fuel n → 48 ≤ c.toNat ∧ c.toNat ≤ 57 := by
  intro fuel
  induction fuel with
  | zero => intro n c hc; simp [digitsAux] at hc
  | succ f ih =>
    intro n c hc
    unfold digitsAux at hc
    by_cases h10 : n < 10
    · rw [if_pos h10] at hc
      simp at hc
      subst hc
      have hd := digitChar_toNat n (by simp [List.mem_range]; omega)
      omega
    · rw [if_neg h10] at hc
      rw [List.mem_append] at hc
      rcases hc with hc | hc
      · exact ih _ _ hc
      · simp at hc
        subst hc
        have hd := digitChar_toNat (n % 10) (by simp [List.mem_range]; omega)
        omega

theorem digitsAux_ne_nil (fuel n : Nat) (h : n < fuel) : digitsAux fuel n ≠ [] := by
  cases fuel with
  | zero => omega
  | succ f =>
    unfold digitsAux
    by_cases h10 : n < 10
    · rw [if_pos h10]; simp
    · rw [if_neg h10]; simp

theorem natStr_inj {a b : Nat} (h : natStr a = natStr b) : a = b := by
  have hd : (natStr a).data = (natStr b).data := by rw [h]
  unfold natStr at hd
  simp only at hd
  have ha := digitsAux_sound (a + 1) a (by omega)
  have hb := digitsAux_sound (b + 1) b (by omega)
  rw [hd] at ha
  exact ha.symm.trans hb

/-- `pad2` does not change the parsed value of a digit rendering. -/
theorem digitsVal_pad2 (s : String) : digitsVal (pad2 s).data = digitsVal s.data := by
  unfold pad2
  by_cases h : s.length < 2
  · rw [if_pos h]
    exact digitsVal_cons_zero s.data _
  · rw [if_neg h]

theorem pad2_natStr_inj {a b : Nat} (h : pad2 (natStr a) = pad2 (natStr b)) : a = b := by
  have hv : digitsVal (pad2 (natStr a)).data = digitsVal (pad2 (natStr b)).data := by rw [h]
  rw [digitsVal_pad2, digitsVal_pad2] at hv
  unfold natStr at hv
  simp only at hv
  have ha := digitsAux_sound (a + 1) a (by omega)
  have hb := digitsAux_sound (b + 1) b (by omega)
  omega

theorem intStr_inj {a b : Int} (h : intStr a = intStr b) : a = b := by
  unfold intStr at h
  by_cases ha : a < 0 <;> by_cases hb : b < 0
  · rw [if_pos ha, if_pos hb] at h
    have hd : ("-" ++ natStr (-a).toNat).data = ("-" ++ natStr (-b).toNat).data := by rw [h]
    rw [str_data_append, str_data_append] at hd
    have : (natStr (-a).toNat).data = (natStr (-b).toNat).data := by
      simpa using hd
    have heq : (-a).toNat = (-b).toNat := natStr_inj (str_ext this)
    omega
  · rw [if_pos ha, if_neg hb] at h
    exfalso
    have hd : ("-" ++ natStr (-a).toNat).data = (natStr b.toNat).data := by rw [h]
    rw [str_data_append] at hd
    unfold natStr at hd
    simp only at hd
    cases hdig : digitsAux (b.toNat + 1) b.toNat with
    | nil => exact digitsAux_ne_nil _ _ (by omega) hdig
    | cons c l =>
      rw [hdig] at hd
      have hc : '-' = c := by
        have h1 : '-' :: (natStr (-a).toNat).data = c :: l := by simpa using hd
        exact List.head_eq_of_cons_eq h1
      have hdig2 := digitsAux_digit (b.toNat + 1) b.toNat c (by rw [hdig]; simp)
      rw [← hc] at hdig2
      have h45 : ('-' : Char).toNat = 45 := rfl
      omega
  · rw [if_neg ha, if_pos hb] at h
    exfalso
    have hd : (natStr a.toNat).data = ("-" ++ natStr (-b).toNat).data := by rw [h]
    rw [str_data_append] at hd
    unfold natStr at hd
    simp only at hd
    cases hdig : digitsAux (a.toNat + 1) a.toNat with
    | nil => exact digitsAux_ne_nil _ _ (by omega) hdig
    | cons c l =>
      rw [hdig] at hd
      have hc : c = '-' := by
        have h1 : c :: l = '-' :: (natStr (-b).toNat).data := by simpa using hd
        exact List.head_eq_of_cons_eq h1
      have hdig2 := digitsAux_digit (a.toNat + 1) a.toNat c (by rw [hdig]; simp)
      rw [hc] at hdig2
      have h45 : ('-' : Char).toNat = 45 := rfl
      omega
  · rw [if_neg ha, if_neg hb] at h
    have heq : a.toNat = b.toNat := natStr_inj h
    omega

/-- A nonnegative rendering never contains the dash delimiter. -/
theorem natStr_no_dash (n : Nat) (c : Char) (hc : c ∈ (natStr n).data) : c ≠ '-' := by
  have hb := digitsAux_digit (n + 1) n c hc
  intro hcontra
  rw [hcontra] at hb
  have h45 : ('-' : Char).toNat = 45 := rfl
  omega

theorem digitsAux_short : ∀ f n, n < f → n ≤ 99 →
    1 ≤ (digitsAux f n).length ∧ (digitsAux f n).length ≤ 2 := by
  intro f
  induction f with
  | zero => omega
  | succ f2 ih =>
    intro n hn h99
    unfold digitsAux
    by_cases h10 : n < 10
    · rw [if_pos h10]
      simp
    · rw [if_neg h10]
      rw [List.length_append]
      have := ih (n / 10) (by omega) (by omega)
      have h1 : n / 10 < 10 := by omega
      cases f2 with
      | zero => omega
      | succ f3 =>
        unfold digitsAux
        rw [if_pos h1]
        simp

/-- The length-2 fact needed to align fields in bucket keys. -/
theorem pad2_natStr_length (n : Nat) (h : n ≤ 99) : (pad2 (natStr n)).length = 2 := by
  have hlen := digitsAux_short (n + 1) n (by omega) h
  unfold pad2
  by_cases hc : (natStr n).length < 2
  · rw [if_pos hc]
    show (List.replicate (2 - (natStr n).length) '0' ++ (natStr n).data).length = 2
    rw [List.length_append, List.length_replicate]
    have he : (natStr n).length = (digitsAux (n + 1) n).length := rfl
    have he2 : (natStr n).data.length = (digitsAux (n + 1) n).length := rfl
    omega
  · rw [if_neg hc]
    have he : (natStr n).length = (digitsAux (n + 1) n).length := rfl
    omega

/-! ## Bucket keys (from the source) -/

def bucketKey (date : Int) (grouping : EventGrouping) : String :=
  let b := bucketStart date grouping
  let year := getFullYear b
  let month := pad2 (intStr (getMonth b + 1))
  let day := pad2 (intStr (getDate b))
  match grouping with
  | .day => "day:" ++ intStr year ++ "-" ++ month ++ "-" ++ day
  | .week => "week:" ++ intStr year ++ "-" ++ month ++ "-" ++ day
  | .month => "month:" ++ intStr year ++ "-" ++ month

/-! ### Bucket start theory -/

theorem bucketStart_day_eq (t : Int) : bucketStart t .day = dayNumber t * msPerDay := rfl

theorem bucketStart_week_eq (t : Int) :
    bucketStart t .week = (dayNumber t - (dayNumber t + 3) % 7) * msPerDay :=
  startOfWeek_eq t

theorem bucketStart_month_eq (t : Int) :
    bucketStart t .month = FOM (monthIdx (dayNumber t)) * msPerDay :=
  startOfMonth_eq t

theorem bucketStart_le (t : Int) (g : EventGrouping) : bucketStart t g ≤ t := by
  have hfm := FOM_monthIdx_le (dayNumber t)
  cases g
  · rw [bucketStart_day_eq]; unfold dayNumber msPerDay; omega
  · rw [bucketStart_week_eq]; unfold dayNumber msPerDay; omega
  · rw [bucketStart_month_eq]
    have h1 : FOM (monthIdx (dayNumber t)) * msPerDay ≤ dayNumber t * msPerDay :=
      Int.mul_le_mul_of_nonneg_right hfm (by unfold msPerDay; omega)
    have h2 : dayNumber t * msPerDay ≤ t := by unfold dayNumber msPerDay; omega
    omega

theorem bucketStart_mono {s t : Int} (g : EventGrouping) (h : s ≤ t) :
    bucketStart s g ≤ bucketStart t g := by
  have hdn : dayNumber s ≤ dayNumber t := by unfold dayNumber msPerDay; omega
  cases g
  · rw [bucketStart_day_eq, bucketStart_day_eq]
    unfold msPerDay
    omega
  · rw [bucketStart_week_eq, bucketStart_week_eq]
    unfold msPerDay
    omega
  · rw [bucketStart_month_eq, bucketStart_month_eq]
    have hmi : monthIdx (dayNumber s) ≤ monthIdx (dayNumber t) := monthIdx_mono hdn
    have := FOM_le_mono hmi
    unfold msPerDay
    omega

/-- Characterization of day-grouping bucket starts. -/
theorem day_start_iff (t : Int) : bucketStart t .day = t ↔ t = dayNumber t * msPerDay := by
  rw [bucketStart_day_eq]
  omega

/-- Characterization of week-grouping bucket starts: midnights of Mondays
(day numbers congruent to 4 mod 7). -/
theorem week_start_iff (t : Int) :
    bucketStart t .week = t ↔ (t = dayNumber t * msPerDay ∧ (dayNumber t + 3) % 7 = 0) := by
  rw [bucketStart_week_eq]
  constructor
  · intro h
    have hdn : dayNumber ((dayNumber t - (dayNumber t + 3) % 7) * msPerDay) =
        dayNumber t - (dayNumber t + 3) % 7 := dayNumber_midnight _
    rw [h] at hdn
    unfold dayNumber msPerDay at *
    constructor <;> omega
  · intro ⟨h1, h2⟩
    unfold dayNumber msPerDay at *
    omega

/-- Characterization of month-grouping bucket starts: midnights of first-of-months. -/
theorem month_start_iff (t : Int) :
    bucketStart t .month = t ↔ ∃ mi, t = FOM mi * msPerDay := by
  rw [bucketStart_month_eq]
  constructor
  · intro h
    exact ⟨monthIdx (dayNumber t), h.symm⟩
  · intro ⟨mi, hmi⟩
    subst hmi
    rw [dayNumber_midnight, monthIdx_FOM]

theorem bucketStart_idem (t : Int) (g : EventGrouping) :
    bucketStart (bucketStart t g) g = bucketStart t g := by
  cases g
  · rw [day_start_iff, bucketStart_day_eq, dayNumber_midnight]
  · rw [week_start_iff, bucketStart_week_eq, dayNumber_midnight]
    constructor
    · rfl
    · omega
  · rw [month_start_iff, bucketStart_month_eq]
    exact ⟨monthIdx (dayNumber t), rfl⟩

/-- Advancing a bucket start lands on the next bucket start. -/
theorem advance_start (t : Int) (g : EventGrouping) (h : bucketStart t g = t) :
    bucketStart (advance t g) g = advance t g := by
  cases g
  · rw [day_start_iff] at h ⊢
    rw [advance_day, h]
    unfold dayNumber msPerDay at *
    omega
  · rw [week_start_iff] at h ⊢
    obtain ⟨h1, h2⟩ := h
    rw [advance_week, h1]
    unfold dayNumber msPerDay at *
    constructor
    · omega
    · omega
  · rw [month_start_iff] at h
    obtain ⟨mi, hmi⟩ := h
    subst hmi
    have hgoal : advance (FOM mi * msPerDay) .month = FOM (mi + 1) * msPerDay := by
      rw [advance_month_eq]
      rw [dayNumber_midnight, monthIdx_FOM, timeOfDay_midnight]
      have hgd : getDate (FOM mi * msPerDay) = 1 := by
        unfold getDate civilOf
        rw [dayNumber_midnight, civil_FOM]
      rw [hgd]
      ring
    rw [month_start_iff, hgoal]
    exact ⟨mi + 1, rfl⟩

/-- No bucket start is skipped: if `a` and `b` are bucket starts with `a < b`,
then the next start after `a` is at most `b`. -/
theorem advance_noskip {a b : Int} (g : EventGrouping)
    (ha : bucketStart a g = a) (hb : bucketStart b g = b) (hab : a < b) :
    advance a g ≤ b := by
  cases g
  · rw [day_start_iff] at ha hb
    rw [advance_day]
    unfold msPerDay at *
    omega
  · rw [week_start_iff] at ha hb
    rw [advance_week]
    obtain ⟨ha1, ha2⟩ := ha
    obtain ⟨hb1, hb2⟩ := hb
    unfold msPerDay at *
    omega
  · rw [month_start_iff] at ha hb
    obtain ⟨mi, hmi⟩ := ha
    obtain ⟨mj, hmj⟩ := hb
    subst hmi
    subst hmj
    have hgoal : advance (FOM mi * msPerDay) .month = FOM (mi + 1) * msPerDay := by
      rw [advance_month_eq]
      rw [dayNumber_midnight, monthIdx_FOM, timeOfDay_midnight]
      have hgd : getDate (FOM mi * msPerDay) = 1 := by
        unfold getDate civilOf
        rw [dayNumber_midnight, civil_FOM]
      rw [hgd]
      ring
    rw [hgoal]
    have hmij : FOM mi < FOM mj := by
      by_contra hcon
      push_neg at hcon
      have : FOM mj * msPerDay ≤ FOM mi * msPerDay :=
        Int.mul_le_mul_of_nonneg_right hcon (by unfold msPerDay; omega)
      omega
    have hmilt : mi < mj := by
      by_contra hcon
      push_neg at hcon
      have := FOM_le_mono hcon
      omega
    have : FOM (mi + 1) ≤ FOM mj := FOM_le_mono (by omega)
    have := Int.mul_le_mul_of_nonneg_right this (by unfold msPerDay; omega : (0 : Int) ≤ msPerDay)
    omega

/-! ### Injectivity of bucket keys (within one grouping) -/

theorem civil_eq_of_parts {c₁ c₂ : Civil} (hy : c₁.y = c₂.y) (hm : c₁.m = c₂.m)
    (hd : c₁.d = c₂.d) : c₁ = c₂ := by
  cases c₁
  cases c₂
  simp only at hy hm hd
  subst hy
  subst hm
  subst hd
  rfl

theorem bucketStart_midnight (t : Int) (g : EventGrouping) :
    bucketStart t g = dayNumber (bucketStart t g) * msPerDay := by
  cases g
  · rw [bucketStart_day_eq, dayNumber_midnight]
  · rw [bucketStart_week_eq, dayNumber_midnight]
  · rw [bucketStart_month_eq, dayNumber_midnight]

/-- Split a `prefix ++ year ++ "-" ++ mm ++ "-" ++ dd` key into its fields, using
that the month and day fields are exactly two characters wide. -/
theorem key_split {p y₁ y₂ m₁ m₂ d₁ d₂ : String}
    (hm₁ : m₁.length = 2) (hm₂ : m₂.length = 2) (hd₁ : d₁.length = 2) (hd₂ : d₂.length = 2)
    (h : p ++ y₁ ++ "-" ++ m₁ ++ "-" ++ d₁ = p ++ y₂ ++ "-" ++ m₂ ++ "-" ++ d₂) :
    y₁ = y₂ ∧ m₁ = m₂ ∧ d₁ = d₂ := by
  have hdata : p.data ++ (y₁.data ++ ('-' :: (m₁.data ++ ('-' :: d₁.data)))) =
      p.data ++ (y₂.data ++ ('-' :: (m₂.data ++ ('-' :: d₂.data)))) := by
    have h0 : (p ++ y₁ ++ "-" ++ m₁ ++ "-" ++ d₁).data =
        (p ++ y₂ ++ "-" ++ m₂ ++ "-" ++ d₂).data := by rw [h]
    simp only [str_data_append] at h0
    simpa [List.append_assoc] using h0
  have h1 := (List.append_inj hdata rfl).2
  have h2 := List.append_inj' h1 (by
    simp only [List.length_cons, List.length_append]
    have e1 : m₁.data.length = 2 := hm₁
    have e2 : m₂.data.length = 2 := hm₂
    have e3 : d₁.data.length = 2 := hd₁
    have e4 : d₂.data.length = 2 := hd₂
    omega)
  refine ⟨str_ext h2.1, ?_, ?_⟩
  · have h3 : m₁.data ++ ('-' :: d₁.data) = m₂.data ++ ('-' :: d₂.data) :=
      List.tail_eq_of_cons_eq h2.2
    have h4 := List.append_inj h3 (by
      have e1 : m₁.data.length = 2 := hm₁
      have e2 : m₂.data.length = 2 := hm₂
      omega)
    exact str_ext h4.1
  · have h3 : m₁.data ++ ('-' :: d₁.data) = m₂.data ++ ('-' :: d₂.data) :=
      List.tail_eq_of_cons_eq h2.2
    have h4 := List.append_inj h3 (by
      have e1 : m₁.data.length = 2 := hm₁
      have e2 : m₂.data.length = 2 := hm₂
      omega)
    exact str_ext (List.tail_eq_of_cons_eq h4.2)

/-- Split a `prefix ++ year ++ "-" ++ mm` month key into its fields. -/
theorem key_split2 {p y₁ y₂ m₁ m₂ : String}
    (hm₁ : m₁.length = 2) (hm₂ : m₂.length = 2)
    (h : p ++ y₁ ++ "-" ++ m₁ = p ++ y₂ ++ "-" ++ m₂) :
    y₁ = y₂ ∧ m₁ = m₂ := by
  have hdata : p.data ++ (y₁.data ++ ('-' :: m₁.data)) =
      p.data ++ (y₂.data ++ ('-' :: m₂.data)) := by
    have h0 : (p ++ y₁ ++ "-" ++ m₁).data = (p ++ y₂ ++ "-" ++ m₂).data := by rw [h]
    simp only [str_data_append] at h0
    simpa [List.append_assoc] using h0
  have h1 := (List.append_inj hdata rfl).2
  have h2 := List.append_inj' h1 (by
    simp only [List.length_cons]
    have e1 : m₁.data.length = 2 := hm₁
    have e2 : m₂.data.length = 2 := hm₂
    omega)
  exact ⟨str_ext h2.1, str_ext (List.tail_eq_of_cons_eq h2.2)⟩

/-- The month field of a key, as a string, determines the month value. -/
theorem month_field_inj {a b : Int} (ha1 : 1 ≤ a) (ha2 : a ≤ 31) (hb1 : 1 ≤ b) (hb2 : b ≤ 31)
    (h : pad2 (intStr a) = pad2 (intStr b)) : a = b := by
  unfold intStr at h
  rw [if_neg (by omega), if_neg (by omega)] at h
  have := pad2_natStr_inj h
  omega

theorem month_field_length {a : Int} (ha1 : 1 ≤ a) (ha2 : a ≤ 31) :
    (pad2 (intStr a)).length = 2 := by
  unfold intStr
  rw [if_neg (by omega)]
  exact pad2_natStr_length a.toNat (by omega)

/-- Bucket keys of the same grouping agree exactly when the bucket starts agree. -/
theorem bucketKey_inj {t₁ t₂ : Int} (g : EventGrouping)
    (h : bucketKey t₁ g = bucketKey t₂ g) : bucketStart t₁ g = bucketStart t₂ g := by
  have hb₁ := civil_bounds (dayNumber (bucketStart t₁ g))
  have hb₂ := civil_bounds (dayNumber (bucketStart t₂ g))
  have hmid₁ := bucketStart_midnight t₁ g
  have hmid₂ := bucketStart_midnight t₂ g
  have hml₁ : 1 ≤ getMonth (bucketStart t₁ g) + 1 ∧ getMonth (bucketStart t₁ g) + 1 ≤ 31 := by
    unfold getMonth civilOf
    omega
  have hml₂ : 1 ≤ getMonth (bucketStart t₂ g) + 1 ∧ getMonth (bucketStart t₂ g) + 1 ≤ 31 := by
    unfold getMonth civilOf
    omega
  have hdl₁ : 1 ≤ getDate (bucketStart t₁ g) ∧ getDate (bucketStart t₁ g) ≤ 31 := by
    unfold getDate civilOf
    omega
  have hdl₂ : 1 ≤ getDate (bucketStart t₂ g) ∧ getDate (bucketStart t₂ g) ≤ 31 := by
    unfold getDate civilOf
    omega
  cases g
  · unfold bucketKey at h
    simp only at h
    obtain ⟨hy, hm, hd⟩ := key_split (month_field_length hml₁.1 hml₁.2)
      (month_field_length hml₂.1 hml₂.2) (month_field_length hdl₁.1 hdl₁.2)
      (month_field_length hdl₂.1 hdl₂.2) h
    have hyv := intStr_inj hy
    have hmv := month_field_inj hml₁.1 hml₁.2 hml₂.1 hml₂.2 hm
    have hdv := month_field_inj hdl₁.1 hdl₁.2 hdl₂.1 hdl₂.2 hd
    unfold getFullYear civilOf at hyv
    unfold getMonth civilOf at hmv
    unfold getDate civilOf at hdv
    have hciv : civilFromDays (dayNumber (bucketStart t₁ .day)) =
        civilFromDays (dayNumber (bucketStart t₂ .day)) :=
      civil_eq_of_parts hyv (by omega) hdv
    have hdn := civilFromDays_inj hciv
    rw [hmid₁, hmid₂, hdn]
  · unfold bucketKey at h
    simp only at h
    obtain ⟨hy, hm, hd⟩ := key_split (month_field_length hml₁.1 hml₁.2)
      (month_field_length hml₂.1 hml₂.2) (month_field_length hdl₁.1 hdl₁.2)
      (month_field_length hdl₂.1 hdl₂.2) h
    have hyv := intStr_inj hy
    have hmv := month_field_inj hml₁.1 hml₁.2 hml₂.1 hml₂.2 hm
    have hdv := month_field_inj hdl₁.1 hdl₁.2 hdl₂.1 hdl₂.2 hd
    unfold getFullYear civilOf at hyv
    unfold getMonth civilOf at hmv
    unfold getDate civilOf at hdv
    have hciv : civilFromDays (dayNumber (bucketStart t₁ .week)) =
        civilFromDays (dayNumber (bucketStart t₂ .week)) :=
      civil_eq_of_parts hyv (by omega) hdv
    have hdn := civilFromDays_inj hciv
    rw [hmid₁, hmid₂, hdn]
  · unfold bucketKey at h
    simp only at h
    obtain ⟨hy, hm⟩ := key_split2 (month_field_length hml₁.1 hml₁.2)
      (month_field_length hml₂.1 hml₂.2) h
    have hyv := intStr_inj hy
    have hmv := month_field_inj hml₁.1 hml₁.2 hml₂.1 hml₂.2 hm
    rw [bucketStart_month_eq t₁, bucketStart_month_eq t₂] at hyv hmv ⊢
    have hc₁ : civilFromDays (dayNumber (FOM (monthIdx (dayNumber t₁)) * msPerDay)) =
        ⟨monthIdx (dayNumber t₁) / 12, monthIdx (dayNumber t₁) % 12 + 1, 1⟩ := by
      rw [dayNumber_midnight]
      exact civil_FOM _
    have hc₂ : civilFromDays (dayNumber (FOM (monthIdx (dayNumber t₂)) * msPerDay)) =
        ⟨monthIdx (dayNumber t₂) / 12, monthIdx (dayNumber t₂) % 12 + 1, 1⟩ := by
      rw [dayNumber_midnight]
      exact civil_FOM _
    unfold getFullYear civilOf at hyv
    unfold getMonth civilOf at hmv
    rw [hc₁, hc₂] at hyv hmv
    simp only at hyv hmv
    have hmi : monthIdx (dayNumber t₁) = monthIdx (dayNumber t₂) := by omega
    rw [hmi]

theorem bucketKey_bucketStart (t : Int) (g : EventGrouping) :
    bucketKey (bucketStart t g) g = bucketKey t g := by
  unfold bucketKey
  rw [bucketStart_idem]

/-! ## Range enumeration (from the source)

`enumerateBucketKeys` walks a cursor from `bucketStart start` to
`bucketStart end` via `advance`, collecting keys deduplicated through a `seen`
set.  The `while` loop is modelled with explicit fuel; the chosen fuel is
sufficient because each `advance` step moves at least one day forward. -/

def enumAux (g : EventGrouping) (endB : Int) : Nat → Int → List String → List String
  | 0, _, _ => []
  | fuel + 1, cursor, seen =>
    if cursor ≤ endB then
      (if bucketKey cursor g ∈ seen then
        enumAux g endB fuel (advance cursor g) seen
      else
        bucketKey cursor g :: enumAux g endB fuel (advance cursor g) (bucketKey cursor g :: seen))
    else []

def enumFuel (startB endB : Int) : Nat := ((endB - startB) / msPerDay).toNat + 1

def enumerateBucketKeys (start e : Int) (grouping : EventGrouping) : List String :=
  enumAux grouping (bucketStart e grouping)
    (enumFuel (bucketStart start grouping) (bucketStart e grouping))
    (bucketStart start grouping) []

/-- The sequence of bucket starts the loop visits (the same walk without key
rendering or deduplication). -/
def bucketChain (g : EventGrouping) (endB : Int) : Nat → Int → List Int
  | 0, _ => []
  | fuel + 1, cursor =>
    if cursor ≤ endB then cursor :: bucketChain g endB fuel (advance cursor g) else []

theorem bucketChain_mem {g : EventGrouping} {endB : Int} :
    ∀ fuel cursor, bucketStart cursor g = cursor →
      ∀ b ∈ bucketChain g endB fuel cursor,
        bucketStart b g = b ∧ cursor ≤ b ∧ b ≤ endB := by
  intro fuel
  induction fuel with
  | zero =>
    intro cursor _ b hb
    simp [bucketChain] at hb
  | succ f ih =>
    intro cursor hstart b hb
    unfold bucketChain at hb
    by_cases hc : cursor ≤ endB
    · rw [if_pos hc] at hb
      rcases List.mem_cons.mp hb with hb | hb
      · subst hb
        exact ⟨hstart, le_refl _, hc⟩
      · obtain ⟨h1, h2, h3⟩ := ih (advance cursor g) (advance_start cursor g hstart) b hb
        exact ⟨h1, le_trans (le_of_lt (advance_gt cursor g)) h2, h3⟩
    · rw [if_neg hc] at hb
      simp at hb

theorem bucketChain_cover {g : EventGrouping} {endB : Int} :
    ∀ (fuel : Nat) (cursor : Int), endB < cursor + (fuel : Int) * msPerDay →
      bucketStart cursor g = cursor →
      ∀ b, bucketStart b g = b → cursor ≤ b → b ≤ endB →
        b ∈ bucketChain g endB fuel cursor := by
  intro fuel
  induction fuel with
  | zero =>
    intro cursor hfuel _ b _ hb1 hb2
    exfalso
    omega
  | succ f ih =>
    intro cursor hfuel hstart b hb hb1 hb2
    unfold bucketChain
    rw [if_pos (le_trans hb1 hb2)]
    rcases eq_or_lt_of_le hb1 with rfl | hlt
    · exact List.mem_cons_self _ _
    · apply List.mem_cons_of_mem
      apply ih (advance cursor g) _ (advance_start cursor g hstart) b hb
        (advance_noskip g hstart hb hlt) hb2
      have hd := advance_ge_day cursor g
      have hmul : (f + 1 : Nat) * msPerDay = f * msPerDay + msPerDay := by
        push_cast
        ring
      push_cast at hfuel
      unfold msPerDay at *
      omega

theorem bucketChain_pairwise {g : EventGrouping} {endB : Int} :
    ∀ fuel cursor, bucketStart cursor g = cursor →
      (bucketChain g endB fuel cursor).Pairwise (· < ·) := by
  intro fuel
  induction fuel with
  | zero =>
    intro cursor _
    simp [bucketChain]
  | succ f ih =>
    intro cursor hstart
    unfold bucketChain
    by_cases hc : cursor ≤ endB
    · rw [if_pos hc]
      refine List.Pairwise.cons ?_ (ih (advance cursor g) (advance_start cursor g hstart))
      intro b hb
      have := (bucketChain_mem f (advance cursor g) (advance_start cursor g hstart) b hb).2.1
      have := advance_gt cursor g
      omega
    · rw [if_neg hc]
      exact List.Pairwise.nil

/-- With no colliding keys pending in `seen`, the loop output is exactly the
keys of the visited chain. -/
theorem enumAux_eq_map {g : EventGrouping} {endB : Int} :
    ∀ fuel cursor seen, bucketStart cursor g = cursor →
      (∀ b, bucketStart b g = b → cursor ≤ b → bucketKey b g ∉ seen) →
      enumAux g endB fuel cursor seen =
        (bucketChain g endB fuel cursor).map (fun b => bucketKey b g) := by
  intro fuel
  induction fuel with
  | zero =>
    intro cursor seen _ _
    simp [enumAux, bucketChain]
  | succ f ih =>
    intro cursor seen hstart hseen
    unfold enumAux bucketChain
    by_cases hc : cursor ≤ endB
    · rw [if_pos hc, if_pos hc]
      rw [if_neg (hseen cursor hstart (le_refl _))]
      simp only [List.map_cons]
      congr 1
      apply ih (advance cursor g) _ (advance_start cursor g hstart)
      intro b hb hble
      have hcb : cursor ≤ b := le_trans (le_of_lt (advance_gt cursor g)) hble
      intro hmem
      rcases List.mem_cons.mp hmem with hkey | hkey
      · have hbs := bucketKey_inj g hkey
        rw [hb, hstart] at hbs
        have := advance_gt cursor g
        omega
      · exact hseen b hb hcb hkey
    · rw [if_neg hc, if_neg hc]
      rfl

/-- The fuel chosen by `enumerateBucketKeys` suffices. -/
theorem enumFuel_sufficient (startB endB : Int) :
    endB < startB + (enumFuel startB endB : Int) * msPerDay := by
  unfold enumFuel msPerDay
  push_cast
  omega

theorem enumerateBucketKeys_eq_map (s e : Int) (g : EventGrouping) :
    enumerateBucketKeys s e g =
      (bucketChain g (bucketStart e g)
        (enumFuel (bucketStart s g) (bucketStart e g)) (bucketStart s g)).map
        (fun b => bucketKey b g) := by
  unfold enumerateBucketKeys
  apply enumAux_eq_map _ _ _ (bucketStart_idem s g)
  intro b _ _
  simp

theorem enumerateBucketKeys_nodup (s e : Int) (g : EventGrouping) :
    (enumerateBucketKeys s e g).Nodup := by
  rw [enumerateBucketKeys_eq_map]
  have hpw := @bucketChain_pairwise g (bucketStart e g)
    (enumFuel (bucketStart s g) (bucketStart e g)) (bucketStart s g) (bucketStart_idem s g)
  have hmem := @bucketChain_mem g (bucketStart e g)
    (enumFuel (bucketStart s g) (bucketStart e g)) (bucketStart s g) (bucketStart_idem s g)
  have hpw2 : (bucketChain g (bucketStart e g)
      (enumFuel (bucketStart s g) (bucketStart e g)) (bucketStart s g)).Pairwise
      (fun a b => bucketKey a g ≠ bucketKey b g) := by
    apply List.Pairwise.imp_of_mem ?_ hpw
    intro a b ha hb hlt hkey
    have hbs := bucketKey_inj g hkey
    have hsa := (hmem a ha).1
    have hsb := (hmem b hb).1
    rw [hsa, hsb] at hbs
    omega
  exact hpw2.map _ (fun a b h => h)

/-! ## Events

A FullCalendar `EventInput` is modelled by its cache-relevant parts: `id`,
`start`, `end`, and an opaque `payload` standing for all other (spread-copied)
fields.  A date-valued field is `EvTime.val t` when `toDate` resolves it to the
instant `t` (a `Date`, a parseable string, or a finite number), `EvTime.bad s`
when it is present but unparseable (`s` is its JS string rendering, kept
because dedupe keys interpolate the raw field), and `EvTime.absent` when the
field is `undefined`.  After normalization a `val t` field is the ISO-8601
string for `t`, which `toDate` parses back to `t`. -/

inductive EvTime
  | absent
  | bad (render : String)
  | val (t : Int)
deriving DecidableEq, Repr

structure Event where
  id : Option String
  start : EvTime
  «end» : EvTime
  payload : Nat
deriving DecidableEq, Repr

def toDate : EvTime → Option Int
  | .absent => none
  | .bad _ => none
  | .val t => some t

/-- JS `a ?? b` on event fields (only `undefined`/`null` fall through). -/
def orElse : EvTime → EvTime → EvTime
  | .absent, b => b
  | .bad s, _ => .bad s
  | .val t, _ => .val t

/-- `w`-wide zero padding (the rendering JS uses inside `toISOString`). -/
def padTo (w : Nat) (s : String) : String :=
  if s.length < w then ⟨List.replicate (w - s.length) '0' ++ s.data⟩ else s

/-- JS `Date.prototype.toISOString` (years 0–9999 use 4 digits, others the
extended `±YYYYYY` form). -/
def isoString (t : Int) : String :=
  let c := civilOf t
  let tod := timeOfDay t
  let yearStr :=
    if 0 ≤ c.y ∧ c.y ≤ 9999 then padTo 4 (natStr c.y.toNat)
    else (if c.y < 0 then "-" else "+") ++ padTo 6 (natStr c.y.natAbs)
  yearStr ++ "-" ++ padTo 2 (natStr c.m.toNat) ++ "-" ++ padTo 2 (natStr c.d.toNat) ++ "T" ++
    padTo 2 (natStr (tod / 3600000).toNat) ++ ":" ++
    padTo 2 (natStr (tod % 3600000 / 60000).toNat) ++ ":" ++
    padTo 2 (natStr (tod % 60000 / 1000).toNat) ++ "." ++
    padTo 3 (natStr (tod % 1000).toNat) ++ "Z"

/-- The JS string interpolation `${v ?? ""}` of an event field, as it appears in
dedupe keys.  Normalized fields are ISO strings. -/
def renderEv : EvTime → String
  | .absent => ""
  | .bad s => s
  | .val t => isoString t

/-- `cloneEvent` from the source: `{...event, start: startIso}`, with `end`
overwritten only when `endIso` is defined; `extendedProps`/payload copied. -/
def cloneEvent (event : Event) (startIso : Int) (endIso : Option Int) : Event :=
  { event with
    start := .val startIso
    «end» := match endIso with
      | some e => .val e
      | none => event.«end» }

def normalizeEvent (event : Event) : Option Event :=
  match toDate event.start with
  | none => none
  | some startDate =>
    let endDate := toDate (orElse event.«end» event.start)
    some (cloneEvent event startDate endDate)

/-- The dedupe key `` `${ev.id ?? ""}|${ev.start ?? ""}|${ev.end ?? ""}` ``. -/
def dedupeKey (ev : Event) : String :=
  ev.id.getD "" ++ "|" ++ renderEv ev.start ++ "|" ++ renderEv ev.«end»

def dedupeAux : List Event → List String → List Event
  | [], _ => []
  | ev :: rest, seen =>
    if dedupeKey ev ∈ seen then dedupeAux rest seen
    else ev :: dedupeAux rest (dedupeKey ev :: seen)

def dedupeEvents (events : List Event) : List Event := dedupeAux events []

def eventOverlapsRange (event : Event) (s e : Int) : Bool :=
  match toDate event.start with
  | none => false
  | some evStart =>
    let evEnd := (toDate event.«end»).getD evStart
    decide (evStart < e) && decide (evEnd ≥ s)

/-- The unded­uplicated key walk of `enumerateBucketsForEvent`. -/
def enumEvAux (g : EventGrouping) (endB : Int) : Nat → Int → List String
  | 0, _ => []
  | fuel + 1, cursor =>
    if cursor ≤ endB then bucketKey cursor g :: enumEvAux g endB fuel (advance cursor g)
    else []

def enumerateBucketsForEvent (event : Event) (g : EventGrouping) : List String :=
  match toDate event.start with
  | none => []
  | some startDate =>
    let endDate := (toDate event.«end»).getD startDate
    if endDate < startDate then []
    else enumEvAux g (bucketStart endDate g)
      (enumFuel (bucketStart startDate g) (bucketStart endDate g)) (bucketStart startDate g)

theorem enumEvAux_eq_map (g : EventGrouping) (endB : Int) :
    ∀ fuel cursor, enumEvAux g endB fuel cursor =
      (bucketChain g endB fuel cursor).map (fun b => bucketKey b g) := by
  intro fuel
  induction fuel with
  | zero => intro cursor; rfl
  | succ f ih =>
    intro cursor
    unfold enumEvAux bucketChain
    by_cases hc : cursor ≤ endB
    · rw [if_pos hc, if_pos hc, List.map_cons, ih]
    · rw [if_neg hc, if_neg hc]
      rfl

/-! ## Cache storage state

The two storage backends and the in-flight registry are association lists with
JS `Map` semantics: `set` updates in place, insertion order is preserved, and
key listing follows insertion order.  A persisted value can be `corrupt`
(arbitrary JSON from a previous version); reading a corrupt value through
`getEntry` behaves exactly like a missing key in `get` (its `ts` is
`undefined`, every age comparison involving `NaN` is false, so the entry lands
in the needs-fetch branch and contributes no data), so `getEntry` maps it to
`none`.  The trim path reads `ts` as `e?.ts ?? 0`, modelled by `tsOf`.

Persistent `set` can fail (quota); failures are driven by an explicit oracle
indexed by the number of attempts so far, which the state counts. -/

inductive StorageMode
  | memory
  | localStorage
deriving DecidableEq, Repr

structure Entry where
  data : List Event
  ts : Int
deriving DecidableEq, Repr

inductive PVal
  | good (e : Entry)
  | corrupt
deriving DecidableEq, Repr

structure St where
  mem : List (String × Entry)
  per : List (String × PVal)
  inflight : List (String × List Event)
  attempts : Nat
deriving DecidableEq, Repr

def alGet {α : Type} : List (String × α) → String → Option α
  | [], _ => none
  | (k', v) :: rest, k => if k' = k then some v else alGet rest k

def alSet {α : Type} : List (String × α) → String → α → List (String × α)
  | [], k, v => [(k, v)]
  | (k', v') :: rest, k, v => if k' = k then (k, v) :: rest else (k', v') :: alSet rest k v

def alRemove {α : Type} : List (String × α) → String → List (String × α)
  | [], _ => []
  | (k', v') :: rest, k => if k' = k then rest else (k', v') :: alRemove rest k

/-- JS `String.prototype.startsWith`. -/
def strStartsWith (s p : String) : Bool := p.data.isPrefixOf s.data

structure CachedEventFetcherOptions where
  source : String
  ttlMs : Int
  grouping : EventGrouping
  storage : StorageMode
  staleWhileRevalidateMs : Int
  maxEntries : Nat
deriving DecidableEq, Repr

def fullKey (source key : String) : String := "events:" ++ source ++ ":" ++ key

def getEntry (cfg : CachedEventFetcherOptions) (st : St) (k : String) : Option Entry :=
  match cfg.storage with
  | .memory => alGet st.mem k
  | .localStorage =>
    match alGet st.per k with
    | some (.good e) => some e
    | some .corrupt => none
    | none => none

def listSourceKeys (st : St) (source : String) : List String :=
  (st.per.map Prod.fst).filter (fun k => strStartsWith k ("events:" ++ source ++ ":"))

/-- `e?.ts ?? 0`: missing or corrupt entries read as timestamp `0`. -/
def tsOf (st : St) (k : String) : Int :=
  match alGet st.per k with
  | some (.good e) => e.ts
  | some .corrupt => 0
  | none => 0

def tryTrimPersistent (st : St) (source : String) (keep : Nat) : St :=
  let keys := listSourceKeys st source
  let withTs := keys.map (fun k => (k, tsOf st k))
  let sorted := withTs.mergeSort (fun a b => decide (b.2 ≤ a.2))
  if sorted.length ≤ keep then st
  else (sorted.drop keep).foldl (fun acc p => { acc with per := alRemove acc.per p.1 }) st

/-- One persistent `chrome.storage` write attempt, its success determined by the
oracle at the current attempt index. -/
def setToPersistent (oracle : Nat → Bool) (st : St) (k : String) (entry : Entry) : Bool × St :=
  if oracle st.attempts then
    (true, { st with per := alSet st.per k (.good entry), attempts := st.attempts + 1 })
  else
    (false, { st with attempts := st.attempts + 1 })

def setEntry (cfg : CachedEventFetcherOptions) (oracle : Nat → Bool) (st : St) (k : String)
    (entry : Entry) : St :=
  match cfg.storage with
  | .memory => { st with mem := alSet st.mem k entry }
  | .localStorage =>
    match setToPersistent oracle st k entry with
    | (true, st1) => st1
    | (false, st1) =>
      let st2 := tryTrimPersistent st1 cfg.source (max 1 (9 * cfg.maxEntries / 10))
      match setToPersistent oracle st2 k entry with
      | (_, st3) => st3

def clearCalendarCache (st : St) : St :=
  let st1 : St := { st with mem := [] }
  -- the subsequent `for (const k of memoryStore.keys())` loop iterates the
  -- now-empty map and removes nothing
  { st1 with per := st1.per.filter (fun p => ! strStartsWith p.1 "events:") }

/-! ## The fetch-and-store pipeline and `get` -/

def addToBuckets (bk : List (String × List Event)) (key : String) (ev : Event) :
    List (String × List Event) :=
  alSet bk key ((alGet bk key).getD [] ++ [ev])

/-- The bucket-assignment loop of `fetchAndStore`: append every normalized
event to the working list of each bucket key it covers. -/
def assignBuckets (g : EventGrouping) (normalized : List Event) : List (String × List Event) :=
  normalized.foldl
    (fun bk ev => (enumerateBucketsForEvent ev g).foldl
      (fun bk2 k => addToBuckets bk2 k ev) bk) []

def fetchAndStore (cfg : CachedEventFetcherOptions) (oracle : Nat → Bool) (raws : List Event)
    (tstore : Int) (s e : Int) (st : St) : List Event × St :=
  -- `eventsRaw.map(normalizeEvent).filter(Boolean)` then dedupe
  let normalized := dedupeEvents (raws.filterMap normalizeEvent)
  let buckets : List (String × List Event) := assignBuckets cfg.grouping normalized
  let st1 := buckets.foldl
    (fun acc p => setEntry cfg oracle acc (fullKey cfg.source p.1) ⟨dedupeEvents p.2, tstore⟩) st
  let expectedKeys := enumerateBucketKeys s e cfg.grouping
  let st2 := expectedKeys.foldl
    (fun acc k =>
      if (alGet buckets k).isSome then acc
      else setEntry cfg oracle acc (fullKey cfg.source k) ⟨[], tstore⟩) st1
  (normalized, st2)

/-- The per-key scan of `get`: accumulate servable data, stop at the first
expired or missing key.  Also returns the storage keys actually consulted. -/
def scanKeys (cfg : CachedEventFetcherOptions) (st : St) (now : Int) :
    List String → List Event × Bool × Bool × List String
  | [] => ([], false, false, [])
  | k :: rest =>
    let sk := fullKey cfg.source k
    match getEntry cfg st sk with
    | none => ([], true, false, [sk])
    | some entry =>
      let age := now - entry.ts
      if age ≤ cfg.ttlMs then
        let r := scanKeys cfg st now rest
        (entry.data ++ r.1, r.2.1, r.2.2.1, sk :: r.2.2.2)
      else if cfg.staleWhileRevalidateMs > 0 ∧ age ≤ cfg.ttlMs + cfg.staleWhileRevalidateMs then
        let r := scanKeys cfg st now rest
        (entry.data ++ r.1, r.2.1, true, sk :: r.2.2.2)
      else ([], true, false, [sk])

inductive GetErr
  | invalidParams
  | endBeforeStart
  | invalidTimeValue
deriving DecidableEq, Repr

/-- A range parameter as received by `get`: a (possibly invalid) `Date`, a
string (with its parse result), a number (`none` = `NaN`), or another value. -/
inductive JSParam
  | jdate (t : Int)
  | jdateInvalid
  | jstr (parsed : Option Int)
  | jnum (v : Option Int)
  | jother
deriving DecidableEq, Repr

/-- `toDate` on a range parameter.  `none`: returns `null`; `some none`: returns
an invalid `Date` (a `Date` instance whose time is `NaN`); `some (some t)`: a
valid date. -/
def toDateParam : JSParam → Option (Option Int)
  | .jdate t => some (some t)
  | .jdateInvalid => some none
  | .jstr parsed => parsed.map some
  | .jnum v => v.map some
  | .jother => none

def ensureRangeDates (ps pe : JSParam) : Except GetErr (Option Int × Option Int) :=
  match toDateParam ps, toDateParam pe with
  | some s, some e =>
    match s, e with
    | some sv, some ev =>
      if ev < sv then .error .endBeforeStart else .ok (some sv, some ev)
    | _, _ =>
      -- `endDate.getTime() < startDate.getTime()` is false when either is NaN
      .ok (s, e)
  | _, _ => .error .invalidParams

def buildRangeKey (source : String) (s e : Int) : String :=
  "range:" ++ source ++ ":" ++ isoString s ++ ":" ++ isoString e

structure GetOut where
  result : Except GetErr (List Event)
  st : St
  reads : List String
  fetches : Nat
  syncFetch : Bool
  bgRefresh : Bool
deriving Repr

/-- The public `get`.  `raws` is the event list the injected fetcher would
return for this call; `now` is `Date.now()` at the start of `get` and `tstore`
the `Date.now()` inside `fetchAndStore`.  Background refreshes are
fire-and-forget in the source; sequentially their effects are applied
immediately (the in-flight record they insert is removed again in the
`finally` block, so the registry is unchanged between calls). -/
def get (cfg : CachedEventFetcherOptions) (oracle : Nat → Bool) (raws : List Event)
    (now tstore : Int) (ps pe : JSParam) (st : St) : GetOut :=
  match ensureRangeDates ps pe with
  | .error err => ⟨.error err, st, [], 0, false, false⟩
  | .ok (some s, some e) =>
    let keys := enumerateBucketKeys s e cfg.grouping
    let scan := scanKeys cfg st now keys
    let collected := scan.1
    let needsFetch := scan.2.1
    let hasStale := scan.2.2.1
    let reads := scan.2.2.2
    let inflightKey := buildRangeKey cfg.source s e
    if needsFetch then
      match alGet st.inflight inflightKey with
      | some data =>
        ⟨.ok (dedupeEvents (data.filter (fun ev => eventOverlapsRange ev s e))),
          st, reads, 0, true, false⟩
      | none =>
        let fs := fetchAndStore cfg oracle raws tstore s e st
        ⟨.ok (dedupeEvents (fs.1.filter (fun ev => eventOverlapsRange ev s e))),
          fs.2, reads, 1, true, false⟩
    else if hasStale then
      if (alGet st.inflight inflightKey).isSome then
        ⟨.ok (dedupeEvents (collected.filter (fun ev => eventOverlapsRange ev s e))),
          st, reads, 0, false, false⟩
      else
        let fs := fetchAndStore cfg oracle raws tstore s e st
        ⟨.ok (dedupeEvents (collected.filter (fun ev => eventOverlapsRange ev s e))),
          fs.2, reads, 1, false, true⟩
    else
      ⟨.ok (dedupeEvents (collected.filter (fun ev => eventOverlapsRange ev s e))),
        st, reads, 0, false, false⟩
  | .ok (_, _) =>
    -- an invalid `Date` endpoint: `enumerateBucketKeys` with a NaN cursor runs
    -- zero iterations (NaN comparisons are false), so the scan loop consults
    -- no storage, and `buildRangeKey` then throws a RangeError from
    -- `toISOString` before the fetch branches are reached
    ⟨.error .invalidTimeValue, st, [], 0, false, false⟩

/-! ## Chain structure lemmas for the claim C2 -/

theorem bucketChain_nil_of_gt {g : EventGrouping} {endB : Int} (fuel : Nat) (cursor : Int)
    (h : endB < cursor) : bucketChain g endB fuel cursor = [] := by
  cases fuel with
  | zero => rfl
  | succ f =>
    unfold bucketChain
    rw [if_neg (by omega)]

theorem bucketChain_head {g : EventGrouping} {endB : Int} (fuel : Nat) (cursor : Int)
    (hc : cursor ≤ endB) (hf : 0 < fuel) :
    (bucketChain g endB fuel cursor).head? = some cursor := by
  cases fuel with
  | zero => omega
  | succ f =>
    unfold bucketChain
    rw [if_pos hc]
    rfl

theorem bucketChain_head_cases {g : EventGrouping} {endB : Int} (fuel : Nat) (cursor : Int) :
    bucketChain g endB fuel cursor = [] ∨
      (bucketChain g endB fuel cursor).head? = some cursor := by
  cases fuel with
  | zero => exact Or.inl rfl
  | succ f =>
    by_cases hc : cursor ≤ endB
    · exact Or.inr (bucketChain_head (f + 1) cursor hc (by omega))
    · left
      unfold bucketChain
      rw [if_neg hc]

theorem getLast?_cons {α : Type} (a : α) (l : List α) :
    (a :: l).getLast? = if l.isEmpty then some a else l.getLast? := by
  cases l with
  | nil => rfl
  | cons b t => simp [List.getLast?_cons_cons, List.isEmpty]

theorem bucketChain_chain2 {g : EventGrouping} {endB : Int} :
    ∀ (fuel : Nat) (cursor : Int),
      (bucketChain g endB fuel cursor).Chain' (fun a b => b = advance a g) := by
  intro fuel
  induction fuel with
  | zero =>
    intro cursor
    simp [bucketChain]
  | succ f ih =>
    intro cursor
    unfold bucketChain
    by_cases hc : cursor ≤ endB
    · rw [if_pos hc]
      rw [List.chain'_cons']
      refine ⟨?_, ih (advance cursor g)⟩
      intro b hb
      rcases @bucketChain_head_cases g endB f (advance cursor g) with hnil | hhd
      · rw [hnil] at hb
        simp at hb
      · rw [hhd] at hb
        simp at hb
        omega
    · rw [if_neg hc]
      simp

theorem bucketChain_getLast {g : EventGrouping} {endB : Int} :
    ∀ (fuel : Nat) (cursor : Int), endB < cursor + (fuel : Int) * msPerDay →
      bucketStart cursor g = cursor → bucketStart endB g = endB → cursor ≤ endB →
      (bucketChain g endB fuel cursor).getLast? = some endB := by
  intro fuel
  induction fuel with
  | zero =>
    intro cursor hfuel _ _ hc
    exfalso
    push_cast at hfuel
    unfold msPerDay at hfuel
    omega
  | succ f ih =>
    intro cursor hfuel hstart hend hc
    unfold bucketChain
    rw [if_pos hc]
    rcases eq_or_lt_of_le hc with rfl | hlt
    · have hnil : bucketChain g cursor f (advance cursor g) = [] :=
        bucketChain_nil_of_gt f (advance cursor g) (advance_gt cursor g)
      rw [hnil]
      rfl
    · have hrest : (bucketChain g endB f (advance cursor g)).getLast? = some endB := by
        apply ih (advance cursor g) _ (advance_start cursor g hstart) hend
          (advance_noskip g hstart hend hlt)
        have hd := advance_ge_day cursor g
        push_cast at hfuel ⊢
        unfold msPerDay at *
        omega
      rw [getLast?_cons]
      have : ¬ (bucketChain g endB f (advance cursor g)).isEmpty := by
        intro hemp
        rw [List.isEmpty_iff] at hemp
        rw [hemp] at hrest
        simp at hrest
      rw [if_neg this]
      exact hrest

/-- The chain underlying `enumerateBucketKeys s e g`. -/
def rangeChain (s e : Int) (g : EventGrouping) : List Int :=
  bucketChain g (bucketStart e g) (enumFuel (bucketStart s g) (bucketStart e g))
    (bucketStart s g)

theorem rangeChain_spec (s e : Int) (g : EventGrouping) (h : s ≤ e) :
    enumerateBucketKeys s e g = (rangeChain s e g).map (fun b => bucketKey b g) ∧
    (rangeChain s e g).Pairwise (· < ·) ∧
    (rangeChain s e g).Chain' (fun a b => b = advance a g) ∧
    (∀ b ∈ rangeChain s e g, bucketStart b g = b ∧ bucketStart s g ≤ b ∧ b ≤ bucketStart e g) ∧
    (∀ b : Int, bucketStart b g = b → bucketStart s g ≤ b → b ≤ bucketStart e g →
      b ∈ rangeChain s e g) ∧
    (rangeChain s e g).head? = some (bucketStart s g) ∧
    (rangeChain s e g).getLast? = some (bucketStart e g) := by
  have hse : bucketStart s g ≤ bucketStart e g := bucketStart_mono g h
  have hfuel := enumFuel_sufficient (bucketStart s g) (bucketStart e g)
  refine ⟨enumerateBucketKeys_eq_map s e g, ?_, ?_, ?_, ?_, ?_, ?_⟩
  · exact bucketChain_pairwise _ _ (bucketStart_idem s g)
  · exact bucketChain_chain2 _ _
  · exact fun b hb => bucketChain_mem _ _ (bucketStart_idem s g) b hb
  · exact fun b hb h1 h2 => bucketChain_cover _ _ hfuel (bucketStart_idem s g) b hb h1 h2
  · exact bucketChain_head _ _ hse (by unfold enumFuel; omega)
  · exact bucketChain_getLast _ _ hfuel (bucketStart_idem s g) (bucketStart_idem e g) hse

/-! ## Claim C2 -/

/-- **C2** (confirmed): for every range with `start ≤ end` and every grouping,
`enumerateBucketKeys start end grouping` contains the bucket key of `start`, the
bucket key of `end` (including when `end` falls exactly on a bucket boundary),
and the key of every bucket between them, in chronological order (the list is
the key image of a strictly increasing `advance`-chain of bucket starts running
from `bucketStart start` to `bucketStart end`), with no gaps (consecutive list
positions are one `advance` step apart, and every bucket start in the interval
contributes its key) and no duplicate keys. -/
theorem C2_enumerateBucketKeys_coverage (s e : Int) (g : EventGrouping) (h : s ≤ e) :
    bucketKey s g ∈ enumerateBucketKeys s e g ∧
    bucketKey e g ∈ enumerateBucketKeys s e g ∧
    (enumerateBucketKeys s e g).Nodup ∧
    (∀ b : Int, bucketStart b g = b → bucketStart s g ≤ b → b ≤ bucketStart e g →
      bucketKey b g ∈ enumerateBucketKeys s e g) ∧
    ∃ chain : List Int,
      chain.Pairwise (· < ·) ∧
      chain.Chain' (fun a b => b = advance a g) ∧
      (∀ b ∈ chain, bucketStart b g = b) ∧
      chain.head? = some (bucketStart s g) ∧
      chain.getLast? = some (bucketStart e g) ∧
      enumerateBucketKeys s e g = chain.map (fun b => bucketKey b g) := by
  obtain ⟨hmap, hpw, hch, hmem, hcov, hhd, hlast⟩ := rangeChain_spec s e g h
  have hse : bucketStart s g ≤ bucketStart e g := bucketStart_mono g h
  have hkmem : ∀ b : Int, bucketStart b g = b → bucketStart s g ≤ b → b ≤ bucketStart e g →
      bucketKey b g ∈ enumerateBucketKeys s e g := by
    intro b hb h1 h2
    rw [hmap]
    exact List.mem_map_of_mem _ (hcov b hb h1 h2)
  refine ⟨?_, ?_, enumerateBucketKeys_nodup s e g, hkmem, rangeChain s e g, hpw, hch,
    fun b hb => (hmem b hb).1, hhd, hlast, hmap⟩
  · have := hkmem (bucketStart s g) (bucketStart_idem s g) (le_refl _) hse
    rwa [bucketKey_bucketStart] at this
  · have := hkmem (bucketStart e g) (bucketStart_idem e g) hse (le_refl _)
    rwa [bucketKey_bucketStart] at this

/-- Witness for C2 at a concrete range (1970-01-01 to 1970-01-03, day grouping). -/
theorem C2_enumerateBucketKeys_coverage_witness :
    (0 : Int) ≤ 172800000 ∧
      (bucketKey 0 .day ∈ enumerateBucketKeys 0 172800000 .day ∧
       bucketKey 172800000 .day ∈ enumerateBucketKeys 0 172800000 .day ∧
       (enumerateBucketKeys 0 172800000 .day).Nodup ∧
       (∀ b : Int, bucketStart b .day = b → bucketStart 0 .day ≤ b →
          b ≤ bucketStart 172800000 .day → bucketKey b .day ∈ enumerateBucketKeys 0 172800000 .day) ∧
       ∃ chain : List Int,
         chain.Pairwise (· < ·) ∧
         chain.Chain' (fun a b => b = advance a .day) ∧
         (∀ b ∈ chain, bucketStart b .day = b) ∧
         chain.head? = some (bucketStart 0 .day) ∧
         chain.getLast? = some (bucketStart 172800000 .day) ∧
         enumerateBucketKeys 0 172800000 .day = chain.map (fun b => bucketKey b .day)) :=
  ⟨by decide, C2_enumerateBucketKeys_coverage 0 172800000 .day (by decide)⟩

/-! ## Claim C9 -/

/-- **C9** (confirmed): a `get` whose range end precedes its range start fails
synchronously with an error before any I/O: the state is unchanged, no storage
key is read (and none written), and the fetcher is never invoked; the cache
does not retry. -/
theorem C9_invalid_range_fails_fast (cfg : CachedEventFetcherOptions) (oracle : Nat → Bool)
    (raws : List Event) (now tstore sv ev : Int) (st : St) (h : ev < sv) :
    get cfg oracle raws now tstore (.jdate sv) (.jdate ev) st =
      ⟨.error .endBeforeStart, st, [], 0, false, false⟩ := by
  unfold get ensureRangeDates toDateParam
  simp only
  rw [if_pos h]

/-- Witness for C9 at a concrete input. -/
theorem C9_invalid_range_fails_fast_witness :
    (0 : Int) < 10 ∧
      get ⟨"demo", 300000, .day, .memory, 0, 24⟩ (fun _ => true) [] 0 0
        (.jdate 10) (.jdate 0) ⟨[], [], [], 0⟩ =
        ⟨.error .endBeforeStart, ⟨[], [], [], 0⟩, [], 0, false, false⟩ :=
  ⟨by decide,
   C9_invalid_range_fails_fast ⟨"demo", 300000, .day, .memory, 0, 24⟩ (fun _ => true) [] 0 0
     10 0 ⟨[], [], [], 0⟩ (by decide)⟩

/-! ## Claim C10 -/

/-- **C10** (confirmed): a `get` whose `start` or `end` parameter cannot be
resolved to a valid date also throws before invoking the fetcher or touching
storage.  There are two throw sites: an unparseable string, a `NaN` number, or
a non-date value makes `toDate` return `null` and `ensureRangeDates` throws;
an invalid `Date` object passes `ensureRangeDates` (its `NaN` time makes the
order check false), but then `enumerateBucketKeys` iterates zero times, so the
scan performs no storage reads, and `buildRangeKey` throws a `RangeError` from
`toISOString` — still before any fetch or storage operation. -/
theorem C10_unresolvable_dates_fail_fast (cfg : CachedEventFetcherOptions)
    (oracle : Nat → Bool) (raws : List Event) (now tstore : Int) (ps pe : JSParam) (st : St)
    (h : toDateParam ps = none ∨ toDateParam pe = none ∨
      toDateParam ps = some none ∨ toDateParam pe = some none) :
    ∃ err : GetErr,
      get cfg oracle raws now tstore ps pe st = ⟨.error err, st, [], 0, false, false⟩ := by
  unfold get
  rcases hps : toDateParam ps with _ | s0
  · refine ⟨.invalidParams, ?_⟩
    unfold ensureRangeDates
    rw [hps]
  · rcases hpe : toDateParam pe with _ | e0
    · refine ⟨.invalidParams, ?_⟩
      unfold ensureRangeDates
      rw [hps, hpe]
    · rcases hs0 : s0 with _ | sv
      · refine ⟨.invalidTimeValue, ?_⟩
        unfold ensureRangeDates
        rw [hps, hpe, hs0]
      · rcases he0 : e0 with _ | ev
        · refine ⟨.invalidTimeValue, ?_⟩
          unfold ensureRangeDates
          rw [hps, hpe, hs0, he0]
        · exfalso
          rcases h with h | h | h | h
          · rw [hps] at h
            exact Option.noConfusion h
          · rw [hpe] at h
            exact Option.noConfusion h
          · rw [hps] at h
            rw [hs0] at h
            simp at h
          · rw [hpe] at h
            rw [he0] at h
            simp at h

/-- Witness for C10: an unparseable string start parameter. -/
theorem C10_unresolvable_dates_fail_fast_witness :
    (toDateParam (.jstr none) = none ∨ toDateParam (.jdate 0) = none ∨
      toDateParam (.jstr none) = some none ∨ toDateParam (.jdate 0) = some none) ∧
    ∃ err : GetErr,
      get ⟨"demo", 300000, .day, .memory, 0, 24⟩ (fun _ => true) [] 0 0
        (.jstr none) (.jdate 0) ⟨[], [], [], 0⟩ =
        ⟨.error err, ⟨[], [], [], 0⟩, [], 0, false, false⟩ :=
  ⟨Or.inl rfl,
   C10_unresolvable_dates_fail_fast ⟨"demo", 300000, .day, .memory, 0, 24⟩ (fun _ => true) [] 0 0
     (.jstr none) (.jdate 0) ⟨[], [], [], 0⟩ (Or.inl rfl)⟩

/-! ## Claim C5 -/

/-- **C5** (counterexample): the claim says `clearCalendarCache` also purges
in-flight records.  It does not: the source never touches the `inFlight` map.
At a state with one in-flight record (as exists while a fetch is pending) and
one cached entry in each backend, the entries are purged but the in-flight
record remains. -/
theorem C5_clear_counterexample :
    clearCalendarCache
        ⟨[("events:demo:day:1970-01-01", ⟨[], 0⟩)],
         [("events:demo:day:1970-01-01", .good ⟨[], 0⟩)],
         [("range:demo:1970-01-01T00:00:00.000Z:1970-01-02T00:00:00.000Z", [])], 0⟩ =
      ⟨[], [], [("range:demo:1970-01-01T00:00:00.000Z:1970-01-02T00:00:00.000Z", [])], 0⟩ ∧
    (clearCalendarCache
        ⟨[("events:demo:day:1970-01-01", ⟨[], 0⟩)],
         [("events:demo:day:1970-01-01", .good ⟨[], 0⟩)],
         [("range:demo:1970-01-01T00:00:00.000Z:1970-01-02T00:00:00.000Z", [])], 0⟩).inflight ≠
      [] := by
  constructor
  · rfl
  · intro hcon
    exact List.noConfusion hcon

/-- **C5** (amended): `clearCalendarCache` purges the entire volatile store (it
calls `memoryStore.clear()`, so all entries — `events:`-prefixed or not — are
removed) and every `events:`-prefixed entry from persisted storage, but leaves
the in-flight records untouched. -/
theorem C5_clear_behaviour (st : St) :
    (clearCalendarCache st).mem = [] ∧
    (∀ p ∈ (clearCalendarCache st).per, strStartsWith p.1 "events:" = false) ∧
    (∀ p ∈ st.per, strStartsWith p.1 "events:" = false → p ∈ (clearCalendarCache st).per) ∧
    (clearCalendarCache st).inflight = st.inflight ∧
    (clearCalendarCache st).attempts = st.attempts := by
  refine ⟨rfl, ?_, ?_, rfl, rfl⟩
  · intro p hp
    have hp2 : p ∈ st.per.filter (fun q => ! strStartsWith q.1 "events:") := hp
    have := List.of_mem_filter hp2
    simpa using this
  · intro p hp hns
    show p ∈ st.per.filter (fun q => ! strStartsWith q.1 "events:")
    exact List.mem_filter.mpr ⟨hp, by simp [hns]⟩

/-- Witness for C5 amended at a concrete state. -/
theorem C5_clear_behaviour_witness :
    ((clearCalendarCache ⟨[("x", ⟨[], 0⟩)], [("events:demo:a", .corrupt), ("y", .corrupt)],
        [("rk", [])], 3⟩).mem = [] ∧
     (∀ p ∈ (clearCalendarCache ⟨[("x", ⟨[], 0⟩)],
        [("events:demo:a", .corrupt), ("y", .corrupt)], [("rk", [])], 3⟩).per,
        strStartsWith p.1 "events:" = false) ∧
     (∀ p ∈ ([("events:demo:a", PVal.corrupt), ("y", PVal.corrupt)] : List (String × PVal)),
        strStartsWith p.1 "events:" = false →
          p ∈ (clearCalendarCache ⟨[("x", ⟨[], 0⟩)],
            [("events:demo:a", .corrupt), ("y", .corrupt)], [("rk", [])], 3⟩).per) ∧
     (clearCalendarCache ⟨[("x", ⟨[], 0⟩)], [("events:demo:a", .corrupt), ("y", .corrupt)],
        [("rk", [])], 3⟩).inflight = [("rk", [])] ∧
     (clearCalendarCache ⟨[("x", ⟨[], 0⟩)], [("events:demo:a", .corrupt), ("y", .corrupt)],
        [("rk", [])], 3⟩).attempts = 3) :=
  C5_clear_behaviour ⟨[("x", ⟨[], 0⟩)], [("events:demo:a", .corrupt), ("y", .corrupt)],
    [("rk", [])], 3⟩

/-! ## Association list lemmas -/

theorem alGet_alSet_same {α : Type} (l : List (String × α)) (k : String) (v : α) :
    alGet (alSet l k v) k = some v := by
  induction l with
  | nil => simp [alSet, alGet]
  | cons p rest ih =>
    unfold alSet
    by_cases hk : p.1 = k
    · rw [if_pos hk]
      simp [alGet]
    · rw [if_neg hk]
      unfold alGet
      rw [if_neg hk]
      exact ih

theorem alGet_alSet_other {α : Type} (l : List (String × α)) (k q : String) (v : α)
    (h : q ≠ k) : alGet (alSet l k v) q = alGet l q := by
  induction l with
  | nil =>
    unfold alSet alGet
    rw [if_neg (fun hc => h hc.symm)]
    rfl
  | cons p rest ih =>
    unfold alSet
    by_cases hk : p.1 = k
    · rw [if_pos hk]
      unfold alGet
      rw [if_neg (fun hc => h hc.symm)]
      rw [if_neg (fun hc : p.1 = q => h (hc ▸ hk))]
    · rw [if_neg hk]
      unfold alGet
      by_cases hq : p.1 = q
      · rw [if_pos hq, if_pos hq]
      · rw [if_neg hq, if_neg hq]
        exact ih

theorem alGet_mem {α : Type} {l : List (String × α)} {k : String} {v : α}
    (h : alGet l k = some v) : (k, v) ∈ l := by
  induction l with
  | nil => simp [alGet] at h
  | cons p rest ih =>
    unfold alGet at h
    by_cases hk : p.1 = k
    · rw [if_pos hk] at h
      injection h with h2
      have hp : p = (k, v) := by
        have he : p = (p.1, p.2) := rfl
        rw [he, hk, h2]
      rw [← hp]
      exact List.mem_cons_self _ _
    · rw [if_neg hk] at h
      exact List.mem_cons_of_mem _ (ih h)

/-- Successful-write form of `setEntry`. -/
def stPut (cfg : CachedEventFetcherOptions) (st : St) (k : String) (entry : Entry) : St :=
  match cfg.storage with
  | .memory => { st with mem := alSet st.mem k entry }
  | .localStorage => { st with per := alSet st.per k (.good entry), attempts := st.attempts + 1 }

theorem setEntry_ok (cfg : CachedEventFetcherOptions) (oracle : Nat → Bool) (st : St)
    (k : String) (entry : Entry) (hok : ∀ n, oracle n = true) :
    setEntry cfg oracle st k entry = stPut cfg st k entry := by
  unfold setEntry stPut setToPersistent
  cases cfg.storage
  · rfl
  · simp [hok st.attempts]

theorem getEntry_stPut_same (cfg : CachedEventFetcherOptions) (st : St) (k : String)
    (entry : Entry) : getEntry cfg (stPut cfg st k entry) k = some entry := by
  unfold getEntry stPut
  cases cfg.storage
  · simp [alGet_alSet_same]
  · simp [alGet_alSet_same]

theorem getEntry_stPut_other (cfg : CachedEventFetcherOptions) (st : St) (k q : String)
    (entry : Entry) (h : q ≠ k) :
    getEntry cfg (stPut cfg st k entry) q = getEntry cfg st q := by
  unfold getEntry stPut
  cases cfg.storage
  · simp [alGet_alSet_other _ _ _ _ h]
  · simp [alGet_alSet_other _ _ _ _ h]

theorem stPut_inflight (cfg : CachedEventFetcherOptions) (st : St) (k : String)
    (entry : Entry) : (stPut cfg st k entry).inflight = st.inflight := by
  unfold stPut
  cases cfg.storage <;> rfl

/-- `fullKey` is injective in the bucket-key component. -/
theorem fullKey_inj {source k q : String} (h : fullKey source k = fullKey source q) : k = q := by
  unfold fullKey at h
  have hd : ("events:" ++ source ++ ":").data ++ k.data =
      ("events:" ++ source ++ ":").data ++ q.data := by
    have h0 : ("events:" ++ source ++ ":" ++ k).data = ("events:" ++ source ++ ":" ++ q).data := by
      rw [show "events:" ++ source ++ ":" ++ k = fullKey source k from rfl,
        show "events:" ++ source ++ ":" ++ q = fullKey source q from rfl]
      unfold fullKey
      rw [h]
    simpa [str_data_append, List.append_assoc] using h0
  exact str_ext ((List.append_inj hd rfl).2)

/-! ## Dedupe membership theory -/

theorem dedupeAux_subset {x : Event} : ∀ (l : List Event) (seen : List String),
    x ∈ dedupeAux l seen → x ∈ l := by
  intro l
  induction l with
  | nil => intro seen h; simp [dedupeAux] at h
  | cons ev rest ih =>
    intro seen h
    unfold dedupeAux at h
    by_cases hk : dedupeKey ev ∈ seen
    · rw [if_pos hk] at h
      exact List.mem_cons_of_mem _ (ih seen h)
    · rw [if_neg hk] at h
      rcases List.mem_cons.mp h with h | h
      · exact h ▸ List.mem_cons_self _ _
      · exact List.mem_cons_of_mem _ (ih _ h)

/-- On a list whose equal-key elements are equal (as all lists flowing through
the pipeline are, since the pipeline dedupes the normalized list first),
`dedupeAux` membership is plain membership minus the `seen` keys. -/
theorem dedupeAux_mem_iff {x : Event} : ∀ (l : List Event) (seen : List String),
    (∀ a b, a ∈ l → b ∈ l → dedupeKey a = dedupeKey b → a = b) →
    (x ∈ dedupeAux l seen ↔ x ∈ l ∧ dedupeKey x ∉ seen) := by
  intro l
  induction l with
  | nil =>
    intro seen _
    simp [dedupeAux]
  | cons ev rest ih =>
    intro seen hku
    have hku' : ∀ a b, a ∈ rest → b ∈ rest → dedupeKey a = dedupeKey b → a = b :=
      fun a b ha hb => hku a b (List.mem_cons_of_mem _ ha) (List.mem_cons_of_mem _ hb)
    unfold dedupeAux
    by_cases hk : dedupeKey ev ∈ seen
    · rw [if_pos hk]
      rw [ih seen hku']
      constructor
      · intro ⟨h1, h2⟩
        exact ⟨List.mem_cons_of_mem _ h1, h2⟩
      · intro ⟨h1, h2⟩
        rcases List.mem_cons.mp h1 with rfl | h1
        · exact absurd hk h2
        · exact ⟨h1, h2⟩
    · rw [if_neg hk]
      constructor
      · intro h
        rcases List.mem_cons.mp h with rfl | h
        · exact ⟨List.mem_cons_self _ _, hk⟩
        · rw [ih _ hku'] at h
          refine ⟨List.mem_cons_of_mem _ h.1, ?_⟩
          intro hc
          exact h.2 (List.mem_cons_of_mem _ hc)
      · intro ⟨h1, h2⟩
        rcases List.mem_cons.mp h1 with rfl | h1
        · exact List.mem_cons_self _ _
        · by_cases hxev : x = ev
          · exact hxev ▸ List.mem_cons_self _ _
          · apply List.mem_cons_of_mem
            rw [ih _ hku']
            refine ⟨h1, ?_⟩
            intro hc
            rcases List.mem_cons.mp hc with hc | hc
            · exact hxev (hku x ev (List.mem_cons_of_mem _ h1) (List.mem_cons_self _ _) hc)
            · exact h2 hc

theorem dedupeEvents_subset {x : Event} {l : List Event} (h : x ∈ dedupeEvents l) : x ∈ l :=
  dedupeAux_subset l [] h

theorem dedupeEvents_mem_iff {x : Event} {l : List Event}
    (hku : ∀ a b, a ∈ l → b ∈ l → dedupeKey a = dedupeKey b → a = b) :
    x ∈ dedupeEvents l ↔ x ∈ l := by
  unfold dedupeEvents
  rw [dedupeAux_mem_iff l [] hku]
  simp

/-- The output of `dedupeAux` has pairwise distinct keys, none in `seen`. -/
theorem dedupeAux_keys : ∀ (l : List Event) (seen : List String),
    (dedupeAux l seen).Pairwise (fun a b => dedupeKey a ≠ dedupeKey b) ∧
    (∀ x ∈ dedupeAux l seen, dedupeKey x ∉ seen) := by
  intro l
  induction l with
  | nil => intro seen; simp [dedupeAux]
  | cons ev rest ih =>
    intro seen
    unfold dedupeAux
    by_cases hk : dedupeKey ev ∈ seen
    · rw [if_pos hk]
      exact ih seen
    · rw [if_neg hk]
      obtain ⟨hpw, hseen⟩ := ih (dedupeKey ev :: seen)
      refine ⟨List.Pairwise.cons ?_ hpw, ?_⟩
      · intro b hb hkey
        exact hseen b hb (hkey ▸ List.mem_cons_self _ _)
      · intro x hx
        rcases List.mem_cons.mp hx with rfl | hx
        · exact hk
        · intro hc
          exact hseen x hx (List.mem_cons_of_mem _ hc)

/-- Deduplicated lists are key-unique. -/
theorem dedupeEvents_ku (l : List Event) :
    ∀ a b, a ∈ dedupeEvents l → b ∈ dedupeEvents l → dedupeKey a = dedupeKey b → a = b := by
  intro a b ha hb hkey
  have hpw := (dedupeAux_keys l []).1
  by_contra hne
  have hforall := List.Pairwise.forall (fun x y (h : dedupeKey x ≠ dedupeKey y) => (fun hc => h hc.symm)) hpw
  exact hforall ha hb hne hkey

/-! ## Bucket-assignment theory -/

theorem alGet_none_of_not_mem {α : Type} : ∀ (l : List (String × α)) (k : String),
    k ∉ l.map Prod.fst → alGet l k = none := by
  intro l
  induction l with
  | nil => intro k _; rfl
  | cons p rest ih =>
    intro k hk
    unfold alGet
    rw [if_neg (fun hc => hk (by rw [← hc]; exact List.mem_map_of_mem _ (List.mem_cons_self _ _)))]
    exact ih k (fun hc => hk (List.mem_cons_of_mem _ hc))

theorem alSet_keys_mem {α : Type} : ∀ (l : List (String × α)) (k : String) (v : α) (q : String),
    q ∈ (alSet l k v).map Prod.fst ↔ q ∈ l.map Prod.fst ∨ q = k := by
  intro l
  induction l with
  | nil =>
    intro k v q
    simp [alSet, eq_comm]
  | cons p rest ih =>
    intro k v q
    unfold alSet
    by_cases hk : p.1 = k
    · rw [if_pos hk]
      simp only [List.map_cons, List.mem_cons]
      constructor
      · intro h
        rcases h with h | h
        · exact Or.inr h
        · exact Or.inl (Or.inr h)
      · intro h
        rcases h with (h | h) | h
        · exact Or.inl (by rw [h, hk])
        · exact Or.inr h
        · exact Or.inl h
    · rw [if_neg hk]
      simp only [List.map_cons, List.mem_cons]
      rw [ih]
      tauto

theorem alSet_keys_nodup {α : Type} : ∀ (l : List (String × α)) (k : String) (v : α),
    (l.map Prod.fst).Nodup → ((alSet l k v).map Prod.fst).Nodup := by
  intro l
  induction l with
  | nil =>
    intro k v _
    simp [alSet]
  | cons p rest ih =>
    intro k v hnd
    rw [List.map_cons, List.nodup_cons] at hnd
    unfold alSet
    by_cases hk : p.1 = k
    · rw [if_pos hk]
      rw [List.map_cons, List.nodup_cons]
      exact ⟨by rw [← hk]; exact hnd.1, hnd.2⟩
    · rw [if_neg hk]
      rw [List.map_cons, List.nodup_cons]
      refine ⟨?_, ih k v hnd.2⟩
      intro hc
      rcases (alSet_keys_mem rest k v p.1).mp hc with hc | hc
      · exact hnd.1 hc
      · exact hk hc

theorem foldl_invariant {α β : Type} (P : α → Prop) (f : α → β → α) :
    ∀ (l : List β) (init : α), P init → (∀ acc x, P acc → P (f acc x)) → P (l.foldl f init) := by
  intro l
  induction l with
  | nil => intro init h _; exact h
  | cons x rest ih =>
    intro init h hstep
    exact ih (f init x) (hstep init x h) hstep

theorem assignBuckets_keys_nodup (g : EventGrouping) (l : List Event) :
    ((assignBuckets g l).map Prod.fst).Nodup := by
  unfold assignBuckets
  apply foldl_invariant (fun bk => (List.map Prod.fst bk).Nodup)
  · simp
  · intro acc ev hacc
    apply foldl_invariant (fun bk => (List.map Prod.fst bk).Nodup)
    · exact hacc
    · intro acc2 k hacc2
      exact alSet_keys_nodup acc2 k _ hacc2

/-- Folding the per-key appends of one event over a duplicate-free key list. -/
theorem addFold_get (ev : Event) : ∀ (keys : List String), keys.Nodup →
    ∀ (bk : List (String × List Event)) (k : String),
      alGet (keys.foldl (fun b k2 => addToBuckets b k2 ev) bk) k =
        if k ∈ keys then some ((alGet bk k).getD [] ++ [ev]) else alGet bk k := by
  intro keys
  induction keys with
  | nil =>
    intro _ bk k
    rw [if_neg (by simp)]
    rfl
  | cons k0 rest ih =>
    intro hnd bk k
    rw [List.nodup_cons] at hnd
    rw [List.foldl_cons, ih hnd.2]
    by_cases hkr : k ∈ rest
    · have hne : k ≠ k0 := fun hc => hnd.1 (hc ▸ hkr)
      rw [if_pos hkr, if_pos (List.mem_cons_of_mem _ hkr)]
      unfold addToBuckets
      rw [alGet_alSet_other _ _ _ _ hne]
    · rw [if_neg hkr]
      by_cases hk0 : k = k0
      · subst hk0
        rw [if_pos (List.mem_cons_self _ _)]
        unfold addToBuckets
        rw [alGet_alSet_same]
      · rw [if_neg (fun hc => (List.mem_cons.mp hc).elim hk0 hkr)]
        unfold addToBuckets
        rw [alGet_alSet_other _ _ _ _ hk0]

/-- The events of `normalized` that cover the bucket key `k`. -/
def bucketsFor (g : EventGrouping) (l : List Event) (k : String) : List Event :=
  l.filter (fun ev => decide (k ∈ enumerateBucketsForEvent ev g))

/-- Chain keys are duplicate-free from any bucket-start cursor. -/
theorem bucketChain_keys_nodup {g : EventGrouping} {endB : Int} (fuel : Nat) (cursor : Int)
    (hstart : bucketStart cursor g = cursor) :
    ((bucketChain g endB fuel cursor).map (fun b => bucketKey b g)).Nodup := by
  have hpw := @bucketChain_pairwise g endB fuel cursor hstart
  have hmem := @bucketChain_mem g endB fuel cursor hstart
  have hpw2 : (bucketChain g endB fuel cursor).Pairwise
      (fun a b => bucketKey a g ≠ bucketKey b g) := by
    apply List.Pairwise.imp_of_mem ?_ hpw
    intro a b ha hb hlt hkey
    have hbs := bucketKey_inj g hkey
    have hsa := (hmem a ha).1
    have hsb := (hmem b hb).1
    rw [hsa, hsb] at hbs
    omega
  exact hpw2.map _ (fun a b h => h)

theorem enumerateBucketsForEvent_nodup (ev : Event) (g : EventGrouping) :
    (enumerateBucketsForEvent ev g).Nodup := by
  unfold enumerateBucketsForEvent
  cases htd : toDate ev.«start» with
  | none => simp
  | some startDate =>
    simp only
    by_cases hlt : (toDate ev.«end»).getD startDate < startDate
    · rw [if_pos hlt]
      simp
    · rw [if_neg hlt, enumEvAux_eq_map]
      exact bucketChain_keys_nodup _ _ (bucketStart_idem startDate g)

/-- `alGet` of the assignment fold is exactly the nonempty filter. -/
theorem assignBuckets_get (g : EventGrouping) (l : List Event) (k : String) :
    alGet (assignBuckets g l) k =
      if bucketsFor g l k = [] then none else some (bucketsFor g l k) := by
  induction l using List.reverseRecOn with
  | nil =>
    have h0 : bucketsFor g [] k = [] := rfl
    rw [if_pos h0]
    rfl
  | append_singleton xs x ih =>
    have hstep : assignBuckets g (xs ++ [x]) =
        (enumerateBucketsForEvent x g).foldl
          (fun b k2 => addToBuckets b k2 x) (assignBuckets g xs) := by
      unfold assignBuckets
      rw [List.foldl_append]
      rfl
    have hbf : bucketsFor g (xs ++ [x]) k =
        bucketsFor g xs k ++ (if k ∈ enumerateBucketsForEvent x g then [x] else []) := by
      unfold bucketsFor
      rw [List.filter_append]
      congr 1
      by_cases hk : k ∈ enumerateBucketsForEvent x g
      · rw [if_pos hk]
        simp [hk]
      · rw [if_neg hk]
        simp [hk]
    rw [hstep, addFold_get x _ (enumerateBucketsForEvent_nodup x g), hbf]
    by_cases hk : k ∈ enumerateBucketsForEvent x g
    · rw [if_pos hk, if_pos hk, ih]
      have hgetD : (if bucketsFor g xs k = [] then (none : Option (List Event))
          else some (bucketsFor g xs k)).getD [] = bucketsFor g xs k := by
        by_cases hbf0 : bucketsFor g xs k = []
        · rw [if_pos hbf0, hbf0]
          rfl
        · rw [if_neg hbf0]
          rfl
      rw [hgetD, if_neg (by simp)]
    · rw [if_neg hk, if_neg hk, List.append_nil, ih]

/-- The keys written by the assignment fold are event bucket keys. -/
theorem assignBuckets_isSome (g : EventGrouping) (l : List Event) (k : String) :
    (alGet (assignBuckets g l) k).isSome = true ↔ bucketsFor g l k ≠ [] := by
  rw [assignBuckets_get]
  by_cases h : bucketsFor g l k = []
  · rw [if_pos h]
    simp [h]
  · rw [if_neg h]
    simp [h]

/-! ## Per-event bucket coverage -/

theorem enumerateBucketsForEvent_none {ev : Event} (g : EventGrouping)
    (h : toDate ev.«start» = none) : enumerateBucketsForEvent ev g = [] := by
  unfold enumerateBucketsForEvent
  rw [h]

theorem enumerateBucketsForEvent_inverted {ev : Event} (g : EventGrouping) {sx : Int}
    (hs : toDate ev.«start» = some sx) (hlt : (toDate ev.«end»).getD sx < sx) :
    enumerateBucketsForEvent ev g = [] := by
  unfold enumerateBucketsForEvent
  rw [hs]
  simp only
  rw [if_pos hlt]

/-- An event whose resolved span is well ordered covers exactly the bucket keys
between its start bucket and its end bucket. -/
theorem enumerateBucketsForEvent_spec (ev : Event) (g : EventGrouping) (sx : Int)
    (hs : toDate ev.«start» = some sx) (hse : sx ≤ (toDate ev.«end»).getD sx) :
    (∀ b : Int, bucketStart b g = b → bucketStart sx g ≤ b →
      b ≤ bucketStart ((toDate ev.«end»).getD sx) g →
      bucketKey b g ∈ enumerateBucketsForEvent ev g) ∧
    (∀ k ∈ enumerateBucketsForEvent ev g, ∃ b : Int, bucketStart b g = b ∧
      bucketStart sx g ≤ b ∧ b ≤ bucketStart ((toDate ev.«end»).getD sx) g ∧
      k = bucketKey b g) := by
  have hrw : enumerateBucketsForEvent ev g =
      (bucketChain g (bucketStart ((toDate ev.«end»).getD sx) g)
        (enumFuel (bucketStart sx g) (bucketStart ((toDate ev.«end»).getD sx) g))
        (bucketStart sx g)).map (fun b => bucketKey b g) := by
    unfold enumerateBucketsForEvent
    rw [hs]
    simp only
    rw [if_neg (not_lt.mpr hse), enumEvAux_eq_map]
  have hfuel := enumFuel_sufficient (bucketStart sx g)
    (bucketStart ((toDate ev.«end»).getD sx) g)
  constructor
  · intro b hb h1 h2
    rw [hrw]
    exact List.mem_map_of_mem _
      (bucketChain_cover _ _ hfuel (bucketStart_idem sx g) b hb h1 h2)
  · intro k hk
    rw [hrw] at hk
    obtain ⟨b, hb, rfl⟩ := List.mem_map.mp hk
    obtain ⟨h1, h2, h3⟩ := bucketChain_mem _ _ (bucketStart_idem sx g) b hb
    exact ⟨b, h1, h2, h3, rfl⟩

/-! ## Entry classification and the scan loop -/

/-- The three-way freshness decision `get` makes per key: fresh (age within
TTL), stale-but-servable (stale-while-revalidate window open), or expired
(missing, corrupt, or too old). -/
inductive EntryClass
  | fresh
  | staleServable
  | expired
deriving DecidableEq, Repr

def classifyEntry (ttlMs swrMs now : Int) : Option Entry → EntryClass
  | none => .expired
  | some entry =>
    let age := now - entry.ts
    if age ≤ ttlMs then .fresh
    else if swrMs > 0 ∧ age ≤ ttlMs + swrMs then .staleServable
    else .expired

def keyClass (cfg : CachedEventFetcherOptions) (st : St) (now : Int) (k : String) : EntryClass :=
  classifyEntry cfg.ttlMs cfg.staleWhileRevalidateMs now (getEntry cfg st (fullKey cfg.source k))

def entryDataOf (cfg : CachedEventFetcherOptions) (st : St) (k : String) : List Event :=
  match getEntry cfg st (fullKey cfg.source k) with
  | some en => en.data
  | none => []

def collectData (cfg : CachedEventFetcherOptions) (st : St) : List String → List Event
  | [] => []
  | k :: rest => entryDataOf cfg st k ++ collectData cfg st rest

/-- When no consulted key is expired the scan serves every key in order:
the collected list concatenates the per-key cached data, no fetch is needed,
staleness is flagged exactly when some key is in the revalidate window, and
every storage key of the range is read. -/
theorem scanKeys_all_servable (cfg : CachedEventFetcherOptions) (st : St) (now : Int) :
    ∀ keys : List String,
      (∀ k ∈ keys, keyClass cfg st now k ≠ .expired) →
      scanKeys cfg st now keys =
        (collectData cfg st keys, false,
         keys.any (fun k => decide (keyClass cfg st now k = .staleServable)),
         keys.map (fullKey cfg.source)) := by
  intro keys
  induction keys with
  | nil =>
    intro _
    rfl
  | cons k rest ih =>
    intro h
    have hk := h k (List.mem_cons_self _ _)
    have hrest : ∀ k2 ∈ rest, keyClass cfg st now k2 ≠ .expired :=
      fun k2 hm => h k2 (List.mem_cons_of_mem _ hm)
    unfold scanKeys
    dsimp only
    split
    next hge =>
      exfalso
      apply hk
      unfold keyClass
      rw [hge]
      rfl
    next entry hge =>
      have hdata : entryDataOf cfg st k = entry.data := by
        unfold entryDataOf
        rw [hge]
      have hcoll : collectData cfg st (k :: rest) = entry.data ++ collectData cfg st rest := by
        show entryDataOf cfg st k ++ collectData cfg st rest = _
        rw [hdata]
      by_cases h1 : now - entry.ts ≤ cfg.ttlMs
      · have hcl : keyClass cfg st now k = .fresh := by
          unfold keyClass classifyEntry
          rw [hge]
          simp only
          rw [if_pos h1]
        rw [if_pos h1, ih hrest, hcoll, List.map_cons, List.any_cons, hcl]
        rfl
      · by_cases h2 : cfg.staleWhileRevalidateMs > 0 ∧
            now - entry.ts ≤ cfg.ttlMs + cfg.staleWhileRevalidateMs
        · have hcl : keyClass cfg st now k = .staleServable := by
            unfold keyClass classifyEntry
            rw [hge]
            simp only
            rw [if_neg h1, if_pos h2]
          rw [if_neg h1, if_pos h2, ih hrest, hcoll, List.map_cons, List.any_cons, hcl]
          rfl
        · exfalso
          apply hk
          unfold keyClass classifyEntry
          rw [hge]
          simp only
          rw [if_neg h1, if_neg h2]

/-- The scan requests a fetch exactly when some key (up to the first such key)
is expired or missing. -/
theorem scanKeys_needsFetch (cfg : CachedEventFetcherOptions) (st : St) (now : Int) :
    ∀ keys : List String,
      (scanKeys cfg st now keys).2.1 = true ↔
        ∃ k ∈ keys, keyClass cfg st now k = .expired := by
  intro keys
  induction keys with
  | nil =>
    simp [scanKeys]
  | cons k rest ih =>
    unfold scanKeys
    dsimp only
    split
    next hge =>
      constructor
      · intro _
        refine ⟨k, List.mem_cons_self _ _, ?_⟩
        unfold keyClass
        rw [hge]
        rfl
      · intro _
        rfl
    next entry hge =>
      by_cases h1 : now - entry.ts ≤ cfg.ttlMs
      · have hcl : keyClass cfg st now k = .fresh := by
          unfold keyClass classifyEntry
          rw [hge]
          simp only
          rw [if_pos h1]
        rw [if_pos h1]
        show (scanKeys cfg st now rest).2.1 = true ↔ _
        rw [ih]
        constructor
        · intro ⟨k2, hm, hc⟩
          exact ⟨k2, List.mem_cons_of_mem _ hm, hc⟩
        · intro ⟨k2, hm, hc⟩
          rcases List.mem_cons.mp hm with rfl | hm
          · rw [hcl] at hc
            cases hc
          · exact ⟨k2, hm, hc⟩
      · by_cases h2 : cfg.staleWhileRevalidateMs > 0 ∧
            now - entry.ts ≤ cfg.ttlMs + cfg.staleWhileRevalidateMs
        · have hcl : keyClass cfg st now k = .staleServable := by
            unfold keyClass classifyEntry
            rw [hge]
            simp only
            rw [if_neg h1, if_pos h2]
          rw [if_neg h1, if_pos h2]
          show (scanKeys cfg st now rest).2.1 = true ↔ _
          rw [ih]
          constructor
          · intro ⟨k2, hm, hc⟩
            exact ⟨k2, List.mem_cons_of_mem _ hm, hc⟩
          · intro ⟨k2, hm, hc⟩
            rcases List.mem_cons.mp hm with rfl | hm
            · rw [hcl] at hc
              cases hc
            · exact ⟨k2, hm, hc⟩
        · have hcl : keyClass cfg st now k = .expired := by
            unfold keyClass classifyEntry
            rw [hge]
            simp only
            rw [if_neg h1, if_neg h2]
          rw [if_neg h1, if_neg h2]
          constructor
          · intro _
            exact ⟨k, List.mem_cons_self _ _, hcl⟩
          · intro _
            rfl

/-! ## What `fetchAndStore` writes -/

theorem alGet_isSome_of_mem {α : Type} : ∀ (l : List (String × α)) (k : String),
    k ∈ l.map Prod.fst → (alGet l k).isSome = true := by
  intro l
  induction l with
  | nil =>
    intro k h
    simp at h
  | cons p rest ih =>
    intro k h
    unfold alGet
    by_cases hk : p.1 = k
    · rw [if_pos hk]
      rfl
    · rw [if_neg hk]
      apply ih
      rw [List.map_cons] at h
      rcases List.mem_cons.mp h with h | h
      · exact absurd h.symm hk
      · exact h

theorem alGet_append {α : Type} : ∀ (l1 l2 : List (String × α)) (q : String),
    alGet (l1 ++ l2) q =
      match alGet l1 q with
      | some v => some v
      | none => alGet l2 q := by
  intro l1
  induction l1 with
  | nil =>
    intro l2 q
    rfl
  | cons p rest ih =>
    intro l2 q
    by_cases hk : p.1 = q
    · show (if p.1 = q then some p.2 else alGet (rest ++ l2) q) = _
      rw [if_pos hk]
      have h2 : alGet (p :: rest) q = some p.2 := by
        unfold alGet
        rw [if_pos hk]
      rw [h2]
    · show (if p.1 = q then some p.2 else alGet (rest ++ l2) q) = _
      rw [if_neg hk]
      have h2 : alGet (p :: rest) q = alGet rest q := by
        show (if p.1 = q then some p.2 else alGet rest q) = alGet rest q
        rw [if_neg hk]
      rw [h2, ih]

/-- Looking up a bucket write through the full-key map of `fetchAndStore`. -/
theorem alGet_bucketWrites (src : String) (tstore : Int) :
    ∀ (l : List (String × List Event)) (k : String),
      alGet (l.map (fun p => (fullKey src p.1, (⟨dedupeEvents p.2, tstore⟩ : Entry))))
          (fullKey src k) =
        (alGet l k).map (fun d => (⟨dedupeEvents d, tstore⟩ : Entry)) := by
  intro l
  induction l with
  | nil =>
    intro k
    rfl
  | cons p rest ih =>
    intro k
    rw [List.map_cons]
    show (if fullKey src p.1 = fullKey src k
        then some (⟨dedupeEvents p.2, tstore⟩ : Entry)
        else alGet (rest.map (fun p => (fullKey src p.1, (⟨dedupeEvents p.2, tstore⟩ : Entry))))
          (fullKey src k)) = _
    by_cases hk : p.1 = k
    · rw [if_pos (by rw [hk])]
      have h2 : alGet (p :: rest) k = some p.2 := by
        unfold alGet
        rw [if_pos hk]
      rw [h2]
      rfl
    · rw [if_neg (fun hc => hk (fullKey_inj hc))]
      have h2 : alGet (p :: rest) k = alGet rest k := by
        show (if p.1 = k then some p.2 else alGet rest k) = alGet rest k
        rw [if_neg hk]
      rw [h2, ih]

/-- Looking up a gap-fill write through the full-key map of `fetchAndStore`. -/
theorem alGet_gapWrites (src : String) (c : Entry) :
    ∀ (ks : List String) (k : String),
      alGet (ks.map (fun k2 => (fullKey src k2, c))) (fullKey src k) =
        if k ∈ ks then some c else none := by
  intro ks
  induction ks with
  | nil =>
    intro k
    rw [if_neg (by simp)]
    rfl
  | cons k0 rest ih =>
    intro k
    rw [List.map_cons]
    show (if fullKey src k0 = fullKey src k then some c
        else alGet (rest.map (fun k2 => (fullKey src k2, c))) (fullKey src k)) = _
    by_cases hk : k0 = k
    · subst hk
      rw [if_pos rfl, if_pos (List.mem_cons_self _ _)]
    · rw [if_neg (fun hc => hk (fullKey_inj hc)), ih]
      by_cases hm : k ∈ rest
      · rw [if_pos hm, if_pos (List.mem_cons_of_mem _ hm)]
      · rw [if_neg hm,
          if_neg (fun hc => (List.mem_cons.mp hc).elim (fun h2 => hk h2.symm) hm)]

theorem foldl_ext {α β : Type} (f g : α → β → α) :
    ∀ (l : List β), (∀ acc x, x ∈ l → f acc x = g acc x) →
      ∀ init, l.foldl f init = l.foldl g init := by
  intro l
  induction l with
  | nil =>
    intro _ init
    rfl
  | cons x rest ih =>
    intro h init
    rw [List.foldl_cons, List.foldl_cons, h init x (List.mem_cons_self _ _),
      ih (fun acc y hy => h acc y (List.mem_cons_of_mem _ hy))]

theorem foldl_if_skip {α : Type} (c : String → Bool) (w : α → String → α) :
    ∀ (l : List String) (init : α),
      l.foldl (fun acc k => if c k then acc else w acc k) init =
        (l.filter (fun k => !c k)).foldl w init := by
  intro l
  induction l with
  | nil =>
    intro init
    rfl
  | cons k rest ih =>
    intro init
    simp only [List.foldl_cons, List.filter_cons]
    by_cases hc : c k = true
    · simp [hc, ih]
    · simp [hc, ih]

theorem writes_getEntry_none (cfg : CachedEventFetcherOptions) :
    ∀ (ws : List (String × Entry)) (st : St) (q : String),
      alGet ws q = none →
      getEntry cfg (ws.foldl (fun acc p => stPut cfg acc p.1 p.2) st) q = getEntry cfg st q := by
  intro ws
  induction ws with
  | nil =>
    intro st q _
    rfl
  | cons p rest ih =>
    intro st q hq
    unfold alGet at hq
    by_cases hk : p.1 = q
    · rw [if_pos hk] at hq
      cases hq
    · rw [if_neg hk] at hq
      rw [List.foldl_cons, ih _ _ hq]
      exact getEntry_stPut_other cfg st p.1 q p.2 (fun hc => hk hc.symm)

theorem writes_getEntry_some (cfg : CachedEventFetcherOptions) :
    ∀ (ws : List (String × Entry)) (st : St) (q : String) (en : Entry),
      (ws.map Prod.fst).Nodup → alGet ws q = some en →
      getEntry cfg (ws.foldl (fun acc p => stPut cfg acc p.1 p.2) st) q = some en := by
  intro ws
  induction ws with
  | nil =>
    intro st q en _ hq
    cases hq
  | cons p rest ih =>
    intro st q en hnd hq
    rw [List.map_cons, List.nodup_cons] at hnd
    unfold alGet at hq
    rw [List.foldl_cons]
    by_cases hk : p.1 = q
    · subst hk
      rw [if_pos rfl] at hq
      injection hq with hq2
      have hrest : alGet rest p.1 = none := alGet_none_of_not_mem rest p.1 hnd.1
      rw [writes_getEntry_none cfg rest _ p.1 hrest, ← hq2]
      exact getEntry_stPut_same cfg st p.1 p.2
    · rw [if_neg hk] at hq
      exact ih _ q en hnd.2 hq

theorem writes_inflight (cfg : CachedEventFetcherOptions) (ws : List (String × Entry))
    (st : St) : (ws.foldl (fun acc p => stPut cfg acc p.1 p.2) st).inflight = st.inflight := by
  apply foldl_invariant (fun (acc : St) => acc.inflight = st.inflight)
  · rfl
  · intro acc p hacc
    rw [stPut_inflight]
    exact hacc

/-- The write list of `fetchAndStore`: every nonempty bucket of the normalized
events gets its deduplicated data, then every remaining expected range key an
empty entry, all stamped with the store time. -/
def storeWrites (cfg : CachedEventFetcherOptions) (normalized : List Event)
    (tstore s e : Int) : List (String × Entry) :=
  let buckets := assignBuckets cfg.grouping normalized
  buckets.map (fun p => (fullKey cfg.source p.1, (⟨dedupeEvents p.2, tstore⟩ : Entry))) ++
    ((enumerateBucketKeys s e cfg.grouping).filter
      (fun k => !(alGet buckets k).isSome)).map
        (fun k => (fullKey cfg.source k, (⟨[], tstore⟩ : Entry)))

theorem fetchAndStore_fst (cfg : CachedEventFetcherOptions) (oracle : Nat → Bool)
    (raws : List Event) (tstore s e : Int) (st : St) :
    (fetchAndStore cfg oracle raws tstore s e st).1 =
      dedupeEvents (raws.filterMap normalizeEvent) := rfl

/-- When every persistent write succeeds, `fetchAndStore` applies exactly the
write list `storeWrites` in order. -/
theorem fetchAndStore_snd (cfg : CachedEventFetcherOptions) (oracle : Nat → Bool)
    (raws : List Event) (tstore s e : Int) (st : St) (hok : ∀ n, oracle n = true) :
    (fetchAndStore cfg oracle raws tstore s e st).2 =
      (storeWrites cfg (dedupeEvents (raws.filterMap normalizeEvent)) tstore s e).foldl
        (fun acc p => stPut cfg acc p.1 p.2) st := by
  unfold fetchAndStore storeWrites
  dsimp only
  rw [List.foldl_append]
  have e1 : ∀ (st0 : St),
      (assignBuckets cfg.grouping (dedupeEvents (raws.filterMap normalizeEvent))).foldl
        (fun acc p => setEntry cfg oracle acc (fullKey cfg.source p.1)
          ⟨dedupeEvents p.2, tstore⟩) st0 =
      ((assignBuckets cfg.grouping (dedupeEvents (raws.filterMap normalizeEvent))).map
        (fun p => (fullKey cfg.source p.1, (⟨dedupeEvents p.2, tstore⟩ : Entry)))).foldl
          (fun acc p => stPut cfg acc p.1 p.2) st0 := by
    intro st0
    have hstep := foldl_ext
      (fun acc (p : String × List Event) =>
        setEntry cfg oracle acc (fullKey cfg.source p.1) ⟨dedupeEvents p.2, tstore⟩)
      (fun acc (p : String × List Event) =>
        stPut cfg acc (fullKey cfg.source p.1) ⟨dedupeEvents p.2, tstore⟩)
      (assignBuckets cfg.grouping (dedupeEvents (raws.filterMap normalizeEvent)))
      (fun acc p _ => setEntry_ok cfg oracle acc _ _ hok) st0
    rw [hstep]
    exact (List.foldl_map
      (fun p => (fullKey cfg.source p.1, (⟨dedupeEvents p.2, tstore⟩ : Entry)))
      (fun acc (p : String × Entry) => stPut cfg acc p.1 p.2)
      (assignBuckets cfg.grouping (dedupeEvents (raws.filterMap normalizeEvent))) st0).symm
  have e2 : ∀ (st0 : St),
      (enumerateBucketKeys s e cfg.grouping).foldl
        (fun acc k =>
          if (alGet (assignBuckets cfg.grouping
              (dedupeEvents (raws.filterMap normalizeEvent))) k).isSome then acc
          else setEntry cfg oracle acc (fullKey cfg.source k) ⟨[], tstore⟩) st0 =
      (((enumerateBucketKeys s e cfg.grouping).filter
        (fun k => !(alGet (assignBuckets cfg.grouping
          (dedupeEvents (raws.filterMap normalizeEvent))) k).isSome)).map
        (fun k => (fullKey cfg.source k, (⟨[], tstore⟩ : Entry)))).foldl
          (fun acc p => stPut cfg acc p.1 p.2) st0 := by
    intro st0
    have hstep := foldl_ext
      (fun acc (k : String) =>
        if (alGet (assignBuckets cfg.grouping
            (dedupeEvents (raws.filterMap normalizeEvent))) k).isSome then acc
        else setEntry cfg oracle acc (fullKey cfg.source k) ⟨[], tstore⟩)
      (fun acc (k : String) =>
        if (alGet (assignBuckets cfg.grouping
            (dedupeEvents (raws.filterMap normalizeEvent))) k).isSome then acc
        else stPut cfg acc (fullKey cfg.source k) ⟨[], tstore⟩)
      (enumerateBucketKeys s e cfg.grouping)
      (fun acc k _ => by
        dsimp only
        by_cases hc : (alGet (assignBuckets cfg.grouping
            (dedupeEvents (raws.filterMap normalizeEvent))) k).isSome = true
        · rw [if_pos hc, if_pos hc]
        · rw [if_neg hc, if_neg hc]
          exact setEntry_ok cfg oracle acc _ _ hok) st0
    rw [hstep, foldl_if_skip]
    exact (List.foldl_map
      (fun k => (fullKey cfg.source k, (⟨[], tstore⟩ : Entry)))
      (fun acc (p : String × Entry) => stPut cfg acc p.1 p.2)
      ((enumerateBucketKeys s e cfg.grouping).filter
        (fun k => !(alGet (assignBuckets cfg.grouping
          (dedupeEvents (raws.filterMap normalizeEvent))) k).isSome)) st0).symm
  rw [e1 st, e2]

theorem storeWrites_keys_nodup (cfg : CachedEventFetcherOptions) (normalized : List Event)
    (tstore s e : Int) :
    ((storeWrites cfg normalized tstore s e).map Prod.fst).Nodup := by
  have hinj : Function.Injective (fullKey cfg.source) := fun a b h => fullKey_inj h
  unfold storeWrites
  dsimp only
  rw [List.map_append, List.map_map, List.map_map, List.nodup_append]
  refine ⟨?_, ?_, ?_⟩
  · have h1 : (Prod.fst ∘ (fun (p : String × List Event) =>
        (fullKey cfg.source p.1, (⟨dedupeEvents p.2, tstore⟩ : Entry)))) =
        (fullKey cfg.source ∘ Prod.fst) := rfl
    rw [h1, ← List.map_map]
    exact List.Nodup.map hinj (assignBuckets_keys_nodup _ _)
  · have h1 : (Prod.fst ∘ (fun k => (fullKey cfg.source k, (⟨[], tstore⟩ : Entry)))) =
        fullKey cfg.source := rfl
    rw [h1]
    exact List.Nodup.map hinj (List.Nodup.filter _ (enumerateBucketKeys_nodup s e cfg.grouping))
  · intro a ha1 ha2
    obtain ⟨p, hp, hpe⟩ := List.mem_map.mp ha1
    obtain ⟨k2, hk2, hke⟩ := List.mem_map.mp ha2
    have hkeq : p.1 = k2 := fullKey_inj ((hpe.trans hke.symm) : fullKey cfg.source p.1 = _)
    have h1 : p.1 ∈ (assignBuckets cfg.grouping normalized).map Prod.fst :=
      List.mem_map_of_mem _ hp
    have h2 := alGet_isSome_of_mem _ _ h1
    have h3 := (List.mem_filter.mp hk2).2
    rw [← hkeq] at h3
    rw [h2] at h3
    cases h3

theorem fetchAndStore_getEntry_covered (cfg : CachedEventFetcherOptions) (oracle : Nat → Bool)
    (raws : List Event) (tstore s e : Int) (st : St) (hok : ∀ n, oracle n = true) (k : String)
    (hk : bucketsFor cfg.grouping (dedupeEvents (raws.filterMap normalizeEvent)) k ≠ []) :
    getEntry cfg (fetchAndStore cfg oracle raws tstore s e st).2 (fullKey cfg.source k) =
      some ⟨dedupeEvents (bucketsFor cfg.grouping
        (dedupeEvents (raws.filterMap normalizeEvent)) k), tstore⟩ := by
  rw [fetchAndStore_snd cfg oracle raws tstore s e st hok]
  apply writes_getEntry_some cfg _ _ _ _ (storeWrites_keys_nodup cfg _ tstore s e)
  unfold storeWrites
  dsimp only
  rw [alGet_append, alGet_bucketWrites, assignBuckets_get, if_neg hk]
  rfl

theorem fetchAndStore_getEntry_gap (cfg : CachedEventFetcherOptions) (oracle : Nat → Bool)
    (raws : List Event) (tstore s e : Int) (st : St) (hok : ∀ n, oracle n = true) (k : String)
    (hk1 : bucketsFor cfg.grouping (dedupeEvents (raws.filterMap normalizeEvent)) k = [])
    (hk2 : k ∈ enumerateBucketKeys s e cfg.grouping) :
    getEntry cfg (fetchAndStore cfg oracle raws tstore s e st).2 (fullKey cfg.source k) =
      some ⟨[], tstore⟩ := by
  rw [fetchAndStore_snd cfg oracle raws tstore s e st hok]
  apply writes_getEntry_some cfg _ _ _ _ (storeWrites_keys_nodup cfg _ tstore s e)
  unfold storeWrites
  dsimp only
  have hmem : k ∈ (enumerateBucketKeys s e cfg.grouping).filter
      (fun k2 => !(alGet (assignBuckets cfg.grouping
        (dedupeEvents (raws.filterMap normalizeEvent))) k2).isSome) := by
    rw [List.mem_filter]
    refine ⟨hk2, ?_⟩
    rw [assignBuckets_get, if_pos hk1]
    rfl
  rw [alGet_append, alGet_bucketWrites, assignBuckets_get, if_pos hk1,
    alGet_gapWrites, if_pos hmem]
  rfl

theorem fetchAndStore_getEntry_untouched (cfg : CachedEventFetcherOptions) (oracle : Nat → Bool)
    (raws : List Event) (tstore s e : Int) (st : St) (hok : ∀ n, oracle n = true) (q : String)
    (hq : ∀ k2 : String, q = fullKey cfg.source k2 →
      bucketsFor cfg.grouping (dedupeEvents (raws.filterMap normalizeEvent)) k2 = [] ∧
        k2 ∉ enumerateBucketKeys s e cfg.grouping) :
    getEntry cfg (fetchAndStore cfg oracle raws tstore s e st).2 q = getEntry cfg st q := by
  rw [fetchAndStore_snd cfg oracle raws tstore s e st hok]
  apply writes_getEntry_none
  apply alGet_none_of_not_mem
  intro hmem
  unfold storeWrites at hmem
  dsimp only at hmem
  rw [List.map_append, List.map_map, List.map_map, List.mem_append] at hmem
  rcases hmem with hmem | hmem
  · obtain ⟨p, hp, hpe⟩ := List.mem_map.mp hmem
    obtain ⟨hbf, _⟩ := hq p.1 hpe.symm
    have h1 : p.1 ∈ (assignBuckets cfg.grouping
        (dedupeEvents (raws.filterMap normalizeEvent))).map Prod.fst :=
      List.mem_map_of_mem _ hp
    have h2 := alGet_isSome_of_mem _ _ h1
    exact absurd hbf ((assignBuckets_isSome _ _ _).mp h2)
  · obtain ⟨k2, hk2, hke⟩ := List.mem_map.mp hmem
    obtain ⟨_, hnotin⟩ := hq k2 hke.symm
    exact hnotin (List.mem_filter.mp hk2).1

theorem fetchAndStore_inflight (cfg : CachedEventFetcherOptions) (oracle : Nat → Bool)
    (raws : List Event) (tstore s e : Int) (st : St) (hok : ∀ n, oracle n = true) :
    (fetchAndStore cfg oracle raws tstore s e st).2.inflight = st.inflight := by
  rw [fetchAndStore_snd cfg oracle raws tstore s e st hok]
  exact writes_inflight cfg _ st

/-- After a successful fetch every expected range key holds exactly the
deduplicated events assigned to its bucket (possibly none), stamped with the
store time. -/
theorem fetchAndStore_getEntry_expected (cfg : CachedEventFetcherOptions) (oracle : Nat → Bool)
    (raws : List Event) (tstore s e : Int) (st : St) (hok : ∀ n, oracle n = true) (k : String)
    (hk : k ∈ enumerateBucketKeys s e cfg.grouping) :
    getEntry cfg (fetchAndStore cfg oracle raws tstore s e st).2 (fullKey cfg.source k) =
      some ⟨dedupeEvents (bucketsFor cfg.grouping
        (dedupeEvents (raws.filterMap normalizeEvent)) k), tstore⟩ := by
  by_cases hbf : bucketsFor cfg.grouping (dedupeEvents (raws.filterMap normalizeEvent)) k = []
  · rw [fetchAndStore_getEntry_gap cfg oracle raws tstore s e st hok k hbf hk, hbf]
    rfl
  · exact fetchAndStore_getEntry_covered cfg oracle raws tstore s e st hok k hbf

/-! ## Claim C6 -/

theorem alGet_of_mem_nodup {α : Type} : ∀ (l : List (String × α)) (p : String × α),
    (l.map Prod.fst).Nodup → p ∈ l → alGet l p.1 = some p.2 := by
  intro l
  induction l with
  | nil =>
    intro p _ hp
    cases hp
  | cons q rest ih =>
    intro p hnd hp
    rw [List.map_cons, List.nodup_cons] at hnd
    rcases List.mem_cons.mp hp with rfl | hp
    · unfold alGet
      rw [if_pos rfl]
    · unfold alGet
      by_cases hk : q.1 = p.1
      · exfalso
        exact hnd.1 (hk ▸ List.mem_map_of_mem _ hp)
      · rw [if_neg hk]
        exact ih p hnd.2 hp

theorem getEntry_empty (cfg : CachedEventFetcherOptions) (n : Nat) (q : String) :
    getEntry cfg ⟨[], [], [], n⟩ q = none := by
  unfold getEntry
  cases cfg.storage <;> rfl

/-- A property of all data in the write list and in the initial store holds of
all data in any entry of the final store. -/
theorem writes_data_pred (cfg : CachedEventFetcherOptions) (P : Event → Prop) :
    ∀ (ws : List (String × Entry)) (st : St),
      (∀ p ∈ ws, ∀ x ∈ p.2.data, P x) →
      (∀ q en, getEntry cfg st q = some en → ∀ x ∈ en.data, P x) →
      ∀ q en, getEntry cfg (ws.foldl (fun acc p => stPut cfg acc p.1 p.2) st) q = some en →
        ∀ x ∈ en.data, P x := by
  intro ws
  induction ws with
  | nil =>
    intro st _ hst
    exact hst
  | cons p rest ih =>
    intro st hws hst
    refine ih (stPut cfg st p.1 p.2)
      (fun p2 hp2 => hws p2 (List.mem_cons_of_mem _ hp2)) ?_
    intro q en hq
    by_cases hqk : q = p.1
    · subst hqk
      rw [getEntry_stPut_same] at hq
      injection hq with hq2
      subst hq2
      exact hws p (List.mem_cons_self _ _)
    · rw [getEntry_stPut_other cfg st p.1 q p.2 hqk] at hq
      exact hst q en hq

/-- Every event stored by `fetchAndStore` into the empty store covers the
bucket of the key it is stored under. -/
theorem storeWrites_member_covers (cfg : CachedEventFetcherOptions) (normalized : List Event)
    (tstore s e : Int) (p : String × Entry) (hp : p ∈ storeWrites cfg normalized tstore s e)
    (y : Event) (hy : y ∈ p.2.data) : enumerateBucketsForEvent y cfg.grouping ≠ [] := by
  unfold storeWrites at hp
  dsimp only at hp
  rcases List.mem_append.mp hp with hp | hp
  · obtain ⟨p0, hp0, hpe⟩ := List.mem_map.mp hp
    have hdata : p.2.data = dedupeEvents p0.2 := by
      rw [← hpe]
    rw [hdata] at hy
    have hy2 : y ∈ p0.2 := dedupeEvents_subset hy
    have halg := alGet_of_mem_nodup _ p0 (assignBuckets_keys_nodup _ _) hp0
    rw [assignBuckets_get] at halg
    by_cases hbf : bucketsFor cfg.grouping normalized p0.1 = []
    · rw [if_pos hbf] at halg
      cases halg
    · rw [if_neg hbf] at halg
      injection halg with halg2
      rw [← halg2] at hy2
      have hmemk := of_decide_eq_true (List.mem_filter.mp hy2).2
      intro hnil
      rw [hnil] at hmemk
      cases hmemk
  · obtain ⟨k2, _, hke⟩ := List.mem_map.mp hp
    have hdata : p.2.data = [] := by
      rw [← hke]
    rw [hdata] at hy
    cases hy

def cfgC6 : CachedEventFetcherOptions := ⟨"s", 3600000, .day, .memory, 0, 10⟩

def evC6 : Event := ⟨some "c", .val 43200000, .val 36000000, 9⟩

def outC6 : GetOut :=
  get cfgC6 (fun _ => true) [evC6] 0 0 (.jdate 0) (.jdate 86400000) ⟨[], [], [], 0⟩

/-- **C6 counterexample**: an event whose resolved end (10:00) precedes its
resolved start (12:00) survives normalization, is assigned to no buckets, and
yet the pipeline returns it: the synchronous-fetch `get` over 1970-01-01 to
1970-01-02 answers with exactly this event, so it is not discarded and not
absent from results of `get`. -/
theorem C6_counterexample :
    toDate evC6.«start» = some 43200000 ∧
    (toDate evC6.«end»).getD 43200000 = 36000000 ∧ (36000000 : Int) < 43200000 ∧
    enumerateBucketsForEvent evC6 cfgC6.grouping = [] ∧
    outC6.fetches = 1 ∧ outC6.result = .ok [evC6] :=
  ⟨rfl, rfl, by decide, rfl, rfl, rfl⟩

/-- **C6** (corrected): a raw event whose resolved end precedes its resolved
start is assigned to no buckets and appears in no stored cache entry (starting
from an empty store, every entry of the post-fetch store excludes it), but —
contrary to the claim — it is *not* discarded from the pipeline's returned
event list: if it survives normalization and dedupe it is returned. -/
theorem C6_inverted_span_behaviour (cfg : CachedEventFetcherOptions) (oracle : Nat → Bool)
    (raws : List Event) (tstore s e : Int) (n : Nat) (hok : ∀ m, oracle m = true)
    (x : Event) (sx : Int) (hxs : toDate x.«start» = some sx)
    (hxe : (toDate x.«end»).getD sx < sx) :
    enumerateBucketsForEvent x cfg.grouping = [] ∧
    (∀ q en, getEntry cfg (fetchAndStore cfg oracle raws tstore s e ⟨[], [], [], n⟩).2 q =
        some en → x ∉ en.data) ∧
    (x ∈ dedupeEvents (raws.filterMap normalizeEvent) →
      x ∈ (fetchAndStore cfg oracle raws tstore s e ⟨[], [], [], n⟩).1) := by
  have h1 : enumerateBucketsForEvent x cfg.grouping = [] :=
    enumerateBucketsForEvent_inverted cfg.grouping hxs hxe
  refine ⟨h1, ?_, ?_⟩
  · intro q en hq hxmem
    rw [fetchAndStore_snd cfg oracle raws tstore s e _ hok] at hq
    have hws : ∀ p ∈ storeWrites cfg (dedupeEvents (raws.filterMap normalizeEvent)) tstore s e,
        ∀ y ∈ p.2.data, y ≠ x := by
      intro p hp y hy hyx
      exact storeWrites_member_covers cfg _ tstore s e p hp y hy (hyx.symm ▸ h1)
    have hst : ∀ q2 en2, getEntry cfg (⟨[], [], [], n⟩ : St) q2 = some en2 →
        ∀ y ∈ en2.data, y ≠ x := by
      intro q2 en2 hq2
      rw [getEntry_empty] at hq2
      cases hq2
    exact writes_data_pred cfg (fun y => y ≠ x) _ _ hws hst q en hq x hxmem rfl
  · intro hx
    rw [fetchAndStore_fst]
    exact hx

/-- Witness for C6 at the concrete inverted-span event. -/
theorem C6_inverted_span_behaviour_witness :
    (toDate evC6.«start» = some 43200000 ∧
      (toDate evC6.«end»).getD 43200000 < 43200000) ∧
    (enumerateBucketsForEvent evC6 cfgC6.grouping = [] ∧
      (∀ q en, getEntry cfgC6 (fetchAndStore cfgC6 (fun _ => true) [evC6] 0 0 86400000
          ⟨[], [], [], 0⟩).2 q = some en → evC6 ∉ en.data) ∧
      (evC6 ∈ dedupeEvents ([evC6].filterMap normalizeEvent) →
        evC6 ∈ (fetchAndStore cfgC6 (fun _ => true) [evC6] 0 0 86400000 ⟨[], [], [], 0⟩).1)) :=
  ⟨⟨rfl, by decide⟩,
    C6_inverted_span_behaviour cfgC6 (fun _ => true) [evC6] 0 0 86400000 0
      (fun _ => rfl) evC6 43200000 rfl (by decide)⟩

/-! ## Claim C4 -/

/-- **C4** (confirmed): every event list successfully returned by `get` is some
base list (the accumulated cached data or the freshly fetched data) filtered by
the overlap predicate against the resolved requested range and then
deduplicated by the composite `id|start|end` key; the overlap predicate holds
exactly when the event's resolved start precedes the range end and its
resolved end — defaulting to the start when absent — is at or after the range
start; in particular an event spanning 2024-03-01T23:00Z to 2024-03-02T01:00Z
is included for the query range [2024-03-02T00:00Z, 2024-03-03T00:00Z). -/
theorem C4_result_shape (cfg : CachedEventFetcherOptions) (oracle : Nat → Bool)
    (raws : List Event) (now tstore : Int) (ps pe : JSParam) (st : St) (s e : Int)
    (l : List Event) (hens : ensureRangeDates ps pe = .ok (some s, some e))
    (hres : (get cfg oracle raws now tstore ps pe st).result = .ok l) :
    (∃ base : List Event,
      l = dedupeEvents (base.filter (fun ev => eventOverlapsRange ev s e))) ∧
    (∀ (ev : Event) (s' e' : Int),
      eventOverlapsRange ev s' e' = true ↔
        ∃ sx, toDate ev.«start» = some sx ∧ sx < e' ∧
          s' ≤ (toDate ev.«end»).getD sx) ∧
    eventOverlapsRange ⟨some "x", .val 1709334000000, .val 1709341200000, 0⟩
      1709337600000 1709424000000 = true := by
  refine ⟨?_, ?_, by decide⟩
  · unfold get at hres
    rw [hens] at hres
    dsimp only at hres
    split at hres
    · split at hres
      next data _ =>
        exact ⟨data, (Except.ok.inj hres).symm⟩
      next =>
        exact ⟨(fetchAndStore cfg oracle raws tstore s e st).1, (Except.ok.inj hres).symm⟩
    · split at hres
      · split at hres
        · exact ⟨(scanKeys cfg st now (enumerateBucketKeys s e cfg.grouping)).1,
            (Except.ok.inj hres).symm⟩
        · exact ⟨(scanKeys cfg st now (enumerateBucketKeys s e cfg.grouping)).1,
            (Except.ok.inj hres).symm⟩
      · exact ⟨(scanKeys cfg st now (enumerateBucketKeys s e cfg.grouping)).1,
          (Except.ok.inj hres).symm⟩
  · intro ev s' e'
    cases htd : toDate ev.«start» with
    | none =>
      simp only [eventOverlapsRange, htd]
      simp
    | some sx =>
      simp only [eventOverlapsRange, htd]
      rw [Bool.and_eq_true, decide_eq_true_eq, decide_eq_true_eq]
      constructor
      · intro ⟨h1, h2⟩
        exact ⟨sx, rfl, h1, h2⟩
      · intro ⟨sx2, hsx2, h1, h2⟩
        injection hsx2 with hsx2
        subst hsx2
        exact ⟨h1, h2⟩

/-- Witness for C4 at a concrete fetching call over the range [0,0]. -/
theorem C4_result_shape_witness :
    (ensureRangeDates (.jdate 0) (.jdate 0) = .ok (some 0, some 0) ∧
      (get ⟨"s", 3600000, .day, .memory, 0, 10⟩ (fun _ => true) [] 0 0 (.jdate 0) (.jdate 0)
        ⟨[], [], [], 0⟩).result = .ok []) ∧
    ((∃ base : List Event,
        ([] : List Event) = dedupeEvents (base.filter (fun ev => eventOverlapsRange ev 0 0))) ∧
      (∀ (ev : Event) (s' e' : Int),
        eventOverlapsRange ev s' e' = true ↔
          ∃ sx, toDate ev.«start» = some sx ∧ sx < e' ∧
            s' ≤ (toDate ev.«end»).getD sx) ∧
      eventOverlapsRange ⟨some "x", .val 1709334000000, .val 1709341200000, 0⟩
        1709337600000 1709424000000 = true) :=
  ⟨⟨rfl, rfl⟩,
    C4_result_shape ⟨"s", 3600000, .day, .memory, 0, 10⟩ (fun _ => true) [] 0 0
      (.jdate 0) (.jdate 0) ⟨[], [], [], 0⟩ 0 0 [] rfl rfl⟩

/-! ## Claim C3 -/

/-- Step equation for `get` once the range has resolved to `[s, e]`. -/
theorem get_ok_eq (cfg : CachedEventFetcherOptions) (oracle : Nat → Bool)
    (raws : List Event) (now tstore : Int) (ps pe : JSParam) (st : St) (s e : Int)
    (hens : ensureRangeDates ps pe = .ok (some s, some e)) :
    get cfg oracle raws now tstore ps pe st =
      (if (scanKeys cfg st now (enumerateBucketKeys s e cfg.grouping)).2.1 = true then
        match alGet st.inflight (buildRangeKey cfg.source s e) with
        | some data =>
          ⟨.ok (dedupeEvents (data.filter (fun ev => eventOverlapsRange ev s e))),
            st, (scanKeys cfg st now (enumerateBucketKeys s e cfg.grouping)).2.2.2,
            0, true, false⟩
        | none =>
          ⟨.ok (dedupeEvents ((fetchAndStore cfg oracle raws tstore s e st).1.filter
              (fun ev => eventOverlapsRange ev s e))),
            (fetchAndStore cfg oracle raws tstore s e st).2,
            (scanKeys cfg st now (enumerateBucketKeys s e cfg.grouping)).2.2.2,
            1, true, false⟩
      else if (scanKeys cfg st now (enumerateBucketKeys s e cfg.grouping)).2.2.1 = true then
        if (alGet st.inflight (buildRangeKey cfg.source s e)).isSome then
          ⟨.ok (dedupeEvents
              ((scanKeys cfg st now (enumerateBucketKeys s e cfg.grouping)).1.filter
                (fun ev => eventOverlapsRange ev s e))),
            st, (scanKeys cfg st now (enumerateBucketKeys s e cfg.grouping)).2.2.2,
            0, false, false⟩
        else
          ⟨.ok (dedupeEvents
              ((scanKeys cfg st now (enumerateBucketKeys s e cfg.grouping)).1.filter
                (fun ev => eventOverlapsRange ev s e))),
            (fetchAndStore cfg oracle raws tstore s e st).2,
            (scanKeys cfg st now (enumerateBucketKeys s e cfg.grouping)).2.2.2,
            1, false, true⟩
      else
        ⟨.ok (dedupeEvents
            ((scanKeys cfg st now (enumerateBucketKeys s e cfg.grouping)).1.filter
              (fun ev => eventOverlapsRange ev s e))),
          st, (scanKeys cfg st now (enumerateBucketKeys s e cfg.grouping)).2.2.2,
          0, false, false⟩) := by
  unfold get
  rw [hens]

/-- **C3** (confirmed): per consulted entry with age `now - storedAt`: it is
fresh exactly when the age is at most `ttlMs`; stale-servable exactly when the
age exceeds `ttlMs`, `staleWhileRevalidateMs` is positive and the age is at
most `ttlMs + staleWhileRevalidateMs`; expired otherwise, and a missing (or
corrupt) entry is expired.  `get` performs a synchronous fetch exactly when
some consulted key is expired or absent; when no key is, the collected cached
data is served directly, with a background refresh exactly when some key is
stale-servable and no request for this range is in flight. -/
theorem C3_freshness_classes (cfg : CachedEventFetcherOptions) (oracle : Nat → Bool)
    (raws : List Event) (now tstore : Int) (ps pe : JSParam) (st : St) (s e : Int)
    (hens : ensureRangeDates ps pe = .ok (some s, some e)) :
    (∀ entry : Entry,
      (classifyEntry cfg.ttlMs cfg.staleWhileRevalidateMs now (some entry) = .fresh ↔
        now - entry.ts ≤ cfg.ttlMs) ∧
      (classifyEntry cfg.ttlMs cfg.staleWhileRevalidateMs now (some entry) = .staleServable ↔
        (cfg.ttlMs < now - entry.ts ∧ cfg.staleWhileRevalidateMs > 0 ∧
          now - entry.ts ≤ cfg.ttlMs + cfg.staleWhileRevalidateMs)) ∧
      (classifyEntry cfg.ttlMs cfg.staleWhileRevalidateMs now (some entry) = .expired ↔
        (cfg.ttlMs < now - entry.ts ∧ ¬(cfg.staleWhileRevalidateMs > 0 ∧
          now - entry.ts ≤ cfg.ttlMs + cfg.staleWhileRevalidateMs)))) ∧
    classifyEntry cfg.ttlMs cfg.staleWhileRevalidateMs now none = .expired ∧
    ((get cfg oracle raws now tstore ps pe st).syncFetch = true ↔
      ∃ k ∈ enumerateBucketKeys s e cfg.grouping, keyClass cfg st now k = .expired) ∧
    ((∀ k ∈ enumerateBucketKeys s e cfg.grouping, keyClass cfg st now k ≠ .expired) →
      get cfg oracle raws now tstore ps pe st =
        ⟨.ok (dedupeEvents
            ((collectData cfg st (enumerateBucketKeys s e cfg.grouping)).filter
              (fun ev => eventOverlapsRange ev s e))),
          (if (enumerateBucketKeys s e cfg.grouping).any
                (fun k => decide (keyClass cfg st now k = .staleServable)) &&
              !(alGet st.inflight (buildRangeKey cfg.source s e)).isSome then
            (fetchAndStore cfg oracle raws tstore s e st).2
          else st),
          (enumerateBucketKeys s e cfg.grouping).map (fullKey cfg.source),
          (if (enumerateBucketKeys s e cfg.grouping).any
                (fun k => decide (keyClass cfg st now k = .staleServable)) &&
              !(alGet st.inflight (buildRangeKey cfg.source s e)).isSome then 1 else 0),
          false,
          ((enumerateBucketKeys s e cfg.grouping).any
              (fun k => decide (keyClass cfg st now k = .staleServable)) &&
            !(alGet st.inflight (buildRangeKey cfg.source s e)).isSome)⟩) := by
  refine ⟨?_, rfl, ?_, ?_⟩
  · intro entry
    unfold classifyEntry
    dsimp only
    by_cases h1 : now - entry.ts ≤ cfg.ttlMs
    · rw [if_pos h1]
      exact ⟨⟨fun _ => h1, fun _ => rfl⟩,
        ⟨fun hc => absurd hc (by decide), fun hc => absurd h1 (not_le.mpr hc.1)⟩,
        ⟨fun hc => absurd hc (by decide), fun hc => absurd h1 (not_le.mpr hc.1)⟩⟩
    · rw [if_neg h1]
      by_cases h2 : cfg.staleWhileRevalidateMs > 0 ∧
          now - entry.ts ≤ cfg.ttlMs + cfg.staleWhileRevalidateMs
      · rw [if_pos h2]
        exact ⟨⟨fun hc => absurd hc (by decide), fun hc => absurd hc h1⟩,
          ⟨fun _ => ⟨not_le.mp h1, h2.1, h2.2⟩, fun _ => rfl⟩,
          ⟨fun hc => absurd hc (by decide), fun hc => absurd h2 hc.2⟩⟩
      · rw [if_neg h2]
        exact ⟨⟨fun hc => absurd hc (by decide), fun hc => absurd hc h1⟩,
          ⟨fun hc => absurd hc (by decide), fun hc => absurd hc.2 h2⟩,
          ⟨fun _ => ⟨not_le.mp h1, h2⟩, fun _ => rfl⟩⟩
  · rw [get_ok_eq cfg oracle raws now tstore ps pe st s e hens]
    by_cases hnf : (scanKeys cfg st now (enumerateBucketKeys s e cfg.grouping)).2.1 = true
    · rw [if_pos hnf]
      constructor
      · intro _
        exact (scanKeys_needsFetch cfg st now _).mp hnf
      · intro _
        split <;> rfl
    · rw [if_neg hnf]
      constructor
      · intro habs
        exfalso
        split at habs
        · split at habs
          · cases habs
          · cases habs
        · cases habs
      · intro hex
        exact absurd ((scanKeys_needsFetch cfg st now _).mpr hex) hnf
  · intro hall
    rw [get_ok_eq cfg oracle raws now tstore ps pe st s e hens,
      scanKeys_all_servable cfg st now _ hall]
    dsimp only
    rw [if_neg Bool.false_ne_true]
    by_cases hstale : (enumerateBucketKeys s e cfg.grouping).any
        (fun k => decide (keyClass cfg st now k = .staleServable)) = true
    · rw [if_pos hstale, hstale]
      by_cases hin : (alGet st.inflight (buildRangeKey cfg.source s e)).isSome = true
      · rw [if_pos hin, hin]
        rfl
      · rw [if_neg hin, Bool.not_eq_true] at *
        rw [hin]
        rfl
    · rw [if_neg hstale, Bool.not_eq_true] at *
      rw [hstale]
      rfl

def cfgC3 : CachedEventFetcherOptions := ⟨"s", 3600000, .day, .memory, 0, 10⟩

def stC3 : St := ⟨[("events:s:day:1970-01-01", ⟨[], 0⟩)], [], [], 0⟩

/-- Witness for C3 at a range served from one fresh cached entry. -/
theorem C3_freshness_classes_witness :
    ensureRangeDates (.jdate 0) (.jdate 0) = .ok (some 0, some 0) ∧
    ((∀ entry : Entry,
      (classifyEntry cfgC3.ttlMs cfgC3.staleWhileRevalidateMs 0 (some entry) = .fresh ↔
        0 - entry.ts ≤ cfgC3.ttlMs) ∧
      (classifyEntry cfgC3.ttlMs cfgC3.staleWhileRevalidateMs 0 (some entry) = .staleServable ↔
        (cfgC3.ttlMs < 0 - entry.ts ∧ cfgC3.staleWhileRevalidateMs > 0 ∧
          0 - entry.ts ≤ cfgC3.ttlMs + cfgC3.staleWhileRevalidateMs)) ∧
      (classifyEntry cfgC3.ttlMs cfgC3.staleWhileRevalidateMs 0 (some entry) = .expired ↔
        (cfgC3.ttlMs < 0 - entry.ts ∧ ¬(cfgC3.staleWhileRevalidateMs > 0 ∧
          0 - entry.ts ≤ cfgC3.ttlMs + cfgC3.staleWhileRevalidateMs)))) ∧
    classifyEntry cfgC3.ttlMs cfgC3.staleWhileRevalidateMs 0 none = .expired ∧
    ((get cfgC3 (fun _ => true) [] 0 0 (.jdate 0) (.jdate 0) stC3).syncFetch = true ↔
      ∃ k ∈ enumerateBucketKeys 0 0 cfgC3.grouping, keyClass cfgC3 stC3 0 k = .expired) ∧
    ((∀ k ∈ enumerateBucketKeys 0 0 cfgC3.grouping, keyClass cfgC3 stC3 0 k ≠ .expired) →
      get cfgC3 (fun _ => true) [] 0 0 (.jdate 0) (.jdate 0) stC3 =
        ⟨.ok (dedupeEvents
            ((collectData cfgC3 stC3 (enumerateBucketKeys 0 0 cfgC3.grouping)).filter
              (fun ev => eventOverlapsRange ev 0 0))),
          (if (enumerateBucketKeys 0 0 cfgC3.grouping).any
                (fun k => decide (keyClass cfgC3 stC3 0 k = .staleServable)) &&
              !(alGet stC3.inflight (buildRangeKey cfgC3.source 0 0)).isSome then
            (fetchAndStore cfgC3 (fun _ => true) [] 0 0 0 stC3).2
          else stC3),
          (enumerateBucketKeys 0 0 cfgC3.grouping).map (fullKey cfgC3.source),
          (if (enumerateBucketKeys 0 0 cfgC3.grouping).any
                (fun k => decide (keyClass cfgC3 stC3 0 k = .staleServable)) &&
              !(alGet stC3.inflight (buildRangeKey cfgC3.source 0 0)).isSome then 1 else 0),
          false,
          ((enumerateBucketKeys 0 0 cfgC3.grouping).any
              (fun k => decide (keyClass cfgC3 stC3 0 k = .staleServable)) &&
            !(alGet stC3.inflight (buildRangeKey cfgC3.source 0 0)).isSome)⟩)) :=
  ⟨rfl, C3_freshness_classes cfgC3 (fun _ => true) [] 0 0 (.jdate 0) (.jdate 0) stC3 0 0 rfl⟩

/-! ## Claim C1 -/

theorem ensureRangeDates_jdate (s e : Int) (hse : s ≤ e) :
    ensureRangeDates (.jdate s) (.jdate e) = .ok (some s, some e) := by
  unfold ensureRangeDates toDateParam
  dsimp only
  rw [if_neg (not_lt.mpr hse)]

theorem enumerateBucketKeys_ne_nil (s e : Int) (g : EventGrouping) (h : s ≤ e) :
    enumerateBucketKeys s e g ≠ [] := by
  obtain ⟨hmap, _, _, _, _, hhd, _⟩ := rangeChain_spec s e g h
  cases hre : rangeChain s e g with
  | nil =>
    rw [hre] at hhd
    cases hhd
  | cons a t =>
    rw [hmap, hre]
    simp

theorem scanKeys_first_missing (cfg : CachedEventFetcherOptions) (st : St) (now : Int)
    (k : String) (rest : List String)
    (hnone : getEntry cfg st (fullKey cfg.source k) = none) :
    scanKeys cfg st now (k :: rest) = ([], true, false, [fullKey cfg.source k]) := by
  unfold scanKeys
  dsimp only
  split
  next hge => rfl
  next entry hge =>
    rw [hnone] at hge
    cases hge

/-- From the empty store, `get` over a well-ordered range always takes the
synchronous fetch path. -/
theorem get_first_fetch (cfg : CachedEventFetcherOptions) (oracle : Nat → Bool)
    (raws : List Event) (now tstore : Int) (s e : Int) (n : Nat) (hse : s ≤ e) :
    get cfg oracle raws now tstore (.jdate s) (.jdate e) ⟨[], [], [], n⟩ =
      ⟨.ok (dedupeEvents
          ((fetchAndStore cfg oracle raws tstore s e ⟨[], [], [], n⟩).1.filter
            (fun ev => eventOverlapsRange ev s e))),
        (fetchAndStore cfg oracle raws tstore s e ⟨[], [], [], n⟩).2,
        (scanKeys cfg ⟨[], [], [], n⟩ now (enumerateBucketKeys s e cfg.grouping)).2.2.2,
        1, true, false⟩ := by
  rw [get_ok_eq cfg oracle raws now tstore _ _ _ s e (ensureRangeDates_jdate s e hse)]
  obtain ⟨k0, rest, hkeys⟩ :=
    List.exists_cons_of_ne_nil (enumerateBucketKeys_ne_nil s e cfg.grouping hse)
  have hscan : scanKeys cfg ⟨[], [], [], n⟩ now (enumerateBucketKeys s e cfg.grouping) =
      ([], true, false, [fullKey cfg.source k0]) := by
    rw [hkeys]
    exact scanKeys_first_missing cfg _ now k0 rest (getEntry_empty cfg n _)
  rw [hscan, if_pos rfl]
  rfl

theorem collectData_mem (cfg : CachedEventFetcherOptions) (st : St) :
    ∀ (keys : List String) (x : Event),
      x ∈ collectData cfg st keys ↔ ∃ k ∈ keys, x ∈ entryDataOf cfg st k := by
  intro keys
  induction keys with
  | nil =>
    intro x
    simp [collectData]
  | cons k rest ih =>
    intro x
    show x ∈ entryDataOf cfg st k ++ collectData cfg st rest ↔ _
    rw [List.mem_append, ih]
    constructor
    · rintro (h | ⟨k2, hk2, h⟩)
      · exact ⟨k, List.mem_cons_self _ _, h⟩
      · exact ⟨k2, List.mem_cons_of_mem _ hk2, h⟩
    · rintro ⟨k2, hk2, h⟩
      rcases List.mem_cons.mp hk2 with rfl | hk2
      · exact Or.inl h
      · exact Or.inr ⟨k2, hk2, h⟩

theorem eventOverlapsRange_true {ev : Event} {s e sx : Int}
    (hs : toDate ev.«start» = some sx) :
    eventOverlapsRange ev s e = true ↔
      (sx < e ∧ (toDate ev.«end»).getD sx ≥ s) := by
  unfold eventOverlapsRange
  rw [hs]
  dsimp only
  rw [Bool.and_eq_true, decide_eq_true_eq, decide_eq_true_eq]

/-- A bucket start lying in the bucket ranges of both the overlapping event
span `[sx, ex]` and the query range `[s, e]`. -/
theorem common_bucket (g : EventGrouping) {s e sx ex : Int} (hse : s ≤ e)
    (hsxe : sx < e) (hexs : s ≤ ex) (hsxex : sx ≤ ex) :
    ∃ b : Int, bucketStart b g = b ∧
      bucketStart sx g ≤ b ∧ b ≤ bucketStart ex g ∧
      bucketStart s g ≤ b ∧ b ≤ bucketStart e g := by
  refine ⟨max (bucketStart sx g) (bucketStart s g), ?_, le_max_left _ _, ?_,
    le_max_right _ _, ?_⟩
  · rcases max_choice (bucketStart sx g) (bucketStart s g) with h | h <;> rw [h] <;>
      exact bucketStart_idem _ g
  · exact max_le (bucketStart_mono g hsxex) (bucketStart_mono g hexs)
  · exact max_le (bucketStart_mono g (le_of_lt hsxe)) (bucketStart_mono g hse)

/-- **C1** (corrected): a `get` over `[s, e]` from the empty store performs
exactly one synchronous fetch, after which every bucket key of the range holds
a stored entry stamped with the fetch time — keys with no assigned events
holding explicit empty entries; and provided every normalized event has a
resolvable start and a well-ordered span (the proviso the claim lacks: an event
with an inverted or unresolvable span is returned by the fetching call but
stored nowhere, so the two results can differ), a second `get` over the
identical range made while every entry's age is at most `ttlMs` invokes the
fetcher zero times and returns the same set of events. -/
theorem C1_cached_range_roundtrip (cfg : CachedEventFetcherOptions)
    (oracle oracle2 : Nat → Bool) (raws raws2 : List Event)
    (now tstore now2 tstore2 : Int) (s e : Int) (n : Nat)
    (hok : ∀ m, oracle m = true) (hse : s ≤ e)
    (hwf : ∀ x ∈ dedupeEvents (raws.filterMap normalizeEvent), ∃ sx,
      toDate x.«start» = some sx ∧ sx ≤ (toDate x.«end»).getD sx)
    (hfresh : now2 - tstore ≤ cfg.ttlMs) :
    (get cfg oracle raws now tstore (.jdate s) (.jdate e) ⟨[], [], [], n⟩).fetches = 1 ∧
    (∀ k ∈ enumerateBucketKeys s e cfg.grouping,
      getEntry cfg (get cfg oracle raws now tstore (.jdate s) (.jdate e)
          ⟨[], [], [], n⟩).st (fullKey cfg.source k) =
        some ⟨dedupeEvents (bucketsFor cfg.grouping
          (dedupeEvents (raws.filterMap normalizeEvent)) k), tstore⟩) ∧
    (get cfg oracle2 raws2 now2 tstore2 (.jdate s) (.jdate e)
      (get cfg oracle raws now tstore (.jdate s) (.jdate e) ⟨[], [], [], n⟩).st).fetches = 0 ∧
    ∃ l1 l2,
      (get cfg oracle raws now tstore (.jdate s) (.jdate e) ⟨[], [], [], n⟩).result =
        .ok l1 ∧
      (get cfg oracle2 raws2 now2 tstore2 (.jdate s) (.jdate e)
        (get cfg oracle raws now tstore (.jdate s) (.jdate e) ⟨[], [], [], n⟩).st).result =
          .ok l2 ∧
      ∀ x, x ∈ l2 ↔ x ∈ l1 := by
  rw [get_first_fetch cfg oracle raws now tstore s e n hse]
  dsimp only
  have hexp : ∀ k ∈ enumerateBucketKeys s e cfg.grouping,
      getEntry cfg (fetchAndStore cfg oracle raws tstore s e ⟨[], [], [], n⟩).2
        (fullKey cfg.source k) =
      some ⟨dedupeEvents (bucketsFor cfg.grouping
        (dedupeEvents (raws.filterMap normalizeEvent)) k), tstore⟩ :=
    fun k hk => fetchAndStore_getEntry_expected cfg oracle raws tstore s e _ hok k hk
  have hclass : ∀ k ∈ enumerateBucketKeys s e cfg.grouping,
      keyClass cfg (fetchAndStore cfg oracle raws tstore s e ⟨[], [], [], n⟩).2 now2 k =
        .fresh := by
    intro k hk
    unfold keyClass
    rw [hexp k hk]
    unfold classifyEntry
    dsimp only
    rw [if_pos hfresh]
  have hall : ∀ k ∈ enumerateBucketKeys s e cfg.grouping,
      keyClass cfg (fetchAndStore cfg oracle raws tstore s e ⟨[], [], [], n⟩).2 now2 k ≠
        .expired := by
    intro k hk
    rw [hclass k hk]
    decide
  have hany : (enumerateBucketKeys s e cfg.grouping).any
      (fun k => decide (keyClass cfg
        (fetchAndStore cfg oracle raws tstore s e ⟨[], [], [], n⟩).2 now2 k =
          .staleServable)) = false := by
    cases hcase : (enumerateBucketKeys s e cfg.grouping).any
        (fun k => decide (keyClass cfg
          (fetchAndStore cfg oracle raws tstore s e ⟨[], [], [], n⟩).2 now2 k =
            .staleServable)) with
    | false => rfl
    | true =>
      exfalso
      obtain ⟨k, hk, hpk⟩ := List.any_eq_true.mp hcase
      rw [hclass k hk] at hpk
      exact absurd (of_decide_eq_true hpk) (by decide)
  have hsecond : get cfg oracle2 raws2 now2 tstore2 (.jdate s) (.jdate e)
      (fetchAndStore cfg oracle raws tstore s e ⟨[], [], [], n⟩).2 =
    ⟨.ok (dedupeEvents ((collectData cfg
        (fetchAndStore cfg oracle raws tstore s e ⟨[], [], [], n⟩).2
        (enumerateBucketKeys s e cfg.grouping)).filter
        (fun ev => eventOverlapsRange ev s e))),
      (fetchAndStore cfg oracle raws tstore s e ⟨[], [], [], n⟩).2,
      (enumerateBucketKeys s e cfg.grouping).map (fullKey cfg.source),
      0, false, false⟩ := by
    rw [get_ok_eq cfg oracle2 raws2 now2 tstore2 _ _ _ s e (ensureRangeDates_jdate s e hse),
      scanKeys_all_servable cfg _ now2 _ hall]
    dsimp only
    rw [if_neg Bool.false_ne_true, hany, if_neg Bool.false_ne_true]
  refine ⟨rfl, hexp, ?_, ?_⟩
  · rw [hsecond]
  · refine ⟨dedupeEvents
        ((fetchAndStore cfg oracle raws tstore s e ⟨[], [], [], n⟩).1.filter
          (fun ev => eventOverlapsRange ev s e)),
      dedupeEvents ((collectData cfg
        (fetchAndStore cfg oracle raws tstore s e ⟨[], [], [], n⟩).2
        (enumerateBucketKeys s e cfg.grouping)).filter
        (fun ev => eventOverlapsRange ev s e)),
      rfl, by rw [hsecond], ?_⟩
    rw [fetchAndStore_fst]
    intro x
    have hkuN := dedupeEvents_ku (raws.filterMap normalizeEvent)
    have hcolsub : ∀ y, y ∈ collectData cfg
        (fetchAndStore cfg oracle raws tstore s e ⟨[], [], [], n⟩).2
        (enumerateBucketKeys s e cfg.grouping) →
        y ∈ dedupeEvents (raws.filterMap normalizeEvent) := by
      intro y hy
      obtain ⟨k, hk, hyk⟩ := (collectData_mem cfg _ _ y).mp hy
      have hed : entryDataOf cfg
          (fetchAndStore cfg oracle raws tstore s e ⟨[], [], [], n⟩).2 k =
          dedupeEvents (bucketsFor cfg.grouping
            (dedupeEvents (raws.filterMap normalizeEvent)) k) := by
        unfold entryDataOf
        rw [hexp k hk]
      rw [hed] at hyk
      exact (List.mem_filter.mp (dedupeEvents_subset hyk)).1
    constructor
    · intro hx2
      have hx2f := dedupeEvents_subset hx2
      have hxc := (List.mem_filter.mp hx2f).1
      have hov := (List.mem_filter.mp hx2f).2
      have hxN := hcolsub x hxc
      refine (dedupeEvents_mem_iff ?_).mpr (List.mem_filter.mpr ⟨hxN, hov⟩)
      intro a b ha hb
      exact hkuN a b (List.mem_filter.mp ha).1 (List.mem_filter.mp hb).1
    · intro hx1
      have hx1f := dedupeEvents_subset hx1
      have hxN := (List.mem_filter.mp hx1f).1
      have hov := (List.mem_filter.mp hx1f).2
      obtain ⟨sx, hxs, hxe⟩ := hwf x hxN
      have hovc := (eventOverlapsRange_true hxs).mp hov
      obtain ⟨b, hb, h1, h2, h3, h4⟩ :=
        common_bucket cfg.grouping hse hovc.1 hovc.2 hxe
      have hkx : bucketKey b cfg.grouping ∈ enumerateBucketsForEvent x cfg.grouping :=
        (enumerateBucketsForEvent_spec x cfg.grouping sx hxs hxe).1 b hb h1 h2
      obtain ⟨hmap, _, _, _, hcov, _, _⟩ := rangeChain_spec s e cfg.grouping hse
      have hkk : bucketKey b cfg.grouping ∈ enumerateBucketKeys s e cfg.grouping := by
        rw [hmap]
        exact List.mem_map_of_mem _ (hcov b hb h3 h4)
      have hxbf : x ∈ bucketsFor cfg.grouping
          (dedupeEvents (raws.filterMap normalizeEvent)) (bucketKey b cfg.grouping) :=
        List.mem_filter.mpr ⟨hxN, decide_eq_true hkx⟩
      have hxd : x ∈ dedupeEvents (bucketsFor cfg.grouping
          (dedupeEvents (raws.filterMap normalizeEvent)) (bucketKey b cfg.grouping)) := by
        refine (dedupeEvents_mem_iff ?_).mpr hxbf
        intro a b2 ha hb2
        exact hkuN a b2 (List.mem_filter.mp ha).1 (List.mem_filter.mp hb2).1
      have hxed : x ∈ entryDataOf cfg
          (fetchAndStore cfg oracle raws tstore s e ⟨[], [], [], n⟩).2
          (bucketKey b cfg.grouping) := by
        unfold entryDataOf
        rw [hexp _ hkk]
        exact hxd
      have hxc : x ∈ collectData cfg
          (fetchAndStore cfg oracle raws tstore s e ⟨[], [], [], n⟩).2
          (enumerateBucketKeys s e cfg.grouping) :=
        (collectData_mem cfg _ _ x).mpr ⟨_, hkk, hxed⟩
      refine (dedupeEvents_mem_iff ?_).mpr (List.mem_filter.mpr ⟨hxc, hov⟩)
      intro a b2 ha hb2
      exact hkuN a b2 (hcolsub a (List.mem_filter.mp ha).1)
        (hcolsub b2 (List.mem_filter.mp hb2).1)

/-- **C1 counterexample**: with a fetcher returning one event whose resolved
end precedes its resolved start, the first `get` returns that event while
storing only empty entries, so the second `get` — which performs zero fetches —
returns the empty list: the two calls do not return the same set of events. -/
theorem C1_counterexample :
    (let cfg : CachedEventFetcherOptions := ⟨"s", 3600000, .day, .memory, 0, 10⟩
     let ev : Event := ⟨some "c", .val 43200000, .val 36000000, 9⟩
     let out1 := get cfg (fun _ => true) [ev] 0 0 (.jdate 0) (.jdate 86400000)
       ⟨[], [], [], 0⟩
     let out2 := get cfg (fun _ => true) [ev] 1000 1000 (.jdate 0) (.jdate 86400000)
       out1.st
     out1.fetches = 1 ∧ out1.result = .ok [ev] ∧
     out2.fetches = 0 ∧ out2.result = .ok []) :=
  ⟨rfl, rfl, rfl, rfl⟩

/-- Witness for C1 at a concrete one-event fetch over the range [0, 0]. -/
theorem C1_cached_range_roundtrip_witness :
    ((0 : Int) ≤ 0 ∧
      (1000 : Int) - 0 ≤ (⟨"s", 3600000, .day, .memory, 0, 10⟩ :
        CachedEventFetcherOptions).ttlMs ∧
      (∀ x ∈ dedupeEvents
          ([(⟨some "a", .val 0, .val 3600000, 1⟩ : Event)].filterMap normalizeEvent),
        ∃ sx, toDate x.«start» = some sx ∧ sx ≤ (toDate x.«end»).getD sx)) ∧
    ((get ⟨"s", 3600000, .day, .memory, 0, 10⟩ (fun _ => true)
        [⟨some "a", .val 0, .val 3600000, 1⟩] 0 0 (.jdate 0) (.jdate 0)
        ⟨[], [], [], 0⟩).fetches = 1 ∧
      (∀ k ∈ enumerateBucketKeys 0 0 EventGrouping.day,
        getEntry ⟨"s", 3600000, .day, .memory, 0, 10⟩
          (get ⟨"s", 3600000, .day, .memory, 0, 10⟩ (fun _ => true)
            [⟨some "a", .val 0, .val 3600000, 1⟩] 0 0 (.jdate 0) (.jdate 0)
            ⟨[], [], [], 0⟩).st (fullKey "s" k) =
          some ⟨dedupeEvents (bucketsFor EventGrouping.day
            (dedupeEvents ([(⟨some "a", .val 0, .val 3600000, 1⟩ : Event)].filterMap
              normalizeEvent)) k), 0⟩) ∧
      (get ⟨"s", 3600000, .day, .memory, 0, 10⟩ (fun _ => true) [] 1000 1000
        (.jdate 0) (.jdate 0)
        (get ⟨"s", 3600000, .day, .memory, 0, 10⟩ (fun _ => true)
          [⟨some "a", .val 0, .val 3600000, 1⟩] 0 0 (.jdate 0) (.jdate 0)
          ⟨[], [], [], 0⟩).st).fetches = 0 ∧
      ∃ l1 l2,
        (get ⟨"s", 3600000, .day, .memory, 0, 10⟩ (fun _ => true)
          [⟨some "a", .val 0, .val 3600000, 1⟩] 0 0 (.jdate 0) (.jdate 0)
          ⟨[], [], [], 0⟩).result = .ok l1 ∧
        (get ⟨"s", 3600000, .day, .memory, 0, 10⟩ (fun _ => true) [] 1000 1000
          (.jdate 0) (.jdate 0)
          (get ⟨"s", 3600000, .day, .memory, 0, 10⟩ (fun _ => true)
            [⟨some "a", .val 0, .val 3600000, 1⟩] 0 0 (.jdate 0) (.jdate 0)
            ⟨[], [], [], 0⟩).st).result = .ok l2 ∧
        ∀ x, x ∈ l2 ↔ x ∈ l1) :=
  ⟨⟨by decide, by decide, by
      intro x hx
      have h : dedupeEvents
          ([(⟨some "a", .val 0, .val 3600000, 1⟩ : Event)].filterMap normalizeEvent) =
          [⟨some "a", .val 0, .val 3600000, 1⟩] := rfl
      rw [h] at hx
      rcases List.mem_singleton.mp hx with rfl
      exact ⟨0, rfl, by decide⟩⟩,
    C1_cached_range_roundtrip ⟨"s", 3600000, .day, .memory, 0, 10⟩
      (fun _ => true) (fun _ => true) [⟨some "a", .val 0, .val 3600000, 1⟩] []
      0 0 1000 1000 0 0 0 (fun _ => rfl) (by decide)
      (by
        intro x hx
        have h : dedupeEvents
            ([(⟨some "a", .val 0, .val 3600000, 1⟩ : Event)].filterMap normalizeEvent) =
            [⟨some "a", .val 0, .val 3600000, 1⟩] := rfl
        rw [h] at hx
        rcases List.mem_singleton.mp hx with rfl
        exact ⟨0, rfl, by decide⟩)
      (by decide)⟩

/-! ## Claim C8 -/

theorem mem_keys_alRemove {α : Type} : ∀ (l : List (String × α)) (k q : String),
    q ∈ (alRemove l k).map Prod.fst → q ∈ l.map Prod.fst := by
  intro l
  induction l with
  | nil =>
    intro k q h
    cases h
  | cons p rest ih =>
    intro k q h
    unfold alRemove at h
    by_cases hk : p.1 = k
    · rw [if_pos hk] at h
      exact List.mem_cons_of_mem _ h
    · rw [if_neg hk, List.map_cons] at h
      rcases List.mem_cons.mp h with rfl | h
      · exact List.mem_cons_self _ _
      · exact List.mem_cons_of_mem _ (ih k q h)

theorem alRemove_keys_nodup {α : Type} : ∀ (l : List (String × α)) (k : String),
    (l.map Prod.fst).Nodup → ((alRemove l k).map Prod.fst).Nodup := by
  intro l
  induction l with
  | nil =>
    intro k _
    simp [alRemove]
  | cons p rest ih =>
    intro k hnd
    rw [List.map_cons, List.nodup_cons] at hnd
    unfold alRemove
    by_cases hk : p.1 = k
    · rw [if_pos hk]
      exact hnd.2
    · rw [if_neg hk, List.map_cons, List.nodup_cons]
      exact ⟨fun hc => hnd.1 (mem_keys_alRemove rest k p.1 hc), ih k hnd.2⟩

theorem alGet_alRemove {α : Type} : ∀ (l : List (String × α)) (k q : String),
    (l.map Prod.fst).Nodup →
    alGet (alRemove l k) q = if k = q then none else alGet l q := by
  intro l
  induction l with
  | nil =>
    intro k q _
    by_cases hk : k = q
    · rw [if_pos hk]
      rfl
    · rw [if_neg hk]
      rfl
  | cons p rest ih =>
    intro k q hnd
    rw [List.map_cons, List.nodup_cons] at hnd
    unfold alRemove
    by_cases hk : p.1 = k
    · rw [if_pos hk]
      by_cases hq : k = q
      · rw [if_pos hq]
        apply alGet_none_of_not_mem
        rw [← hq, ← hk]
        exact hnd.1
      · rw [if_neg hq]
        have h2 : alGet (p :: rest) q = alGet rest q := by
          show (if p.1 = q then some p.2 else alGet rest q) = alGet rest q
          rw [if_neg (fun hc => hq (hk ▸ hc))]
        rw [h2]
    · rw [if_neg hk]
      show (if p.1 = q then some p.2 else alGet (alRemove rest k) q) = _
      by_cases hq : p.1 = q
      · rw [if_pos hq, if_neg (fun hc => hk (hq.trans hc.symm))]
        show _ = (if p.1 = q then some p.2 else alGet rest q)
        rw [if_pos hq]
      · rw [if_neg hq, ih k q hnd.2]
        by_cases hkq : k = q
        · rw [if_pos hkq, if_pos hkq]
        · rw [if_neg hkq, if_neg hkq]
          show _ = (if p.1 = q then some p.2 else alGet rest q)
          rw [if_neg hq]

theorem alGet_removeFold {α : Type} : ∀ (ps : List (String × Int)) (per : List (String × α))
    (q : String), (per.map Prod.fst).Nodup →
    alGet (ps.foldl (fun acc p => alRemove acc p.1) per) q =
      if q ∈ ps.map Prod.fst then none else alGet per q := by
  intro ps
  induction ps with
  | nil =>
    intro per q _
    rw [if_neg (by simp)]
    rfl
  | cons p rest ih =>
    intro per q hnd
    rw [List.foldl_cons, ih _ q (alRemove_keys_nodup per p.1 hnd),
      alGet_alRemove per p.1 q hnd, List.map_cons]
    by_cases hmem : q ∈ rest.map Prod.fst
    · rw [if_pos hmem, if_pos (List.mem_cons_of_mem _ hmem)]
    · rw [if_neg hmem]
      by_cases hpq : p.1 = q
      · rw [if_pos hpq, if_pos (List.mem_cons.mpr (Or.inl hpq.symm))]
      · rw [if_neg hpq,
          if_neg (fun hc => (List.mem_cons.mp hc).elim (fun h2 => hpq h2.symm) hmem)]

theorem trimFold_eq : ∀ (ps : List (String × Int)) (st : St),
    ps.foldl (fun acc p => { acc with per := alRemove acc.per p.1 }) st =
      { st with per := ps.foldl (fun acc p => alRemove acc p.1) st.per } := by
  intro ps
  induction ps with
  | nil =>
    intro st
    rfl
  | cons p rest ih =>
    intro st
    rw [List.foldl_cons, List.foldl_cons, ih]

theorem tryTrimPersistent_attempts (st : St) (source : String) (keep : Nat) :
    (tryTrimPersistent st source keep).attempts = st.attempts := by
  unfold tryTrimPersistent
  dsimp only
  split
  · rfl
  · rw [trimFold_eq]

theorem tryTrimPersistent_mem (st : St) (source : String) (keep : Nat) :
    (tryTrimPersistent st source keep).mem = st.mem := by
  unfold tryTrimPersistent
  dsimp only
  split
  · rfl
  · rw [trimFold_eq]

/-- **C8** (confirmed): when a persistent set fails, each stored entry of the
source is read with a missing or corrupt timestamp as 0, the keys are sorted
descending by timestamp and every key beyond `keep = max 1 (maxEntries * 9 / 10)`
is removed (the survivors being exactly the keys not dropped from the sorted
list), the original set is retried exactly once against the trimmed store, a
failing retry abandons the write silently (the store keeps the trimmed
contents, only the attempt counter advances), and the fetched events are
returned to the caller regardless. -/
theorem C8_trim_and_retry (cfg : CachedEventFetcherOptions) (oracle : Nat → Bool)
    (st : St) (k : String) (entry : Entry) (raws : List Event) (tstore s e : Int)
    (hls : cfg.storage = .localStorage) (hfail : oracle st.attempts = false)
    (hnd : (st.per.map Prod.fst).Nodup) :
    (∀ q, alGet st.per q = none → tsOf st q = 0) ∧
    (∀ q, alGet st.per q = some .corrupt → tsOf st q = 0) ∧
    (((listSourceKeys st cfg.source).map (fun k2 => (k2, tsOf st k2))).mergeSort
        (fun a b => decide (b.2 ≤ a.2))).Pairwise (fun a b => b.2 ≤ a.2) ∧
    List.Perm
      (((listSourceKeys st cfg.source).map (fun k2 => (k2, tsOf st k2))).mergeSort
        (fun a b => decide (b.2 ≤ a.2)))
      ((listSourceKeys st cfg.source).map (fun k2 => (k2, tsOf st k2))) ∧
    setEntry cfg oracle st k entry =
      (setToPersistent oracle
        (tryTrimPersistent { st with attempts := st.attempts + 1 } cfg.source
          (max 1 (9 * cfg.maxEntries / 10))) k entry).2 ∧
    ((((listSourceKeys st cfg.source).map (fun k2 => (k2, tsOf st k2))).mergeSort
          (fun a b => decide (b.2 ≤ a.2))).length ≤ max 1 (9 * cfg.maxEntries / 10) →
      tryTrimPersistent { st with attempts := st.attempts + 1 } cfg.source
          (max 1 (9 * cfg.maxEntries / 10)) =
        { st with attempts := st.attempts + 1 }) ∧
    (¬((((listSourceKeys st cfg.source).map (fun k2 => (k2, tsOf st k2))).mergeSort
          (fun a b => decide (b.2 ≤ a.2))).length ≤ max 1 (9 * cfg.maxEntries / 10)) →
      ∀ q, alGet (tryTrimPersistent { st with attempts := st.attempts + 1 } cfg.source
          (max 1 (9 * cfg.maxEntries / 10))).per q =
        if q ∈ (((((listSourceKeys st cfg.source).map (fun k2 => (k2, tsOf st k2))).mergeSort
              (fun a b => decide (b.2 ≤ a.2))).drop
                (max 1 (9 * cfg.maxEntries / 10))).map Prod.fst) then none
        else alGet st.per q) ∧
    (oracle (tryTrimPersistent { st with attempts := st.attempts + 1 } cfg.source
        (max 1 (9 * cfg.maxEntries / 10))).attempts = false →
      (setEntry cfg oracle st k entry).per =
        (tryTrimPersistent { st with attempts := st.attempts + 1 } cfg.source
          (max 1 (9 * cfg.maxEntries / 10))).per ∧
      (setEntry cfg oracle st k entry).attempts = st.attempts + 2) ∧
    (fetchAndStore cfg oracle raws tstore s e st).1 =
      dedupeEvents (raws.filterMap normalizeEvent) := by
  have hsort := @List.sorted_mergeSort (String × Int)
    (fun a b => decide (b.2 ≤ a.2))
    (fun a b c hab hbc => decide_eq_true
      (le_trans (of_decide_eq_true hbc) (of_decide_eq_true hab)))
    (fun a b => by rcases le_total a.2 b.2 with h | h <;> simp [h])
    ((listSourceKeys st cfg.source).map (fun k2 => (k2, tsOf st k2)))
  have hset : setEntry cfg oracle st k entry =
      (setToPersistent oracle
        (tryTrimPersistent { st with attempts := st.attempts + 1 } cfg.source
          (max 1 (9 * cfg.maxEntries / 10))) k entry).2 := by
    unfold setEntry setToPersistent
    rw [hls]
    dsimp only
    rw [if_neg (fun hc => Bool.false_ne_true (hfail ▸ hc))]
  refine ⟨?_, ?_, ?_, ?_, hset, ?_, ?_, ?_, rfl⟩
  · intro q hq
    unfold tsOf
    rw [hq]
  · intro q hq
    unfold tsOf
    rw [hq]
  · exact hsort.imp (fun h => of_decide_eq_true h)
  · exact List.mergeSort_perm _ _
  · intro hlen
    unfold tryTrimPersistent
    dsimp only
    rw [show (List.map (fun k2 => (k2, tsOf { st with attempts := st.attempts + 1 } k2))
        (listSourceKeys { st with attempts := st.attempts + 1 } cfg.source)) =
      (List.map (fun k2 => (k2, tsOf st k2)) (listSourceKeys st cfg.source)) from rfl]
    rw [if_pos hlen]
  · intro hlen q
    unfold tryTrimPersistent
    dsimp only
    rw [show (List.map (fun k2 => (k2, tsOf { st with attempts := st.attempts + 1 } k2))
        (listSourceKeys { st with attempts := st.attempts + 1 } cfg.source)) =
      (List.map (fun k2 => (k2, tsOf st k2)) (listSourceKeys st cfg.source)) from rfl]
    rw [if_neg hlen, trimFold_eq]
    dsimp only
    exact alGet_removeFold _ _ q hnd
  · intro hretry
    rw [hset]
    unfold setToPersistent
    rw [if_neg (fun hc => Bool.false_ne_true (hretry ▸ hc))]
    refine ⟨rfl, ?_⟩
    show (tryTrimPersistent { st with attempts := st.attempts + 1 } cfg.source
      (max 1 (9 * cfg.maxEntries / 10))).attempts + 1 = st.attempts + 2
    rw [tryTrimPersistent_attempts]

def cfgC8 : CachedEventFetcherOptions := ⟨"s", 3600000, .day, .localStorage, 0, 2⟩

def stC8 : St :=
  ⟨[], [("events:s:day:1970-01-01", .good ⟨[], 5⟩),
        ("events:s:day:1970-01-02", .good ⟨[], 10⟩),
        ("x", .corrupt)], [], 0⟩

/-- Witness for C8 at a concrete overfull persistent store with a failing
write oracle. -/
theorem C8_trim_and_retry_witness :
    (cfgC8.storage = .localStorage ∧ (fun _ => false : Nat → Bool) stC8.attempts = false ∧
      (stC8.per.map Prod.fst).Nodup) ∧
    ((∀ q, alGet stC8.per q = none → tsOf stC8 q = 0) ∧
    (∀ q, alGet stC8.per q = some .corrupt → tsOf stC8 q = 0) ∧
    (((listSourceKeys stC8 cfgC8.source).map (fun k2 => (k2, tsOf stC8 k2))).mergeSort
        (fun a b => decide (b.2 ≤ a.2))).Pairwise (fun a b => b.2 ≤ a.2) ∧
    List.Perm
      (((listSourceKeys stC8 cfgC8.source).map (fun k2 => (k2, tsOf stC8 k2))).mergeSort
        (fun a b => decide (b.2 ≤ a.2)))
      ((listSourceKeys stC8 cfgC8.source).map (fun k2 => (k2, tsOf stC8 k2))) ∧
    setEntry cfgC8 (fun _ => false) stC8 "k" ⟨[], 20⟩ =
      (setToPersistent (fun _ => false)
        (tryTrimPersistent { stC8 with attempts := stC8.attempts + 1 } cfgC8.source
          (max 1 (9 * cfgC8.maxEntries / 10))) "k" ⟨[], 20⟩).2 ∧
    ((((listSourceKeys stC8 cfgC8.source).map (fun k2 => (k2, tsOf stC8 k2))).mergeSort
          (fun a b => decide (b.2 ≤ a.2))).length ≤ max 1 (9 * cfgC8.maxEntries / 10) →
      tryTrimPersistent { stC8 with attempts := stC8.attempts + 1 } cfgC8.source
          (max 1 (9 * cfgC8.maxEntries / 10)) =
        { stC8 with attempts := stC8.attempts + 1 }) ∧
    (¬((((listSourceKeys stC8 cfgC8.source).map (fun k2 => (k2, tsOf stC8 k2))).mergeSort
          (fun a b => decide (b.2 ≤ a.2))).length ≤ max 1 (9 * cfgC8.maxEntries / 10)) →
      ∀ q, alGet (tryTrimPersistent { stC8 with attempts := stC8.attempts + 1 } cfgC8.source
          (max 1 (9 * cfgC8.maxEntries / 10))).per q =
        if q ∈ (((((listSourceKeys stC8 cfgC8.source).map
              (fun k2 => (k2, tsOf stC8 k2))).mergeSort
              (fun a b => decide (b.2 ≤ a.2))).drop
                (max 1 (9 * cfgC8.maxEntries / 10))).map Prod.fst) then none
        else alGet stC8.per q) ∧
    ((fun _ => false : Nat → Bool)
        (tryTrimPersistent { stC8 with attempts := stC8.attempts + 1 } cfgC8.source
          (max 1 (9 * cfgC8.maxEntries / 10))).attempts = false →
      (setEntry cfgC8 (fun _ => false) stC8 "k" ⟨[], 20⟩).per =
        (tryTrimPersistent { stC8 with attempts := stC8.attempts + 1 } cfgC8.source
          (max 1 (9 * cfgC8.maxEntries / 10))).per ∧
      (setEntry cfgC8 (fun _ => false) stC8 "k" ⟨[], 20⟩).attempts = stC8.attempts + 2) ∧
    (fetchAndStore cfgC8 (fun _ => false) [] 0 0 0 stC8).1 =
      dedupeEvents (([] : List Event).filterMap normalizeEvent)) :=
  ⟨⟨rfl, rfl, by decide⟩,
    C8_trim_and_retry cfgC8 (fun _ => false) stC8 "k" ⟨[], 20⟩ [] 0 0 0
      rfl rfl (by decide)⟩

/-! ## Claim C7: object identity in the memory backend

JS objects have identity: mutating an event object through one reference is
visible through every other reference to the same object.  To reason about
which objects `get` hands out, event objects are modelled as addresses into a
heap (`List (Nat × Event)` mapping each address to the object's current field
values).  The memory backend stores `CacheEntry` objects whose `data` arrays
hold event-object references (`memoryStore.set` neither serializes nor clones),
so the store is keyed lists of addresses.  On the serve-from-cache path `get`
executes `collected.push(...entry.data)`, then `collected.filter(...)`, then
`dedupeEvents` — each of which copies references, never objects — so the
returned array holds the very addresses stored in the cache.  (`localStorage`
mode differs: each read JSON-parses a fresh copy.) -/

def deref : List (Nat × Event) → Nat → Option Event
  | [], _ => none
  | (a', ev) :: rest, a => if a' = a then some ev else deref rest a

/-- Mutating the object at address `a` (e.g. assigning to a field of a
returned event). -/
def heapSet : List (Nat × Event) → Nat → Event → List (Nat × Event)
  | [], a, ev => [(a, ev)]
  | (a', ev') :: rest, a, ev =>
    if a' = a then (a, ev) :: rest else (a', ev') :: heapSet rest a ev

/-- `collected.push(...entry.data)` over the consulted keys: reference spread. -/
def collectRefs (store : List (String × List Nat)) : List String → List Nat
  | [] => []
  | k :: rest => (alGet store k).getD [] ++ collectRefs store rest

/-- `collected.filter((ev) => eventOverlapsRange(ev, start, end))`: the
predicate reads the objects, the output keeps the references. -/
def filterRefs (h : List (Nat × Event)) (s e : Int) (addrs : List Nat) : List Nat :=
  addrs.filter (fun a =>
    match deref h a with
    | some ev => eventOverlapsRange ev s e
    | none => false)

/-- `dedupeEvents` on an array of references: keys are computed from the
objects, the output keeps the references. -/
def dedupeRefsAux (h : List (Nat × Event)) : List Nat → List String → List Nat
  | [], _ => []
  | a :: rest, seen =>
    let key :=
      match deref h a with
      | some ev => dedupeKey ev
      | none => ""
    if key ∈ seen then dedupeRefsAux h rest seen
    else a :: dedupeRefsAux h rest (key :: seen)

/-- The memory-mode serve-from-cache path of `get`, on references. -/
def memServe (h : List (Nat × Event)) (store : List (String × List Nat))
    (keys : List String) (s e : Int) : List Nat :=
  dedupeRefsAux h (filterRefs h s e (collectRefs store keys)) []

theorem dedupeRefsAux_subset (h : List (Nat × Event)) {a : Nat} :
    ∀ (l : List Nat) (seen : List String), a ∈ dedupeRefsAux h l seen → a ∈ l := by
  intro l
  induction l with
  | nil =>
    intro seen ha
    cases ha
  | cons a2 rest ih =>
    intro seen ha
    unfold dedupeRefsAux at ha
    dsimp only at ha
    by_cases hk : (match deref h a2 with
      | some ev => dedupeKey ev
      | none => "") ∈ seen
    · rw [if_pos hk] at ha
      exact List.mem_cons_of_mem _ (ih seen ha)
    · rw [if_neg hk] at ha
      rcases List.mem_cons.mp ha with rfl | ha
      · exact List.mem_cons_self _ _
      · exact List.mem_cons_of_mem _ (ih _ ha)

theorem collectRefs_mem (store : List (String × List Nat)) {a : Nat} :
    ∀ (keys : List String), a ∈ collectRefs store keys →
      ∃ k ∈ keys, a ∈ (alGet store k).getD [] := by
  intro keys
  induction keys with
  | nil =>
    intro ha
    cases ha
  | cons k rest ih =>
    intro ha
    rcases List.mem_append.mp ha with ha | ha
    · exact ⟨k, List.mem_cons_self _ _, ha⟩
    · obtain ⟨k2, hk2, ha2⟩ := ih ha
      exact ⟨k2, List.mem_cons_of_mem _ hk2, ha2⟩

theorem deref_heapSet_same (a : Nat) (ev : Event) :
    ∀ h : List (Nat × Event), deref (heapSet h a ev) a = some ev := by
  intro h
  induction h with
  | nil =>
    unfold heapSet deref
    rw [if_pos rfl]
  | cons p rest ih =>
    unfold heapSet
    by_cases hk : p.1 = a
    · rw [if_pos hk]
      unfold deref
      rw [if_pos rfl]
    · rw [if_neg hk]
      unfold deref
      rw [if_neg hk]
      exact ih

/-- **C7** (corrected): contrary to the claim, with the memory backend the
events returned by `get` are references to — not copies of — the cache's
stored data: every address in the served list is an address stored in some
consulted cache entry, and mutating the object behind such an address is
visible through the store, which still holds the same address.  (Only the
`localStorage` backend hands out fresh parsed copies.) -/
theorem C7_memory_reference_semantics (h : List (Nat × Event))
    (store : List (String × List Nat)) (keys : List String) (s e : Int)
    (a : Nat) (ev2 : Event) (ha : a ∈ memServe h store keys s e) :
    (∃ k ∈ keys, a ∈ (alGet store k).getD []) ∧
    deref (heapSet h a ev2) a = some ev2 := by
  refine ⟨?_, deref_heapSet_same a ev2 h⟩
  have h1 := dedupeRefsAux_subset h _ _ ha
  have h2 := (List.mem_filter.mp h1).1
  exact collectRefs_mem store keys h2

def evC7 : Event := ⟨some "a", .val 0, .val 3600000, 1⟩

def evC7m : Event := ⟨some "a", .val 0, .val 3600000, 2⟩

/-- **C7 counterexample**: one event stored at address 0 in the day bucket;
`get`'s serving path returns exactly address 0, i.e. the stored object itself;
mutating that returned object (payload 1 → 2) changes the value seen through
the stored cache entry, which still references address 0.  The stored entry
does not remain unchanged, refuting the copies-not-references claim for the
memory backend. -/
theorem C7_counterexample :
    memServe [(0, evC7)] [("day:1970-01-01", [0])] ["day:1970-01-01"] 0 86400000 = [0] ∧
    (0 : Nat) ∈ (alGet [("day:1970-01-01", [0])] "day:1970-01-01").getD [] ∧
    ((alGet [("day:1970-01-01", [(0 : Nat)])] "day:1970-01-01").getD []).filterMap
      (deref [(0, evC7)]) = [evC7] ∧
    ((alGet [("day:1970-01-01", [(0 : Nat)])] "day:1970-01-01").getD []).filterMap
      (deref (heapSet [(0, evC7)] 0 evC7m)) = [evC7m] ∧
    evC7m ≠ evC7 :=
  ⟨rfl, by decide, rfl, rfl, by decide⟩

/-- Witness for C7 at the concrete one-entry store. -/
theorem C7_memory_reference_semantics_witness :
    (0 : Nat) ∈ memServe [(0, evC7)] [("day:1970-01-01", [0])] ["day:1970-01-01"]
        0 86400000 ∧
    ((∃ k ∈ ["day:1970-01-01"], (0 : Nat) ∈
        (alGet [("day:1970-01-01", [(0 : Nat)])] k).getD []) ∧
      deref (heapSet [(0, evC7)] 0 evC7m) 0 = some evC7m) :=
  ⟨by decide,
    C7_memory_reference_semantics [(0, evC7)] [("day:1970-01-01", [0])]
      ["day:1970-01-01"] 0 86400000 0 evC7m (by decide)⟩

end CacheModel
